import Mathlib

set_option maxHeartbeats 1000000

/-!
Shallow embedding of `src/main.rs` of `david-galvin/vertex_clique_covers`.

Bit vectors (`bitvec_simd::BitVec` of fixed length `length`) are embedded as
finite sets of naturals (`Finset ℕ`); `set_all_true` becomes
`Finset.range length`, `or/and/xor_inplace` become `∪ / ∩ /` symmetric
difference, `none()` becomes `= ∅`.  `SmallVec` becomes `List`.  The random
number generator is abstracted: every call to `fastrand` is replaced by an
oracle parameter supplying the drawn value, so that a theorem quantifying over
the oracles covers every possible sequence of draws.
-/

/-- Clique record, mirroring `struct Clique` (main.rs lines 33-42). -/
structure Clique where
  members_bv : Finset ℕ
  members_ct : ℕ
  members : List ℕ
  neighbors_bv : Finset ℕ
  length : ℕ
  id : ℕ
  is_active : Bool
  has_neighbors : Bool
deriving DecidableEq

/-- Symmetric difference of two bit vectors (`xor_inplace`). -/
def bv_xor (a b : Finset ℕ) : Finset ℕ := (a ∪ b) \ (a ∩ b)

/-- Rust `Clique::new(num_vertices, id)` (lines 47-58): note the Rust value has
`members = [id]` and `members_ct = 1` while `members_bv` is still all zeros. -/
def Clique.new (num_vertices id : ℕ) : Clique :=
  { members_bv := ∅, members_ct := 1, members := [id], neighbors_bv := ∅,
    length := num_vertices, id := id, is_active := true, has_neighbors := false }

/-- Default clique used to totalise list indexing (`getD`); every indexing in
the embedded code is in bounds in the states the theorems quantify over. -/
def dC : Clique := Clique.new 0 0

/-- Rust `CliqueMaker::make_clique` (lines 95-100) for a given id: the maker's
running `id` counter is passed explicitly. -/
def make_clique (num_vertices id : ℕ) : Clique :=
  let c := Clique.new num_vertices id
  { c with members_bv := insert id c.members_bv }

/-- Rust `transcribe_clique_onto_clique` (lines 109-132).  Every field of the
target is overwritten from the source (the target only donates its backing
storage), so the result is a function of the source alone. -/
def transcribe_clique_onto_clique (source_clique : Clique) : Clique :=
  let members_bv0 : Finset ℕ := ∅
  let members0 : List ℕ := []
  let mb :=
    if source_clique.members_ct = 1 then
      (insert (source_clique.members.getD 0 0) members_bv0,
       members0 ++ [source_clique.members.getD 0 0])
    else
      (members_bv0 ∪ source_clique.members_bv, members0 ++ source_clique.members)
  { members_bv := mb.1, members := mb.2,
    members_ct := source_clique.members_ct,
    neighbors_bv := ∅ ∪ source_clique.neighbors_bv,
    length := source_clique.length, id := source_clique.id,
    is_active := source_clique.is_active,
    has_neighbors := source_clique.has_neighbors }

/-- Rust `CliqueMaker::get_copy_of_clique` (lines 102-106): a fresh clique with
the source transcribed onto it. -/
def get_copy_of_clique (clique_to_copy : Clique) : Clique :=
  transcribe_clique_onto_clique clique_to_copy

/-- Graph record mirroring `struct Graph` (lines 134-140). -/
structure Graph where
  size : ℕ
  vertices : List Clique
  cliques : List Clique
  cliques_ct : ℕ
  utility_bv : Finset ℕ
deriving DecidableEq

/-- Rust `Graph::new` (lines 143-162). -/
def Graph.new (num_vertices : ℕ) : Graph :=
  { size := num_vertices,
    vertices := (List.range num_vertices).map (fun i => make_clique num_vertices i),
    cliques := (List.range num_vertices).map
      (fun i => get_copy_of_clique (make_clique num_vertices i)),
    cliques_ct := num_vertices,
    utility_bv := ∅ }

/-- Rust `Graph::activate_inactive_clique` (lines 164-172). -/
def Graph.activate_inactive_clique (g : Graph) : Graph × Bool :=
  if g.size = g.cliques_ct then (g, false)
  else
    ({ g with
        cliques := g.cliques.set g.cliques_ct
          { (g.cliques.getD g.cliques_ct dC) with is_active := true },
        cliques_ct := g.cliques_ct + 1 }, true)

/-- Rust `Vec::swap_remove i`: remove the element at index `i`, moving the last
element into its place. -/
def swapRemove (l : List ℕ) (i : ℕ) : List ℕ :=
  (l.set i (l.getD (l.length - 1) 0)).dropLast

/-- The member-moving loop of `transfer_vertices_in_utility_bv_between_cliques`
(lines 251-264): `for i in (0..clique_from.members_ct).rev()` with
`swap_remove`.  Because indices are visited in decreasing order and
`swap_remove` only relocates elements from higher (already visited) positions,
the element read at index `i` is the original member at that index; the
recursion reads the current list exactly as the Rust code does. -/
def transferLoop (vertices_vec : List Clique) (utility_bv : Finset ℕ) :
    ℕ → Clique → Clique → Clique × Clique
  | 0, clique_into, clique_from => (clique_into, clique_from)
  | i + 1, clique_into, clique_from =>
    if clique_from.members.getD i 0 ∈ utility_bv then
      transferLoop vertices_vec utility_bv i
        { clique_into with
            neighbors_bv := clique_into.neighbors_bv ∩
              (vertices_vec.getD (clique_from.members.getD i 0) dC).neighbors_bv,
            members := clique_into.members ++ [clique_from.members.getD i 0],
            members_ct := clique_into.members_ct + 1 }
        { clique_from with
            members := swapRemove clique_from.members i,
            members_ct := clique_from.members_ct - 1 }
    else
      transferLoop vertices_vec utility_bv i clique_into
        { clique_from with
            neighbors_bv := clique_from.neighbors_bv ∩
              (vertices_vec.getD (clique_from.members.getD i 0) dC).neighbors_bv }

/-- Rust `Graph::transfer_vertices_in_utility_bv_between_cliques`
(lines 239-278). -/
def transfer_vertices_in_utility_bv_between_cliques (vertices_vec : List Clique)
    (clique_into clique_from : Clique) (utility_bv : Finset ℕ) : Clique × Clique :=
  let ci0 := { clique_into with members_bv := clique_into.members_bv ∪ utility_bv }
  let cf0 := { clique_from with
      members_bv := bv_xor clique_from.members_bv utility_bv,
      neighbors_bv := Finset.range clique_from.length }
  let r := transferLoop vertices_vec utility_bv cf0.members_ct ci0 cf0
  let cf1 :=
    if r.2.members_ct = 0 then
      { r.2 with neighbors_bv := Finset.range r.2.length, has_neighbors := true,
                 is_active := false }
    else
      { r.2 with has_neighbors := true }
  let ci1 := if r.1.neighbors_bv = ∅ then { r.1 with has_neighbors := false } else r.1
  (ci1, cf1)

/-- Rust `Graph::transfer_vertex_into_clique` (lines 174-209).  The result also
carries the final value of the scratch `utility_bv`. -/
def transfer_vertex_into_clique (vertices_vec : List Clique)
    (clique_into clique_from : Clique) (utility_bv : Finset ℕ) (vertex_id : ℕ) :
    Clique × Clique × Finset ℕ :=
  if clique_into.has_neighbors = false then (clique_into, clique_from, utility_bv)
  else if vertex_id ∉ clique_from.members_bv then (clique_into, clique_from, utility_bv)
  else if vertex_id ∉ clique_into.neighbors_bv then (clique_into, clique_from, utility_bv)
  else if clique_into.is_active = false then (clique_into, clique_from, utility_bv)
  else
    let u : Finset ℕ := insert vertex_id ∅
    let r := transfer_vertices_in_utility_bv_between_cliques vertices_vec
      clique_into clique_from u
    (r.1, r.2, u)

/-- Rust `Graph::transfer_compatible_vertices` (lines 211-237). -/
def transfer_compatible_vertices (vertices_vec : List Clique)
    (clique_into clique_from : Clique) (utility_bv : Finset ℕ) :
    Clique × Clique × Finset ℕ :=
  if clique_into.has_neighbors = false then (clique_into, clique_from, utility_bv)
  else
    let u : Finset ℕ := (∅ ∪ clique_into.neighbors_bv) ∩ clique_from.members_bv
    if u = ∅ then (clique_into, clique_from, u)
    else
      let r := transfer_vertices_in_utility_bv_between_cliques vertices_vec
        clique_into clique_from u
      (r.1, r.2, u)

/-- Swap of two list entries, as `self.cliques.swap(i, j)` does. -/
def swapL (l : List Clique) (i j : ℕ) : List Clique :=
  (l.set i (l.getD j dC)).set j (l.getD i dC)

/-- Rust `Graph::shuffle_active_cliques` (lines 280-282): `fastrand::shuffle`
is Fisher-Yates over the active prefix; the oracle `r` supplies the draws
(reduced into range, so that every possible draw sequence is covered). -/
def shuffle_go (r : ℕ → ℕ) : ℕ → List Clique → List Clique
  | 0, l => l
  | i + 1, l => shuffle_go r i (swapL l (i + 1) (r (i + 1) % (i + 2)))

def shuffle_active_cliques (r : ℕ → ℕ) (g : Graph) : Graph :=
  { g with cliques := shuffle_go r (g.cliques_ct - 1) g.cliques }

/-- Rust `Graph::reverse_active_cliques` (lines 284-286). -/
def reverse_active_cliques (g : Graph) : Graph :=
  { g with cliques := (g.cliques.take g.cliques_ct).reverse ++ g.cliques.drop g.cliques_ct }

/-- Inner loop of `vcc_greedy` (`for j in (i+1)..cliques_ct`, lines 294-307);
the state is the working clique list together with the scratch bit vector.
The first argument is fuel bounding the remaining iterations — the call sites
pass exactly `ct - j`, so the `j < ct` exit condition always fires before the
fuel runs out; the fuel only keeps the recursion structural (and hence
kernel-computable). -/
def greedyInner (vertices_vec : List Clique) (ct i : ℕ) :
    ℕ → ℕ → List Clique × Finset ℕ → List Clique × Finset ℕ
  | 0, _, st => st
  | fuel + 1, j, st =>
    if j < ct then
      let st' :=
        if (st.1.getD j dC).is_active = false then st
        else
          let r := transfer_compatible_vertices vertices_vec
            (st.1.getD i dC) (st.1.getD j dC) st.2
          ((st.1.set i r.1).set j r.2.1, r.2.2)
      greedyInner vertices_vec ct i fuel (j + 1) st'
    else st

/-- Outer loop of `vcc_greedy` (`for i in 0..(cliques_ct - 1)`, lines 290-308),
skipping inactive `cliques[i]`; fueled like `greedyInner`. -/
def greedyOuter (vertices_vec : List Clique) (ct : ℕ) :
    ℕ → ℕ → List Clique × Finset ℕ → List Clique × Finset ℕ
  | 0, _, st => st
  | fuel + 1, i, st =>
    if i < ct - 1 then
      let st' :=
        if (st.1.getD i dC).is_active = false then st
        else greedyInner vertices_vec ct i (ct - (i + 1)) (i + 1) st
      greedyOuter vertices_vec ct fuel (i + 1) st'
    else st

/-- Compaction loop of `vcc_greedy` (lines 310-324).  Each iteration strictly
decreases `ct - i`, so fuel `ct - i` at entry outlasts the loop. -/
def compactLoop (fuel : ℕ) (cliques : List Clique) (i ct : ℕ) : List Clique × ℕ :=
  match fuel with
  | 0 => (cliques, ct)
  | fuel + 1 =>
    if i < ct then
      if (cliques.getD i dC).is_active = true then compactLoop fuel cliques (i + 1) ct
      else if (cliques.getD (ct - 1) dC).is_active = true then
        compactLoop fuel (swapL cliques i (ct - 1)) (i + 1) (ct - 1)
      else compactLoop fuel cliques i (ct - 1)
    else (cliques, ct)

/-- Rust `Graph::vcc_greedy` (lines 288-325). -/
def vcc_greedy (g : Graph) : Graph :=
  let st := greedyOuter g.vertices g.cliques_ct (g.cliques_ct - 1) 0 (g.cliques, g.utility_bv)
  let c := compactLoop (g.cliques_ct - 1) st.1 1 g.cliques_ct
  { g with cliques := c.1, cliques_ct := c.2, utility_bv := st.2 }

/-- Rust `Graph::vcc_iterated_greedy` (lines 327-334): the Boolean `coin` is
the outcome of `fastrand::f64() < reverse_fraction`, and `r` drives the
shuffle taken in the other branch. -/
def vcc_iterated_greedy (coin : Bool) (r : ℕ → ℕ) (g : Graph) : Graph :=
  vcc_greedy (if coin then reverse_active_cliques g else shuffle_active_cliques r g)

/-- Rust `Graph::conform_cliques_to_vertices` (lines 409-414). -/
def conform_cliques_to_vertices (g : Graph) : Graph :=
  { g with
      cliques := (List.range g.size).foldl
        (fun cs i => cs.set i (transcribe_clique_onto_clique (g.vertices.getD i dC)))
        g.cliques,
      cliques_ct := g.size }

/-- Forced-split step of `vcc_run_iterations_to_target` (lines 360-376):
activate a clique, then attempt the seeding single-vertex transfer.  The value
`r` stands for the draw `fastrand::usize(..self.cliques[0].members_ct)`; the
Rust code passes this draw directly as the `vertex_id` argument of
`transfer_vertex_into_clique`. -/
def forced_split_step (g : Graph) (r : ℕ) : Graph :=
  let g1 := (g.activate_inactive_clique).1
  let vertex_id_to_transfer := r
  let clique_from := g1.cliques.getD 0 dC
  let clique_into := g1.cliques.getD (g1.cliques_ct - 1) dC
  let t := transfer_vertex_into_clique g1.vertices clique_into clique_from
    g1.utility_bv vertex_id_to_transfer
  { g1 with cliques := (g1.cliques.set 0 t.2.1).set (g1.cliques_ct - 1) t.1,
            utility_bv := t.2.2 }

/-- Symmetric edge insertion on the vertex array
(`vertices[i].neighbors_bv.set(j, true)` and symmetrically). -/
def add_edge (vs : List Clique) (i j : ℕ) : List Clique :=
  let vs1 := vs.set i { (vs.getD i dC) with neighbors_bv := insert j (vs.getD i dC).neighbors_bv }
  vs1.set j { (vs1.getD j dC) with neighbors_bv := insert i (vs1.getD j dC).neighbors_bv }

/-- The nested edge-sampling loops shared by `get_random_graph` and
`get_random_graph_with_k_cliques`: edge `(i, j)` (with `i < j`) is inserted
exactly when `P i j` holds.  The probability counters (`edges_remaining`,
`edge_candidates_remaining`) of the Rust code only shape the distribution of
the coin flips; the embedding abstracts the flip outcomes into `P`. -/
def add_edges_cond (P : ℕ → ℕ → Bool) (n : ℕ) (vs : List Clique) : List Clique :=
  (List.range (n - 1)).foldl (fun vs i =>
    (List.range' (i + 1) (n - (i + 1))).foldl (fun vs j =>
      if P i j then add_edge vs i j else vs) vs) vs

/-- Lines 449-453 and 498-502: set `has_neighbors` on each vertex whose
adjacency set is non-empty. -/
def set_vertex_has_neighbors (n : ℕ) (vs : List Clique) : List Clique :=
  (List.range n).foldl (fun vs i =>
    if (vs.getD i dC).neighbors_bv ≠ ∅ then
      vs.set i { (vs.getD i dC) with has_neighbors := true }
    else vs) vs

/-- Rust `get_random_graph` (lines 435-457), with the sequence of edge coin
flips abstracted as `E` and the shuffle draws as `r`. -/
def get_random_graph (num_vertices : ℕ) (E : ℕ → ℕ → Bool) (r : ℕ → ℕ) : Graph :=
  let g0 := Graph.new num_vertices
  let g1 := { g0 with vertices := add_edges_cond E num_vertices g0.vertices }
  let g2 := { g1 with vertices := set_vertex_has_neighbors num_vertices g1.vertices }
  shuffle_active_cliques r (conform_cliques_to_vertices g2)

/-- Rust `get_random_graph_with_k_cliques` (lines 459-505): plants cliques on
the residue classes mod `cliques_ct`, samples the rest, and does not shuffle. -/
def get_random_graph_with_k_cliques (num_vertices cliques_ct : ℕ)
    (E : ℕ → ℕ → Bool) (r : ℕ → ℕ) : Graph :=
  if cliques_ct = 0 then get_random_graph num_vertices E r
  else
    let g0 := Graph.new num_vertices
    let vs1 := add_edges_cond
      (fun i j => (i % cliques_ct == j % cliques_ct) || E i j) num_vertices g0.vertices
    let g1 := { g0 with vertices := vs1 }
    let g2 := { g1 with vertices := set_vertex_has_neighbors num_vertices g1.vertices }
    conform_cliques_to_vertices g2

/-- The `annealings_per_slowdown` constant of `vcc_run_iterations_to_target`
(line 346). -/
def annealings_per_slowdown : ℕ := 1

/-- Slowdown bookkeeping at a forced-split trigger (lines 354-358): takes the
current `iterations_per_annealing` and `cur_annealing_annealings` counters and
returns their updated values. -/
def anneal_update (iterations_per_annealing cur_annealing_annealings : ℕ) : ℕ × ℕ :=
  if cur_annealing_annealings + 1 ≥ annealings_per_slowdown then
    (iterations_per_annealing + iterations_per_annealing / 50, 0)
  else (iterations_per_annealing, cur_annealing_annealings + 1)

/-- Panic conditions of the forced-split trigger made explicit:
`fastrand::usize(..cliques[0].members_ct)` on an empty range, and the
out-of-bounds `[0]` on the left part of `split_at_mut(cliques_ct - 1)` when
`cliques_ct - 1 = 0`. -/
inductive SplitPanic where
  | emptyRandRange
  | splitIndexOutOfBounds
deriving DecidableEq

/-- Loop-carried state of `vcc_run_iterations_to_target` (lines 342-348). -/
structure RunState where
  g : Graph
  iterations_per_annealing : ℕ
  cur_annealing_iterations : ℕ
  cur_annealing_annealings : ℕ
  pri_cliques : ℕ
deriving DecidableEq

/-- One forced-split trigger block (lines 352-378).  `rOracle` supplies the
random vertex draw, which the Rust code takes uniformly in
`[0, cliques[0].members_ct)`; the embedding reduces the oracle value into that
range, after flagging the empty-range panic.  The sweep at line 378 runs with
`reverse_fraction = 1.0`, and `fastrand::f64()` is in `[0, 1)`, so that sweep
always takes the reverse branch. -/
def trigger_block (rOracle : ℕ) (st : RunState) : Except SplitPanic RunState :=
  let au := anneal_update st.iterations_per_annealing st.cur_annealing_annealings
  let g1 := (st.g.activate_inactive_clique).1
  if (g1.cliques.getD 0 dC).members_ct = 0 then Except.error SplitPanic.emptyRandRange
  else if g1.cliques_ct - 1 = 0 then Except.error SplitPanic.splitIndexOutOfBounds
  else
    let r := rOracle % (g1.cliques.getD 0 dC).members_ct
    let g2 := forced_split_step st.g r
    Except.ok { g := vcc_iterated_greedy true (fun _ => 0) g2,
                iterations_per_annealing := au.1,
                cur_annealing_iterations := 0,
                cur_annealing_annealings := au.2,
                pri_cliques := st.pri_cliques }

/-- One iteration `i` of the main loop of `vcc_run_iterations_to_target`
(lines 349-405).  `none` means the loop returned `true` at line 402. -/
def run_iteration (coin : Bool) (shuf : ℕ → ℕ) (rOracle : ℕ) (target i : ℕ)
    (st : RunState) : Except SplitPanic (Option RunState) :=
  let st0 := { st with cur_annealing_iterations := st.cur_annealing_iterations + 1 }
  (if st0.cur_annealing_iterations ≥ st0.iterations_per_annealing then
      trigger_block rOracle st0
   else Except.ok st0).bind (fun st1 =>
    let st2 := { st1 with g := vcc_iterated_greedy coin shuf st1.g }
    if i % 1000000 = 0 ∨ st2.g.cliques_ct < st2.pri_cliques then
      let st3 := { st2 with
        cur_annealing_iterations :=
          if st2.g.cliques_ct < st2.pri_cliques then 0 else st2.cur_annealing_iterations,
        pri_cliques := st2.g.cliques_ct }
      if st3.g.cliques_ct ≤ target then Except.ok none else Except.ok (some st3)
    else Except.ok (some st2))

/-- The iteration loop `for i in 1..(num_iterations + 1)` of
`vcc_run_iterations_to_target`; fueled with the remaining iteration count
`num_iterations + 1 - i` to keep the recursion structural. -/
def run_loop (coins : ℕ → Bool) (shufs : ℕ → ℕ → ℕ) (rs : ℕ → ℕ)
    (target num_iterations : ℕ) : ℕ → ℕ → RunState → Except SplitPanic Bool
  | 0, _, _ => Except.ok false
  | fuel + 1, i, st =>
    if i ≥ num_iterations + 1 then Except.ok false
    else
      match run_iteration (coins i) (shufs i) (rs i) target i st with
      | Except.error e => Except.error e
      | Except.ok none => Except.ok true
      | Except.ok (some st') =>
        run_loop coins shufs rs target num_iterations fuel (i + 1) st'

/-- Rust `Graph::vcc_run_iterations_to_target` (lines 336-407), with oracles
for the random draws; printing and wall-clock reads are dropped (they do not
feed back into the state). -/
def vcc_run_iterations_to_target (coins : ℕ → Bool) (shufs : ℕ → ℕ → ℕ) (rs : ℕ → ℕ)
    (g : Graph) (num_iterations target : ℕ) : Except SplitPanic Bool :=
  run_loop coins shufs rs target num_iterations num_iterations 1
    { g := g, iterations_per_annealing := 1000000, cur_annealing_iterations := 0,
      cur_annealing_annealings := 0, pri_cliques := g.cliques_ct }

/-! ## Specification predicates -/

/-- Brute-force neighbour frontier of a member set `M`: the vertices of the
universe `[0, n)` outside `M` that are adjacent to every member of `M`
(spec §3, invariant 2). -/
def frontierSpec (n : ℕ) (adj : ℕ → Finset ℕ) (M : Finset ℕ) : Finset ℕ :=
  (Finset.range n).filter (fun v => v ∉ M ∧ ∀ m ∈ M, v ∈ adj m)

/-- Well-formed adjacency structure: bounded by the vertex universe,
irreflexive and symmetric (the output contract of the graph providers). -/
structure AdjWF (n : ℕ) (adj : ℕ → Finset ℕ) : Prop where
  bounded : ∀ i, adj i ⊆ Finset.range n
  irrefl : ∀ i, i ∉ adj i
  symm : ∀ i j, i ∈ adj j → j ∈ adj i

/-- Clique well-formedness relative to the adjacency `adj` on `[0, n)`:
the spec's invariants (members pairwise adjacent, frontier exact, redundant
member list and count in sync) plus the cached-flag contract of claim C5. -/
structure CliqueWF (n : ℕ) (adj : ℕ → Finset ℕ) (c : Clique) : Prop where
  len : c.length = n
  nodup : c.members.Nodup
  bv_eq : c.members.toFinset = c.members_bv
  ct_eq : c.members_ct = c.members.length
  bounded : c.members_bv ⊆ Finset.range n
  pairwise : ∀ a ∈ c.members_bv, ∀ b ∈ c.members_bv, a ≠ b → b ∈ adj a
  frontier : c.neighbors_bv = frontierSpec n adj c.members_bv
  flag : c.has_neighbors = true ↔ c.neighbors_bv ≠ ∅

/-- Canonical form of the immutable vertex array entry `i`: the singleton
clique `{i}` whose frontier is the fixed adjacency set of vertex `i`. -/
def canonicalVertex (n : ℕ) (adj : ℕ → Finset ℕ) (i : ℕ) : Clique :=
  { members_bv := {i}, members_ct := 1, members := [i], neighbors_bv := adj i,
    length := n, id := i, is_active := true,
    has_neighbors := decide (adj i ≠ ∅) }

/-- Multiset of vertices covered by the active cliques among the working-array
prefix `[0, cliques_ct)` (claim C3's quantity). -/
def coverSum (g : Graph) : Multiset ℕ :=
  ∑ k ∈ Finset.range g.cliques_ct,
    (if (g.cliques.getD k dC).is_active = true
     then ((g.cliques.getD k dC).members : Multiset ℕ) else 0)

/-- A `transfer_compatible_vertices` call on working-array slots `i` (into)
and `j` (from), with the results written back, as `vcc_greedy` performs it. -/
def graph_transfer_compat (g : Graph) (i j : ℕ) : Graph :=
  let r := transfer_compatible_vertices g.vertices
    (g.cliques.getD i dC) (g.cliques.getD j dC) g.utility_bv
  { g with cliques := (g.cliques.set i r.1).set j r.2.1, utility_bv := r.2.2 }

/-- A `transfer_vertex_into_clique` call on working-array slots `i` (into) and
`j` (from) with vertex id `v`, as the forced-split seeding performs it. -/
def graph_transfer_single (g : Graph) (i j v : ℕ) : Graph :=
  let r := transfer_vertex_into_clique g.vertices
    (g.cliques.getD i dC) (g.cliques.getD j dC) g.utility_bv v
  { g with cliques := (g.cliques.set i r.1).set j r.2.1, utility_bv := r.2.2 }

/-- States reachable from a freshly constructed graph by any sequence of
compatible-set and single-vertex transfers between two distinct working-array
slots (the universe of claim C2).  The parameter `adj` names the adjacency
structure the construction produced. -/
inductive TReach (n : ℕ) (adj : ℕ → Finset ℕ) : Graph → Prop where
  | fresh (E : ℕ → ℕ → Bool) (r : ℕ → ℕ)
      (hv : (get_random_graph n E r).vertices = (List.range n).map (canonicalVertex n adj)) :
      TReach n adj (get_random_graph n E r)
  | freshK (k : ℕ) (E : ℕ → ℕ → Bool) (r : ℕ → ℕ)
      (hv : (get_random_graph_with_k_cliques n k E r).vertices =
        (List.range n).map (canonicalVertex n adj)) :
      TReach n adj (get_random_graph_with_k_cliques n k E r)
  | compat (g : Graph) (i j : ℕ) (hij : i ≠ j) (hi : i < g.cliques.length)
      (hj : j < g.cliques.length) (h : TReach n adj g) :
      TReach n adj (graph_transfer_compat g i j)
  | single (g : Graph) (i j v : ℕ) (hij : i ≠ j) (hi : i < g.cliques.length)
      (hj : j < g.cliques.length) (h : TReach n adj g) :
      TReach n adj (graph_transfer_single g i j v)

/-- States reachable by the primitive mutation steps the program composes:
construction, conforming, prefix perturbation, greedy sweeps, clique
activation, and the two transfer operations at the call shapes the program
uses (both slots inside the working prefix, the receiving clique active).
Every intermediate state of `vcc_iterated_greedy` and of
`vcc_run_iterations_to_target` between two such primitives is of this form. -/
inductive CReach (n : ℕ) (adj : ℕ → Finset ℕ) : Graph → Prop where
  | fresh (E : ℕ → ℕ → Bool) (r : ℕ → ℕ)
      (hv : (get_random_graph n E r).vertices = (List.range n).map (canonicalVertex n adj)) :
      CReach n adj (get_random_graph n E r)
  | freshK (k : ℕ) (E : ℕ → ℕ → Bool) (r : ℕ → ℕ)
      (hv : (get_random_graph_with_k_cliques n k E r).vertices =
        (List.range n).map (canonicalVertex n adj)) :
      CReach n adj (get_random_graph_with_k_cliques n k E r)
  | conform (g : Graph) (h : CReach n adj g) :
      CReach n adj (conform_cliques_to_vertices g)
  | shuffle (g : Graph) (r : ℕ → ℕ) (h : CReach n adj g) :
      CReach n adj (shuffle_active_cliques r g)
  | reverse (g : Graph) (h : CReach n adj g) :
      CReach n adj (reverse_active_cliques g)
  | greedy (g : Graph) (h : CReach n adj g) :
      CReach n adj (vcc_greedy g)
  | activate (g : Graph) (h : CReach n adj g) :
      CReach n adj (g.activate_inactive_clique).1
  | compat (g : Graph) (i j : ℕ) (hij : i ≠ j) (hi : i < g.cliques_ct)
      (hj : j < g.cliques_ct) (hact : (g.cliques.getD i dC).is_active = true)
      (h : CReach n adj g) : CReach n adj (graph_transfer_compat g i j)
  | single (g : Graph) (i j v : ℕ) (hij : i ≠ j) (hi : i < g.cliques_ct)
      (hj : j < g.cliques_ct) (hact : (g.cliques.getD i dC).is_active = true)
      (h : CReach n adj g) : CReach n adj (graph_transfer_single g i j v)

/-- Well-formedness invariant carried along `TReach`. -/
structure WfInv (n : ℕ) (adj : ℕ → Finset ℕ) (g : Graph) : Prop where
  vert : g.vertices = (List.range n).map (canonicalVertex n adj)
  clen : g.cliques.length = n
  wf : ∀ c ∈ g.cliques, CliqueWF n adj c

/-- Master invariant carried along `CReach`: well-formedness plus the
structural facts needed for conservation. -/
structure CInv (n : ℕ) (adj : ℕ → Finset ℕ) (g : Graph) : Prop where
  size_eq : g.size = n
  vert : g.vertices = (List.range n).map (canonicalVertex n adj)
  clen : g.cliques.length = n
  ct_le : g.cliques_ct ≤ n
  wf : ∀ c ∈ g.cliques, CliqueWF n adj c
  tail_inactive : ∀ k, g.cliques_ct ≤ k → k < n → (g.cliques.getD k dC).is_active = false
  inactive_empty : ∀ c ∈ g.cliques, c.is_active = false → c.members_ct = 0
  cons : coverSum g = (List.range n : Multiset ℕ)

/-- Invariant of the run loop at iteration boundaries: on top of `CInv`, the
working prefix is entirely active with non-empty cliques. -/
structure StrongInv (n : ℕ) (adj : ℕ → Finset ℕ) (g : Graph) : Prop where
  ci : CInv n adj g
  ctpos : 1 ≤ g.cliques_ct
  prefix_active : ∀ k, k < g.cliques_ct → (g.cliques.getD k dC).is_active = true
  prefix_nonempty : ∀ k, k < g.cliques_ct → 1 ≤ (g.cliques.getD k dC).members_ct

/-- Precondition under which one `vcc_greedy` call reestablishes `StrongInv`:
slot 0 of the working array is active, and every active clique of the prefix
other than slot 0 is non-empty (slot 0 may be a freshly activated empty
clique). -/
structure SweepPre (n : ℕ) (adj : ℕ → Finset ℕ) (g : Graph) : Prop where
  ci : CInv n adj g
  ctpos : 1 ≤ g.cliques_ct
  slot0 : (g.cliques.getD 0 dC).is_active = true
  mid_nonempty : ∀ k, 1 ≤ k → k < g.cliques_ct →
    (g.cliques.getD k dC).is_active = true → 1 ≤ (g.cliques.getD k dC).members_ct

/-- List-level form of `coverSum`: the multiset of vertices covered by the
active cliques among slots `[0, ct)` of a working array. -/
def coverL (ct : ℕ) (l : List Clique) : Multiset ℕ :=
  ∑ k ∈ Finset.range ct,
    (if (l.getD k dC).is_active = true then ((l.getD k dC).members : Multiset ℕ) else 0)

/-- The list-level part of `CInv`: the invariant carried by the working clique
array together with its active count `ct`, stated independently of the
enclosing `Graph` record so that the loop lemmas can thread it. -/
structure LInv (n : ℕ) (adj : ℕ → Finset ℕ) (ct : ℕ) (cliques : List Clique) : Prop where
  clen : cliques.length = n
  ct_le : ct ≤ n
  wf : ∀ c ∈ cliques, CliqueWF n adj c
  tail_inactive : ∀ k, ct ≤ k → k < n → (cliques.getD k dC).is_active = false
  inactive_empty : ∀ c ∈ cliques, c.is_active = false → c.members_ct = 0
  cons : coverL ct cliques = ((List.range n : List ℕ) : Multiset ℕ)

/-! ## Concrete instances used by witnesses and counterexamples -/

/-- Two-vertex adjacency with the single edge 0-1. -/
def adjPair : ℕ → Finset ℕ := fun i =>
  (Finset.range 2).filter (fun j => (i = 0 ∧ j = 1) ∨ (i = 1 ∧ j = 0))

/-- Freshly constructed two-vertex graph with the single edge 0-1 (identity
shuffle draws). -/
def gPair : Graph := get_random_graph 2 (fun i j => i == 0 && j == 1) (fun _ => 0)

/-- Three-vertex adjacency with the single edge 1-2. -/
def adjBug : ℕ → Finset ℕ := fun i =>
  (Finset.range 3).filter (fun j => (i = 1 ∧ j = 2) ∨ (i = 2 ∧ j = 1))

/-- Freshly constructed three-vertex graph with the single edge 1-2 (identity
shuffle draws): all three working slots active. -/
def gPre : Graph := get_random_graph 3 (fun i j => i == 1 && j == 2) (fun _ => 0)

/-- Three-vertex graph with the single edge 1-2, after one greedy sweep: the
working array is `[{1,2}, {0}, emptied]` with `cliques_ct = 2`.  Slot 0 holds
the two-member clique, the concrete state of claim C1's failing input. -/
def gBug : Graph := vcc_greedy (get_random_graph 3 (fun i j => i == 1 && j == 2) (fun _ => 0))

/-- One-vertex instance as `main` builds it: the counterexample input of
claim C10. -/
def gOne : Graph := get_random_graph_with_k_cliques 1 1 (fun _ _ => false) (fun _ => 0)

/-! ## Helper lemmas -/

theorem getD_set_self {l : List Clique} {i : ℕ} {a : Clique} (h : i < l.length) :
    (l.set i a).getD i dC = a := by
  simp [List.getD_eq_getElem?_getD, List.getElem?_set_self (by simpa using h)]

theorem getD_set_ne {l : List Clique} {i j : ℕ} {a : Clique} (h : i ≠ j) :
    (l.set i a).getD j dC = l.getD j dC := by
  simp [List.getD_eq_getElem?_getD, List.getElem?_set_ne h]

theorem compactLoop_ct_le (fuel : ℕ) : ∀ (cliques : List Clique) (i ct : ℕ),
    (compactLoop fuel cliques i ct).2 ≤ ct := by
  induction fuel with
  | zero => intro cl i ct; exact le_refl ct
  | succ fuel ih =>
    intro cl i ct
    rw [compactLoop]
    by_cases h : i < ct
    · rw [if_pos h]
      by_cases h1 : (cl.getD i dC).is_active = true
      · rw [if_pos h1]; exact ih cl (i + 1) ct
      · rw [if_neg h1]
        by_cases h2 : (cl.getD (ct - 1) dC).is_active = true
        · rw [if_pos h2]
          exact le_trans (ih _ (i + 1) (ct - 1)) (by omega)
        · rw [if_neg h2]
          exact le_trans (ih cl i (ct - 1)) (by omega)
    · rw [if_neg h]

theorem foldl_set_range_length (T : ℕ → Clique) (m : ℕ) :
    ∀ cs : List Clique, ((List.range m).foldl (fun l k => l.set k (T k)) cs).length =
      cs.length := by
  induction m with
  | zero => intro cs; rfl
  | succ m ih =>
    intro cs
    rw [List.range_succ, List.foldl_append]
    simp [ih]

theorem foldl_set_range_getD (T : ℕ → Clique) (m i : ℕ) :
    ∀ cs : List Clique, i < cs.length →
      ((List.range m).foldl (fun l k => l.set k (T k)) cs).getD i dC =
        if i < m then T i else cs.getD i dC := by
  induction m with
  | zero => intro cs h; simp
  | succ m ih =>
    intro cs h
    rw [List.range_succ, List.foldl_append]
    simp only [List.foldl_cons, List.foldl_nil]
    by_cases him : i = m
    · subst him
      rw [getD_set_self (by rw [foldl_set_range_length]; exact h)]
      simp
    · rw [getD_set_ne (show m ≠ i from fun hh => him hh.symm)]
      rw [ih cs h]
      by_cases hlt : i < m
      · rw [if_pos hlt, if_pos (by omega)]
      · rw [if_neg hlt, if_neg (by omega)]

/-! ## Claim theorems (first group) -/

/-- Claim C1 (code bug, failing input).  `gBug` is the reachable state of the
three-vertex graph with single edge 1-2 after one greedy sweep: slot 0 of the
working array is the clique `{1, 2}` with `members_ct = 2`, so the forced
split draws `fastrand::usize(..2)`.  With draw `0` — probability one half —
the step activates a new clique (the active count does grow by 1) but moves
no vertex at all: the code passes the draw directly as a *vertex id* to
`transfer_vertex_into_clique`, vertex `0` is not a member of slot 0, and the
transfer silently no-ops, leaving the freshly activated clique empty, contrary
to the claim (and to the comment at line 363) that one vertex chosen from the
first clique's member list is moved into the new clique. -/
theorem claim_C1 :
    (gBug.cliques.getD 0 dC).members_ct = 2 ∧
    (gBug.cliques.getD 0 dC).members = [1, 2] ∧
    gBug.cliques_ct = 2 ∧
    (forced_split_step gBug 0).cliques_ct = gBug.cliques_ct + 1 ∧
    ((forced_split_step gBug 0).cliques.getD 0 dC) = gBug.cliques.getD 0 dC ∧
    ((forced_split_step gBug 0).cliques.getD 2 dC).members_ct = 0 ∧
    ((forced_split_step gBug 0).cliques.getD 2 dC).is_active = true := by
  refine ⟨rfl, rfl, rfl, rfl, ?_, rfl, rfl⟩
  decide

/-- Claim C4: the no-op guards.  A compatible-set transfer whose eligible set
`into.neighbors_bv ∩ from.members_bv` is empty, or whose receiving clique has
no frontier, returns both cliques bit-for-bit unchanged; a single-vertex
transfer violating any of its four preconditions (into has a frontier, the
vertex is a member of `from`, the vertex is in `into`'s frontier, into is
active) returns both cliques bit-for-bit unchanged. -/
theorem claim_C4 (vertices_vec : List Clique) (clique_into clique_from : Clique)
    (utility_bv : Finset ℕ) (vertex_id : ℕ) (hrange : vertex_id < clique_from.length) :
    ((clique_into.neighbors_bv ∩ clique_from.members_bv = ∅ ∨
        clique_into.has_neighbors = false) →
      (transfer_compatible_vertices vertices_vec clique_into clique_from utility_bv).1 =
          clique_into ∧
      (transfer_compatible_vertices vertices_vec clique_into clique_from utility_bv).2.1 =
          clique_from) ∧
    (¬ (clique_into.has_neighbors = true ∧ vertex_id ∈ clique_from.members_bv ∧
        vertex_id ∈ clique_into.neighbors_bv ∧ clique_into.is_active = true) →
      (transfer_vertex_into_clique vertices_vec clique_into clique_from utility_bv
          vertex_id).1 = clique_into ∧
      (transfer_vertex_into_clique vertices_vec clique_into clique_from utility_bv
          vertex_id).2.1 = clique_from) := by
  constructor
  · intro h
    unfold transfer_compatible_vertices
    by_cases hb : clique_into.has_neighbors = false
    · simp [hb]
    · rcases h with h | h
      · simp only [hb, if_false, Finset.empty_union]
        simp [h]
      · exact absurd h hb
  · intro h
    unfold transfer_vertex_into_clique
    by_cases h1 : clique_into.has_neighbors = false
    · simp [h1]
    · by_cases h2 : vertex_id ∈ clique_from.members_bv
      · by_cases h3 : vertex_id ∈ clique_into.neighbors_bv
        · by_cases h4 : clique_into.is_active = false
          · simp [h1, h2, h3, h4]
          · exact absurd ⟨by simpa using h1, h2, h3, by simpa using h4⟩ h
        · simp [h1, h2, h3]
      · simp [h1, h2]

/-- Witness for claim C4 at a concrete input: the fresh two-vertex graph's
slot-0 clique as receiver, with both guard kinds violated. -/
theorem claim_C4_witness :
    (transfer_compatible_vertices gPair.vertices (gPair.cliques.getD 0 dC)
        (gPair.cliques.getD 0 dC) ∅).1 = gPair.cliques.getD 0 dC ∧
    (transfer_vertex_into_clique gPair.vertices (gPair.cliques.getD 0 dC)
        (gPair.cliques.getD 0 dC) ∅ 0).2.1 = gPair.cliques.getD 0 dC := by
  have h := claim_C4 gPair.vertices (gPair.cliques.getD 0 dC) (gPair.cliques.getD 0 dC)
    ∅ 0 (by decide)
  exact ⟨(h.1 (by decide)).1, (h.2 (by decide)).2⟩

/-- Claim C6: a greedy sweep never increases the active clique count (the pair
phase leaves `cliques_ct` unchanged, the compaction loop only decrements). -/
theorem claim_C6 (g : Graph) : (vcc_greedy g).cliques_ct ≤ g.cliques_ct := by
  unfold vcc_greedy
  exact compactLoop_ct_le _ _ 1 g.cliques_ct

/-- Claim C9: the escalation threshold starts at 1,000,000 (the run-entry
state of `vcc_run_iterations_to_target`), and whenever the slowdown fires —
the escalation counter reaching `annealings_per_slowdown` — the new threshold
is the code's exact integer update `old + old / 50`, which equals the
truncation `⌊old · 51 / 50⌋` of `1.02 · old`. -/
theorem claim_C9 :
    (∀ (coins : ℕ → Bool) (shufs : ℕ → ℕ → ℕ) (rs : ℕ → ℕ) (g : Graph)
        (num_iterations target : ℕ),
      vcc_run_iterations_to_target coins shufs rs g num_iterations target =
        run_loop coins shufs rs target num_iterations num_iterations 1
          { g := g, iterations_per_annealing := 1000000, cur_annealing_iterations := 0,
            cur_annealing_annealings := 0, pri_cliques := g.cliques_ct }) ∧
    (∀ ipa caa : ℕ, caa + 1 ≥ annealings_per_slowdown →
      (anneal_update ipa caa).1 = ipa + ipa / 50 ∧
      (anneal_update ipa caa).1 = ipa * 51 / 50) := by
  constructor
  · intro coins shufs rs g num_iterations target
    rfl
  · intro ipa caa h
    unfold anneal_update
    rw [if_pos h]
    refine ⟨rfl, ?_⟩
    have h51 : ipa * 51 = ipa + 50 * ipa := by ring
    rw [h51, Nat.add_mul_div_left _ _ (by norm_num : (0:ℕ) < 50)]
    omega

/-- Witness for claim C9 at the initial threshold value. -/
theorem claim_C9_witness :
    (anneal_update 1000000 0).1 = 1000000 * 51 / 50 ∧ (anneal_update 1000000 0).1 = 1020000 := by
  refine ⟨(claim_C9.2 1000000 0 (by norm_num [annealings_per_slowdown])).2, ?_⟩
  rw [(claim_C9.2 1000000 0 (by norm_num [annealings_per_slowdown])).2]

/-- Claim C8: `conform_cliques_to_vertices` resets the working array to the
trivial singleton cover regardless of the prior clique state: `cliques_ct`
becomes `N`, and each slot `i` becomes the active singleton `{i}` with member
count 1 and frontier equal to vertex `i`'s fixed adjacency set. -/
theorem claim_C8 (g : Graph)
    (hlen : g.cliques.length = g.size)
    (hv : ∀ i, i < g.size → (g.vertices.getD i dC).members_ct = 1 ∧
            (g.vertices.getD i dC).members = [i] ∧
            (g.vertices.getD i dC).is_active = true) :
    (conform_cliques_to_vertices g).cliques_ct = g.size ∧
    ∀ i, i < g.size →
      ((conform_cliques_to_vertices g).cliques.getD i dC).is_active = true ∧
      ((conform_cliques_to_vertices g).cliques.getD i dC).members_bv = {i} ∧
      ((conform_cliques_to_vertices g).cliques.getD i dC).members = [i] ∧
      ((conform_cliques_to_vertices g).cliques.getD i dC).members_ct = 1 ∧
      ((conform_cliques_to_vertices g).cliques.getD i dC).neighbors_bv =
        (g.vertices.getD i dC).neighbors_bv := by
  refine ⟨rfl, ?_⟩
  intro i hi
  have hg : (conform_cliques_to_vertices g).cliques.getD i dC =
      transcribe_clique_onto_clique (g.vertices.getD i dC) := by
    unfold conform_cliques_to_vertices
    have := foldl_set_range_getD
      (fun k => transcribe_clique_onto_clique (g.vertices.getD k dC)) g.size i
      g.cliques (by omega)
    simpa [if_pos hi] using this
  rw [hg]
  obtain ⟨h1, h2, h3⟩ := hv i hi
  unfold transcribe_clique_onto_clique
  rw [h1, h2]
  simp only [List.getD_eq_getElem?_getD] at h3
  simp [h3]

/-- Witness for claim C8 at the one-vertex fresh graph. -/
theorem claim_C8_witness :
    (conform_cliques_to_vertices (Graph.new 1)).cliques_ct = 1 ∧
    ((conform_cliques_to_vertices (Graph.new 1)).cliques.getD 0 dC).members = [0] ∧
    ((conform_cliques_to_vertices (Graph.new 1)).cliques.getD 0 dC).is_active = true := by
  have h := claim_C8 (Graph.new 1) (by decide)
    (fun i hi => by
      have hi1 : i < 1 := hi
      interval_cases i
      exact ⟨rfl, rfl, rfl⟩)
  exact ⟨h.1, (h.2 0 (by decide)).2.2.1, (h.2 0 (by decide)).1⟩

/-! ## List helper lemmas for the transfer loop -/

theorem getD_eq_getElem_nat {l : List ℕ} {i : ℕ} (h : i < l.length) :
    l.getD i 0 = l[i] := by
  rw [List.getD_eq_getElem?_getD, List.getElem?_eq_getElem h]
  rfl

theorem take_succ_getD {l : List ℕ} {i : ℕ} (h : i < l.length) :
    l.take (i + 1) = l.take i ++ [l.getD i 0] := by
  rw [List.take_succ, List.getElem?_eq_getElem h, getD_eq_getElem_nat h]
  rfl

theorem set_take_eq {α : Type} (l : List α) (i : ℕ) (a : α) :
    (l.set i a).take i = l.take i := by
  apply List.ext_getElem?
  intro k
  rw [List.getElem?_take, List.getElem?_take]
  by_cases hk : k < i
  · rw [if_pos hk, if_pos hk, List.getElem?_set_ne (by omega)]
  · rw [if_neg hk, if_neg hk]

theorem swapRemove_length {l : List ℕ} {i : ℕ} (h : i < l.length) :
    (swapRemove l i).length = l.length - 1 := by
  unfold swapRemove
  rw [List.length_dropLast, List.length_set]

theorem swapRemove_take {l : List ℕ} {i : ℕ} (h : i < l.length) :
    (swapRemove l i).take i = l.take i := by
  unfold swapRemove
  rw [List.dropLast_eq_take, List.length_set, List.take_take]
  rw [show min i (l.length - 1) = i by omega]
  exact set_take_eq l i _

theorem swapRemove_drop_perm {l : List ℕ} {i : ℕ} (h : i < l.length) :
    List.Perm ((swapRemove l i).drop i) (l.drop (i + 1)) := by
  unfold swapRemove
  rw [List.dropLast_eq_take, List.length_set, List.drop_take, List.drop_set]
  rw [if_neg (lt_irrefl i), Nat.sub_self]
  rw [List.drop_eq_getElem_cons h, List.set_cons_zero]
  by_cases h0 : (l.drop (i + 1)).length = 0
  · have hz : l.length - 1 - i = 0 := by
      simp only [List.length_drop] at h0
      omega
    rw [hz, List.take_zero]
    rw [List.length_eq_zero] at h0
    rw [h0]
  · obtain ⟨m, hm⟩ := Nat.exists_eq_succ_of_ne_zero h0
    have hml : m = (l.drop (i + 1)).length - 1 := by omega
    have hs : l.length - 1 - i = m + 1 := by
      simp only [List.length_drop] at hm
      omega
    rw [hs]
    rw [List.take_succ_cons]
    have hne : l.drop (i + 1) ≠ [] := by
      intro hc
      rw [hc] at h0
      exact h0 rfl
    have hdl : (l.drop (i + 1)).take m = (l.drop (i + 1)).dropLast := by
      rw [List.dropLast_eq_take, hml]
    have hlast : l.getD (l.length - 1) 0 = (l.drop (i + 1)).getLast hne := by
      rw [List.getLast_eq_getElem, getD_eq_getElem_nat (by omega)]
      rw [List.getElem_drop]
      congr 1
      simp
      omega
    rw [hdl, hlast]
    have hp : List.Perm ((l.drop (i + 1)).getLast hne :: (l.drop (i + 1)).dropLast)
        ((l.drop (i + 1)).dropLast ++ [(l.drop (i + 1)).getLast hne]) :=
      (List.perm_append_singleton _ _).symm
    have he : (l.drop (i + 1)).dropLast ++ [(l.drop (i + 1)).getLast hne] = l.drop (i + 1) :=
      List.dropLast_concat_getLast hne
    exact hp.trans (by rw [he])

/-! ## Characterisation of the transfer loop -/

theorem transferLoop_frame (vs : List Clique) (U : Finset ℕ) :
    ∀ (i : ℕ) (ci cf : Clique),
      (transferLoop vs U i ci cf).1.members_bv = ci.members_bv ∧
      (transferLoop vs U i ci cf).1.length = ci.length ∧
      (transferLoop vs U i ci cf).1.id = ci.id ∧
      (transferLoop vs U i ci cf).1.is_active = ci.is_active ∧
      (transferLoop vs U i ci cf).1.has_neighbors = ci.has_neighbors ∧
      (transferLoop vs U i ci cf).2.members_bv = cf.members_bv ∧
      (transferLoop vs U i ci cf).2.length = cf.length ∧
      (transferLoop vs U i ci cf).2.id = cf.id ∧
      (transferLoop vs U i ci cf).2.is_active = cf.is_active ∧
      (transferLoop vs U i ci cf).2.has_neighbors = cf.has_neighbors := by
  intro i
  induction i with
  | zero => intro ci cf; exact ⟨rfl, rfl, rfl, rfl, rfl, rfl, rfl, rfl, rfl, rfl⟩
  | succ i ih =>
    intro ci cf
    rw [transferLoop]
    by_cases hv : cf.members.getD i 0 ∈ U
    · rw [if_pos hv]
      exact ih _ _
    · rw [if_neg hv]
      exact ih _ _

theorem transferLoop_into_members (vs : List Clique) (U : Finset ℕ) :
    ∀ (i : ℕ) (ci cf : Clique), i ≤ cf.members.length →
      (transferLoop vs U i ci cf).1.members =
        ci.members ++ ((cf.members.take i).filter (fun v => v ∈ U)).reverse := by
  intro i
  induction i with
  | zero => intro ci cf _; simp [transferLoop]
  | succ i ih =>
    intro ci cf h
    have hlt : i < cf.members.length := by omega
    rw [transferLoop]
    by_cases hv : cf.members.getD i 0 ∈ U
    · rw [if_pos hv]
      rw [ih _ _ (by rw [swapRemove_length hlt]; omega)]
      simp only [swapRemove_take hlt, take_succ_getD hlt, List.filter_append]
      simp [hv, -List.getD_eq_getElem?_getD]
    · rw [if_neg hv]
      rw [ih _ _ (by exact Nat.le_of_succ_le h)]
      simp only [take_succ_getD hlt, List.filter_append]
      simp [hv, -List.getD_eq_getElem?_getD]

theorem transferLoop_into_ct (vs : List Clique) (U : Finset ℕ) :
    ∀ (i : ℕ) (ci cf : Clique), i ≤ cf.members.length →
      (transferLoop vs U i ci cf).1.members_ct =
        ci.members_ct + ((cf.members.take i).filter (fun v => v ∈ U)).length := by
  intro i
  induction i with
  | zero => intro ci cf _; simp [transferLoop]
  | succ i ih =>
    intro ci cf h
    have hlt : i < cf.members.length := by omega
    rw [transferLoop]
    by_cases hv : cf.members.getD i 0 ∈ U
    · rw [if_pos hv]
      rw [ih _ _ (by rw [swapRemove_length hlt]; omega)]
      simp only [swapRemove_take hlt, take_succ_getD hlt, List.filter_append]
      simp [hv, -List.getD_eq_getElem?_getD]
      omega
    · rw [if_neg hv]
      rw [ih _ _ (by exact Nat.le_of_succ_le h)]
      simp only [take_succ_getD hlt, List.filter_append]
      simp [hv, -List.getD_eq_getElem?_getD]

theorem transferLoop_from_ct (vs : List Clique) (U : Finset ℕ) :
    ∀ (i : ℕ) (ci cf : Clique), i ≤ cf.members.length →
      (transferLoop vs U i ci cf).2.members_ct =
        cf.members_ct - ((cf.members.take i).filter (fun v => v ∈ U)).length := by
  intro i
  induction i with
  | zero => intro ci cf _; simp [transferLoop]
  | succ i ih =>
    intro ci cf h
    have hlt : i < cf.members.length := by omega
    rw [transferLoop]
    by_cases hv : cf.members.getD i 0 ∈ U
    · rw [if_pos hv]
      rw [ih _ _ (by rw [swapRemove_length hlt]; omega)]
      simp only [swapRemove_take hlt, take_succ_getD hlt, List.filter_append]
      simp [hv, -List.getD_eq_getElem?_getD]
      omega
    · rw [if_neg hv]
      rw [ih _ _ (by exact Nat.le_of_succ_le h)]
      simp only [take_succ_getD hlt, List.filter_append]
      simp [hv, -List.getD_eq_getElem?_getD]

theorem transferLoop_into_neighbors (vs : List Clique) (U : Finset ℕ) :
    ∀ (i : ℕ) (ci cf : Clique), i ≤ cf.members.length → ∀ x,
      (x ∈ (transferLoop vs U i ci cf).1.neighbors_bv ↔
        (x ∈ ci.neighbors_bv ∧
          ∀ v ∈ (cf.members.take i).filter (fun v => v ∈ U),
            x ∈ (vs.getD v dC).neighbors_bv)) := by
  intro i
  induction i with
  | zero => intro ci cf _ x; simp [transferLoop]
  | succ i ih =>
    intro ci cf h x
    have hlt : i < cf.members.length := by omega
    rw [transferLoop]
    by_cases hv : cf.members.getD i 0 ∈ U
    · rw [if_pos hv]
      rw [ih _ _ (by rw [swapRemove_length hlt]; omega)]
      simp only [swapRemove_take hlt, take_succ_getD hlt, List.filter_append]
      simp [hv, Finset.mem_inter, -List.getD_eq_getElem?_getD]
      aesop
    · rw [if_neg hv]
      rw [ih _ _ (by exact Nat.le_of_succ_le h)]
      simp only [take_succ_getD hlt, List.filter_append]
      simp [hv, -List.getD_eq_getElem?_getD]

theorem transferLoop_from_neighbors (vs : List Clique) (U : Finset ℕ) :
    ∀ (i : ℕ) (ci cf : Clique), i ≤ cf.members.length → ∀ x,
      (x ∈ (transferLoop vs U i ci cf).2.neighbors_bv ↔
        (x ∈ cf.neighbors_bv ∧
          ∀ v ∈ (cf.members.take i).filter (fun v => v ∉ U),
            x ∈ (vs.getD v dC).neighbors_bv)) := by
  intro i
  induction i with
  | zero => intro ci cf _ x; simp [transferLoop]
  | succ i ih =>
    intro ci cf h x
    have hlt : i < cf.members.length := by omega
    rw [transferLoop]
    by_cases hv : cf.members.getD i 0 ∈ U
    · rw [if_pos hv]
      rw [ih _ _ (by rw [swapRemove_length hlt]; omega)]
      simp only [swapRemove_take hlt, take_succ_getD hlt, List.filter_append]
      simp [hv, -List.getD_eq_getElem?_getD]
    · rw [if_neg hv]
      rw [ih _ _ (by exact Nat.le_of_succ_le h)]
      simp only [take_succ_getD hlt, List.filter_append]
      simp [hv, Finset.mem_inter, -List.getD_eq_getElem?_getD]
      aesop

theorem transferLoop_from_members (vs : List Clique) (U : Finset ℕ) :
    ∀ (i : ℕ) (ci cf : Clique), i ≤ cf.members.length →
      List.Perm (transferLoop vs U i ci cf).2.members
        ((cf.members.take i).filter (fun v => v ∉ U) ++ cf.members.drop i) := by
  intro i
  induction i with
  | zero => intro ci cf _; simp [transferLoop]
  | succ i ih =>
    intro ci cf h
    have hlt : i < cf.members.length := by omega
    rw [transferLoop]
    by_cases hv : cf.members.getD i 0 ∈ U
    · rw [if_pos hv]
      refine (ih _ _ (by rw [swapRemove_length hlt]; omega)).trans ?_
      simp only [swapRemove_take hlt, take_succ_getD hlt, List.filter_append]
      have hfv : (List.filter (fun v => decide (v ∉ U)) [cf.members.getD i 0]) = [] := by
        simp [hv, -List.getD_eq_getElem?_getD]
      rw [hfv, List.append_nil]
      exact List.Perm.append_left _ (swapRemove_drop_perm hlt)
    · rw [if_neg hv]
      refine (ih _ _ (by exact Nat.le_of_succ_le h)).trans ?_
      simp only [take_succ_getD hlt, List.filter_append]
      have hfv : (List.filter (fun v => decide (v ∉ U)) [cf.members.getD i 0]) =
          [cf.members.getD i 0] := by
        simp [hv, -List.getD_eq_getElem?_getD]
      rw [hfv]
      rw [List.drop_eq_getElem_cons hlt, ← getD_eq_getElem_nat hlt, List.append_assoc]
      exact List.Perm.refl _

/-! ## Frontier and bitvector helper lemmas -/

theorem bv_xor_of_subset {a b : Finset ℕ} (h : b ⊆ a) : bv_xor a b = a \ b := by
  unfold bv_xor
  rw [Finset.union_eq_left.mpr h, Finset.inter_eq_right.mpr h]

theorem mem_frontierSpec {n : ℕ} {adj : ℕ → Finset ℕ} {M : Finset ℕ} {x : ℕ} :
    x ∈ frontierSpec n adj M ↔ (x < n ∧ x ∉ M ∧ ∀ m ∈ M, x ∈ adj m) := by
  unfold frontierSpec
  simp [Finset.mem_filter, Finset.mem_range]

theorem frontierSpec_empty (n : ℕ) (adj : ℕ → Finset ℕ) :
    frontierSpec n adj ∅ = Finset.range n := by
  unfold frontierSpec
  simp

theorem frontierSpec_subset_range (n : ℕ) (adj : ℕ → Finset ℕ) (M : Finset ℕ) :
    frontierSpec n adj M ⊆ Finset.range n :=
  Finset.filter_subset _ _

theorem set_getD_eq_self {l : List Clique} {i : ℕ} (h : i < l.length) :
    l.set i (l.getD i dC) = l := by
  apply List.ext_getElem?
  intro k
  by_cases hk : k = i
  · subst hk
    rw [List.getElem?_set_self (by simpa using h)]
    rw [List.getD_eq_getElem?_getD, List.getElem?_eq_getElem h]
    rfl
  · rw [List.getElem?_set_ne (fun hh => hk hh.symm)]

theorem CliqueWF.members_nil {n : ℕ} {adj : ℕ → Finset ℕ} {c : Clique}
    (h : CliqueWF n adj c) (h0 : c.members_ct = 0) : c.members = [] := by
  have := h.ct_eq
  rw [h0] at this
  exact List.length_eq_zero.mp this.symm

theorem vertex_getD_neighbors {n : ℕ} {adj : ℕ → Finset ℕ} {vs : List Clique}
    (hv : vs = (List.range n).map (canonicalVertex n adj)) {v : ℕ} (h : v < n) :
    (vs.getD v dC).neighbors_bv = adj v := by
  subst hv
  rw [List.getD_eq_getElem?_getD, List.getElem?_map, List.getElem?_range h]
  rfl

/-! ## Specification of the shared transfer routine -/

theorem routine_spec {n : ℕ} {adj : ℕ → Finset ℕ} (ha : AdjWF n adj) (hn : 1 ≤ n)
    {vs : List Clique} (hvs : vs = (List.range n).map (canonicalVertex n adj))
    {ci cf : Clique} (hci : CliqueWF n adj ci) (hcf : CliqueWF n adj cf)
    {U : Finset ℕ} (hU1 : U ⊆ cf.members_bv) (hU2 : U ⊆ ci.neighbors_bv) (hU0 : U ≠ ∅) :
    CliqueWF n adj (transfer_vertices_in_utility_bv_between_cliques vs ci cf U).1 ∧
    CliqueWF n adj (transfer_vertices_in_utility_bv_between_cliques vs ci cf U).2 ∧
    (((transfer_vertices_in_utility_bv_between_cliques vs ci cf U).1.members : Multiset ℕ) +
      ((transfer_vertices_in_utility_bv_between_cliques vs ci cf U).2.members : Multiset ℕ) =
      (ci.members : Multiset ℕ) + (cf.members : Multiset ℕ)) ∧
    (transfer_vertices_in_utility_bv_between_cliques vs ci cf U).1.is_active = ci.is_active ∧
    ((transfer_vertices_in_utility_bv_between_cliques vs ci cf U).2.members_ct = 0 →
      (transfer_vertices_in_utility_bv_between_cliques vs ci cf U).2.is_active = false ∧
      (transfer_vertices_in_utility_bv_between_cliques vs ci cf U).2.members = []) ∧
    ((transfer_vertices_in_utility_bv_between_cliques vs ci cf U).2.members_ct ≠ 0 →
      (transfer_vertices_in_utility_bv_between_cliques vs ci cf U).2.is_active =
        cf.is_active) ∧
    1 ≤ (transfer_vertices_in_utility_bv_between_cliques vs ci cf U).1.members_ct ∧
    (transfer_vertices_in_utility_bv_between_cliques vs ci cf U).1.members_bv =
      ci.members_bv ∪ U := by
  have hlen : cf.members_ct = cf.members.length := hcf.ct_eq
  set ci0 : Clique := { ci with members_bv := ci.members_bv ∪ U } with hci0
  set cf0 : Clique := { cf with members_bv := bv_xor cf.members_bv U, neighbors_bv := Finset.range cf.length } with hcf0
  set r := transferLoop vs U cf0.members_ct ci0 cf0 with hr
  have hres : transfer_vertices_in_utility_bv_between_cliques vs ci cf U =
      (if r.1.neighbors_bv = ∅ then { r.1 with has_neighbors := false } else r.1,
       if r.2.members_ct = 0 then
         { r.2 with neighbors_bv := Finset.range r.2.length, has_neighbors := true,
                    is_active := false }
       else { r.2 with has_neighbors := true }) := rfl
  have hbound : cf0.members_ct ≤ cf0.members.length := le_of_eq hlen
  have htake : cf0.members.take cf0.members_ct = cf.members := by
    rw [hcf0]
    exact hlen ▸ List.take_length cf.members
  have hdrop : cf0.members.drop cf0.members_ct = [] := by
    rw [hcf0]
    exact hlen ▸ List.drop_length cf.members
  have hFp_toFinset : (cf.members.filter (fun v => v ∈ U)).toFinset = U := by
    ext x
    simp only [List.mem_toFinset, List.mem_filter, decide_eq_true_eq]
    constructor
    · rintro ⟨_, hx⟩
      exact hx
    · intro hx
      refine ⟨?_, hx⟩
      have := hU1 hx
      rw [← hcf.bv_eq, List.mem_toFinset] at this
      exact this
  have hFm_toFinset : (cf.members.filter (fun v => v ∉ U)).toFinset =
      cf.members_bv \ U := by
    ext x
    simp only [List.mem_toFinset, List.mem_filter, decide_eq_true_eq, Finset.mem_sdiff]
    rw [← hcf.bv_eq, List.mem_toFinset]
  have hfilter_eq : cf.members.filter (fun v => v ∉ U) =
      cf.members.filter (fun v => !(decide (v ∈ U))) := by
    apply List.filter_congr
    intro v _
    simp [decide_not]
  have hFsplit : List.Perm
      (cf.members.filter (fun v => v ∈ U) ++ cf.members.filter (fun v => v ∉ U))
      cf.members := by
    rw [hfilter_eq]
    exact List.filter_append_perm _ _
  have hFp_ne : cf.members.filter (fun v => v ∈ U) ≠ [] := by
    obtain ⟨u, hu⟩ := Finset.nonempty_iff_ne_empty.mpr hU0
    have hum : u ∈ cf.members := by
      have := hU1 hu
      rw [← hcf.bv_eq, List.mem_toFinset] at this
      exact this
    intro hc
    have : u ∈ cf.members.filter (fun v => v ∈ U) := by
      simp [List.mem_filter, hum, hu]
    rw [hc] at this
    simp at this
  have hFp_pos : 1 ≤ (cf.members.filter (fun v => v ∈ U)).length :=
    List.length_pos.mpr hFp_ne
  have frame := transferLoop_frame vs U cf0.members_ct ci0 cf0
  have hA_members : r.1.members =
      ci.members ++ ((cf.members.filter (fun v => v ∈ U)).reverse) := by
    have := transferLoop_into_members vs U cf0.members_ct ci0 cf0 hbound
    rw [← hr] at this
    rw [this, htake]
  have hA_ct : r.1.members_ct =
      ci.members_ct + (cf.members.filter (fun v => v ∈ U)).length := by
    have := transferLoop_into_ct vs U cf0.members_ct ci0 cf0 hbound
    rw [← hr] at this
    rw [this, htake]
  have hA_bv : r.1.members_bv = ci.members_bv ∪ U := by
    have := frame.1
    rw [← hr] at this
    exact this
  have hA_len : r.1.length = n := by
    have := frame.2.1
    rw [← hr] at this
    rw [this]
    exact hci.len
  have hA_act : r.1.is_active = ci.is_active := by
    have := frame.2.2.2.1
    rw [← hr] at this
    exact this
  have hA_has : r.1.has_neighbors = ci.has_neighbors := by
    have := frame.2.2.2.2.1
    rw [← hr] at this
    exact this
  have hB_bv : r.2.members_bv = cf.members_bv \ U := by
    have := frame.2.2.2.2.2.1
    rw [← hr] at this
    rw [this, hcf0]
    exact bv_xor_of_subset hU1
  have hB_len : r.2.length = n := by
    have := frame.2.2.2.2.2.2.1
    rw [← hr] at this
    rw [this, hcf0]
    exact hcf.len
  have hB_act : r.2.is_active = cf.is_active := by
    have := frame.2.2.2.2.2.2.2.2.1
    rw [← hr] at this
    rw [this, hcf0]
  have hB_perm : List.Perm r.2.members (cf.members.filter (fun v => v ∉ U)) := by
    have := transferLoop_from_members vs U cf0.members_ct ci0 cf0 hbound
    rw [← hr] at this
    rw [htake, hdrop, List.append_nil] at this
    exact this
  have hsplitlen : (cf.members.filter (fun v => v ∈ U)).length +
      (cf.members.filter (fun v => v ∉ U)).length = cf.members.length := by
    have := hFsplit.length_eq
    simpa using this
  have hB_ct : r.2.members_ct = (cf.members.filter (fun v => v ∉ U)).length := by
    have hc := transferLoop_from_ct vs U cf0.members_ct ci0 cf0 hbound
    rw [← hr, htake] at hc
    have hcfct : cf0.members_ct = cf.members.length := hlen
    rw [hcfct] at hc
    rw [hc]
    omega
  have hadj_of_mem_bv : ∀ v, v ∈ cf.members_bv →
      (vs.getD v dC).neighbors_bv = adj v := by
    intro v hv
    have hvn : v < n := by
      have := hcf.bounded hv
      rwa [Finset.mem_range] at this
    exact vertex_getD_neighbors hvs hvn
  have hA_nb : ∀ x, x ∈ r.1.neighbors_bv ↔
      (x ∈ ci.neighbors_bv ∧ ∀ v ∈ U, x ∈ adj v) := by
    intro x
    have hch := transferLoop_into_neighbors vs U cf0.members_ct ci0 cf0 hbound x
    rw [← hr] at hch
    rw [htake] at hch
    rw [hch]
    constructor
    · rintro ⟨h1, h2⟩
      refine ⟨h1, ?_⟩
      intro v hv
      have hvm : v ∈ cf.members.filter (fun w => w ∈ U) := by
        rw [← List.mem_toFinset, hFp_toFinset]
        exact hv
      have := h2 v hvm
      rwa [hadj_of_mem_bv v (hU1 hv)] at this
    · rintro ⟨h1, h2⟩
      refine ⟨h1, ?_⟩
      intro v hvm
      have hvU : v ∈ U := by
        rw [← hFp_toFinset, List.mem_toFinset]
        exact hvm
      rw [hadj_of_mem_bv v (hU1 hvU)]
      exact h2 v hvU
  have hB_nb : ∀ x, x ∈ r.2.neighbors_bv ↔
      (x ∈ Finset.range n ∧ ∀ v ∈ cf.members_bv \ U, x ∈ adj v) := by
    intro x
    have hch := transferLoop_from_neighbors vs U cf0.members_ct ci0 cf0 hbound x
    rw [← hr] at hch
    rw [htake] at hch
    rw [hch]
    have hrange : cf0.neighbors_bv = Finset.range n := by
      rw [hcf0]
      rw [hcf.len]
    constructor
    · rintro ⟨h1, h2⟩
      rw [hrange] at h1
      refine ⟨h1, ?_⟩
      intro v hv
      have hvm : v ∈ cf.members.filter (fun w => w ∉ U) := by
        rw [← List.mem_toFinset, hFm_toFinset]
        exact hv
      have := h2 v hvm
      rwa [hadj_of_mem_bv v (Finset.mem_sdiff.mp hv).1] at this
    · rintro ⟨h1, h2⟩
      rw [hrange]
      refine ⟨h1, ?_⟩
      intro v hvm
      have hvS : v ∈ cf.members_bv \ U := by
        rw [← hFm_toFinset, List.mem_toFinset]
        exact hvm
      rw [hadj_of_mem_bv v (Finset.mem_sdiff.mp hvS).1]
      exact h2 v hvS
  have hA_frontier : r.1.neighbors_bv = frontierSpec n adj (ci.members_bv ∪ U) := by
    ext x
    rw [hA_nb x, hci.frontier, mem_frontierSpec, mem_frontierSpec]
    simp only [Finset.mem_union]
    constructor
    · rintro ⟨⟨hxn, hxM, hxadj⟩, hxU⟩
      refine ⟨hxn, ?_, ?_⟩
      · rintro (h | h)
        · exact hxM h
        · exact ha.irrefl x (hxU x h)
      · rintro m (h | h)
        · exact hxadj m h
        · exact hxU m h
    · rintro ⟨hxn, hxMU, hxadj⟩
      exact ⟨⟨hxn, fun h => hxMU (Or.inl h), fun m h => hxadj m (Or.inl h)⟩,
             fun v hv => hxadj v (Or.inr hv)⟩
  have hB_frontier : r.2.neighbors_bv = frontierSpec n adj (cf.members_bv \ U) := by
    ext x
    rw [hB_nb x, mem_frontierSpec, Finset.mem_range]
    constructor
    · rintro ⟨hxn, hxadj⟩
      refine ⟨hxn, ?_, hxadj⟩
      intro hxS
      exact ha.irrefl x (hxadj x hxS)
    · rintro ⟨hxn, _, hxadj⟩
      exact ⟨hxn, hxadj⟩
  have hA_frontier' : r.1.neighbors_bv = frontierSpec n adj r.1.members_bv := by
    rw [hA_bv]
    exact hA_frontier
  have hB_frontier' : r.2.neighbors_bv = frontierSpec n adj r.2.members_bv := by
    rw [hB_bv]
    exact hB_frontier
  have hCiNbNe : ci.neighbors_bv ≠ ∅ := by
    obtain ⟨u, hu⟩ := Finset.nonempty_iff_ne_empty.mpr hU0
    intro hc
    rw [hc] at hU2
    exact absurd (hU2 hu) (Finset.not_mem_empty u)
  have hCiHas : ci.has_neighbors = true := hci.flag.mpr hCiNbNe
  have hA_nodup : r.1.members.Nodup := by
    rw [hA_members, List.nodup_append]
    refine ⟨hci.nodup, List.nodup_reverse.mpr (hcf.nodup.filter _), ?_⟩
    intro a ha1 ha2
    rw [List.mem_reverse, List.mem_filter, decide_eq_true_eq] at ha2
    have haU : a ∈ U := ha2.2
    have := hU2 haU
    rw [hci.frontier, mem_frontierSpec] at this
    apply this.2.1
    rw [← hci.bv_eq, List.mem_toFinset]
    exact ha1
  have hA_bv_eq : r.1.members.toFinset = r.1.members_bv := by
    rw [hA_members, hA_bv, List.toFinset_append, List.toFinset_reverse, hFp_toFinset,
      hci.bv_eq]
  have hA_ct_eq : r.1.members_ct = r.1.members.length := by
    rw [hA_members, hA_ct, List.length_append, List.length_reverse, hci.ct_eq]
  have hA_bounded : r.1.members_bv ⊆ Finset.range n := by
    rw [hA_bv]
    apply Finset.union_subset hci.bounded
    exact subset_trans hU2 (by rw [hci.frontier]; exact frontierSpec_subset_range n adj _)
  have hA_pairwise : ∀ a ∈ r.1.members_bv, ∀ b ∈ r.1.members_bv, a ≠ b → b ∈ adj a := by
    rw [hA_bv]
    intro a haa b hbb hab
    rw [Finset.mem_union] at haa hbb
    rcases haa with ha1 | ha1 <;> rcases hbb with hb1 | hb1
    · exact hci.pairwise a ha1 b hb1 hab
    · have := hU2 hb1
      rw [hci.frontier, mem_frontierSpec] at this
      exact this.2.2 a ha1
    · have := hU2 ha1
      rw [hci.frontier, mem_frontierSpec] at this
      exact ha.symm a b (this.2.2 b hb1)
    · exact hcf.pairwise a (hU1 ha1) b (hU1 hb1) hab
  have hfst : (transfer_vertices_in_utility_bv_between_cliques vs ci cf U).1 =
      if r.1.neighbors_bv = ∅ then { r.1 with has_neighbors := false } else r.1 := by
    rw [hres]
  have hsnd : (transfer_vertices_in_utility_bv_between_cliques vs ci cf U).2 =
      if r.2.members_ct = 0 then
        { r.2 with neighbors_bv := Finset.range r.2.length, has_neighbors := true,
                   is_active := false }
      else { r.2 with has_neighbors := true } := by
    rw [hres]
  have hfm1 : (transfer_vertices_in_utility_bv_between_cliques vs ci cf U).1.members =
      r.1.members := by
    rw [hfst]
    split <;> rfl
  have hfm2 : (transfer_vertices_in_utility_bv_between_cliques vs ci cf U).2.members =
      r.2.members := by
    rw [hsnd]
    split <;> rfl
  have hBnb_ne : r.2.members_ct ≠ 0 → r.2.neighbors_bv ≠ ∅ := by
    intro _
    obtain ⟨u, hu⟩ := Finset.nonempty_iff_ne_empty.mpr hU0
    have humem : u ∈ r.2.neighbors_bv := by
      rw [hB_frontier, mem_frontierSpec]
      refine ⟨?_, ?_, ?_⟩
      · have := hcf.bounded (hU1 hu)
        rwa [Finset.mem_range] at this
      · rw [Finset.mem_sdiff]
        rintro ⟨_, hnu⟩
        exact hnu hu
      · intro m hm
        rw [Finset.mem_sdiff] at hm
        have hmu : m ≠ u := by
          intro hc
          exact hm.2 (hc ▸ hu)
        exact hcf.pairwise m hm.1 u (hU1 hu) hmu
    exact Finset.ne_empty_of_mem humem
  -- conjunct 1: the receiving clique is well-formed
  have hconj1 : CliqueWF n adj (transfer_vertices_in_utility_bv_between_cliques vs ci cf U).1 := by
    rw [hfst]
    by_cases hie : r.1.neighbors_bv = ∅
    · rw [if_pos hie]
      refine ⟨hA_len, hA_nodup, hA_bv_eq, hA_ct_eq, hA_bounded, hA_pairwise,
        hA_frontier', ?_⟩
      constructor
      · intro hfalse
        exact absurd hfalse (by simp)
      · intro hne
        exact absurd hie hne
    · rw [if_neg hie]
      exact ⟨hA_len, hA_nodup, hA_bv_eq, hA_ct_eq, hA_bounded, hA_pairwise, hA_frontier',
        ⟨fun _ => hie, fun _ => by rw [hA_has]; exact hCiHas⟩⟩
  -- conjunct 2: the depleted clique is well-formed
  have hconj2 : CliqueWF n adj (transfer_vertices_in_utility_bv_between_cliques vs ci cf U).2 := by
    rw [hsnd]
    by_cases hcz : r.2.members_ct = 0
    · rw [if_pos hcz]
      have hFm_nil : cf.members.filter (fun v => v ∉ U) = [] := by
        rw [hB_ct] at hcz
        exact List.length_eq_zero.mp hcz
      have hBm : r.2.members = [] := by
        rw [hFm_nil] at hB_perm
        exact hB_perm.eq_nil
      have hBbv : r.2.members_bv = ∅ := by
        rw [hB_bv, ← hFm_toFinset, hFm_nil]
        rfl
      refine ⟨hB_len, ?_, ?_, ?_, ?_, ?_, ?_, ?_⟩
      · rw [hBm]
        exact List.nodup_nil
      · rw [hBm, hBbv]
        rfl
      · rw [hcz, hBm]
        rfl
      · rw [hBbv]
        exact Finset.empty_subset _
      · rw [hBbv]
        intro a haa
        exact absurd haa (Finset.not_mem_empty a)
      · show Finset.range r.2.length = frontierSpec n adj r.2.members_bv
        rw [hBbv, frontierSpec_empty, hB_len]
      · constructor
        · intro _
          rw [hB_len]
          exact (Finset.nonempty_range_iff.mpr (by omega)).ne_empty
        · intro _
          rfl
    · rw [if_neg hcz]
      refine ⟨hB_len, ?_, ?_, ?_, ?_, ?_, ?_, ?_⟩
      · exact hB_perm.nodup_iff.mpr (hcf.nodup.filter _)
      · rw [hB_bv, ← hFm_toFinset]
        ext x
        simp only [List.mem_toFinset]
        exact hB_perm.mem_iff
      · rw [hB_ct, hB_perm.length_eq]
      · rw [hB_bv]
        exact subset_trans (Finset.sdiff_subset) hcf.bounded
      · rw [hB_bv]
        intro a haa b hbb hab
        rw [Finset.mem_sdiff] at haa hbb
        exact hcf.pairwise a haa.1 b hbb.1 hab
      · exact hB_frontier'
      · exact ⟨fun _ => hBnb_ne hcz, fun _ => rfl⟩
  refine ⟨hconj1, hconj2, ?_, ?_, ?_, ?_, ?_, ?_⟩
  · rw [hfm1, hfm2, hA_members, Multiset.coe_eq_coe.mpr hB_perm]
    rw [Multiset.coe_add, Multiset.coe_add, Multiset.coe_eq_coe, List.append_assoc]
    apply List.Perm.append_left
    exact ((List.reverse_perm _).append_right _).trans hFsplit
  · rw [hfst]
    split <;> exact hA_act
  · intro h0
    rw [hsnd] at h0 ⊢
    by_cases hcz : r.2.members_ct = 0
    · rw [if_pos hcz] at h0 ⊢
      have hFm_nil : cf.members.filter (fun v => v ∉ U) = [] := by
        rw [hB_ct] at hcz
        exact List.length_eq_zero.mp hcz
      have hBm : r.2.members = [] := by
        rw [hFm_nil] at hB_perm
        exact hB_perm.eq_nil
      exact ⟨rfl, hBm⟩
    · rw [if_neg hcz] at h0
      exact absurd h0 hcz
  · intro h0
    rw [hsnd] at h0 ⊢
    by_cases hcz : r.2.members_ct = 0
    · rw [if_pos hcz] at h0
      exact absurd hcz h0
    · rw [if_neg hcz]
      exact hB_act
  · have h7 : 1 ≤ r.1.members_ct := by
      rw [hA_ct]
      omega
    rw [hfst]
    split <;> exact h7
  · rw [hfst]
    split <;> exact hA_bv

/-! ## Wrapper specifications for the two transfer entry points -/

theorem wf_ct_mono {n : ℕ} {adj : ℕ → Finset ℕ} {c d : Clique} (hc : CliqueWF n adj c)
    (hd : CliqueWF n adj d) {U : Finset ℕ} (h : d.members_bv = c.members_bv ∪ U) :
    c.members_ct ≤ d.members_ct := by
  rw [hc.ct_eq, hd.ct_eq]
  rw [← List.toFinset_card_of_nodup hc.nodup, ← List.toFinset_card_of_nodup hd.nodup]
  rw [hc.bv_eq, hd.bv_eq, h]
  exact Finset.card_le_card Finset.subset_union_left

theorem compat_pair_spec {n : ℕ} {adj : ℕ → Finset ℕ} (ha : AdjWF n adj) (hn : 1 ≤ n)
    {vs : List Clique} (hvs : vs = (List.range n).map (canonicalVertex n adj))
    {ci cf : Clique} (hci : CliqueWF n adj ci) (hcf : CliqueWF n adj cf) (u0 : Finset ℕ) :
    ((transfer_compatible_vertices vs ci cf u0).1 = ci ∧
      (transfer_compatible_vertices vs ci cf u0).2.1 = cf) ∨
    (CliqueWF n adj (transfer_compatible_vertices vs ci cf u0).1 ∧
     CliqueWF n adj (transfer_compatible_vertices vs ci cf u0).2.1 ∧
     (((transfer_compatible_vertices vs ci cf u0).1.members : Multiset ℕ) +
       ((transfer_compatible_vertices vs ci cf u0).2.1.members : Multiset ℕ) =
       (ci.members : Multiset ℕ) + (cf.members : Multiset ℕ)) ∧
     (transfer_compatible_vertices vs ci cf u0).1.is_active = ci.is_active ∧
     ((transfer_compatible_vertices vs ci cf u0).2.1.members_ct = 0 →
       (transfer_compatible_vertices vs ci cf u0).2.1.is_active = false ∧
       (transfer_compatible_vertices vs ci cf u0).2.1.members = []) ∧
     ((transfer_compatible_vertices vs ci cf u0).2.1.members_ct ≠ 0 →
       (transfer_compatible_vertices vs ci cf u0).2.1.is_active = cf.is_active) ∧
     1 ≤ (transfer_compatible_vertices vs ci cf u0).1.members_ct ∧
     ci.members_ct ≤ (transfer_compatible_vertices vs ci cf u0).1.members_ct ∧
     cf.members_bv ≠ ∅) := by
  by_cases hb : ci.has_neighbors = false
  · left
    unfold transfer_compatible_vertices
    rw [if_pos hb]
    exact ⟨rfl, rfl⟩
  · by_cases hu : (∅ ∪ ci.neighbors_bv) ∩ cf.members_bv = ∅
    · left
      unfold transfer_compatible_vertices
      rw [if_neg hb, if_pos hu]
      exact ⟨rfl, rfl⟩
    · right
      have hres : transfer_compatible_vertices vs ci cf u0 =
          ((transfer_vertices_in_utility_bv_between_cliques vs ci cf
              ((∅ ∪ ci.neighbors_bv) ∩ cf.members_bv)).1,
           (transfer_vertices_in_utility_bv_between_cliques vs ci cf
              ((∅ ∪ ci.neighbors_bv) ∩ cf.members_bv)).2,
           (∅ ∪ ci.neighbors_bv) ∩ cf.members_bv) := by
        unfold transfer_compatible_vertices
        rw [if_neg hb, if_neg hu]
      have hU1 : (∅ ∪ ci.neighbors_bv) ∩ cf.members_bv ⊆ cf.members_bv :=
        Finset.inter_subset_right
      have hU2 : (∅ ∪ ci.neighbors_bv) ∩ cf.members_bv ⊆ ci.neighbors_bv := by
        rw [Finset.empty_union]
        exact Finset.inter_subset_left
      have hs := routine_spec ha hn hvs hci hcf hU1 hU2 hu
      rw [hres]
      refine ⟨hs.1, hs.2.1, hs.2.2.1, hs.2.2.2.1, hs.2.2.2.2.1, hs.2.2.2.2.2.1,
        hs.2.2.2.2.2.2.1, wf_ct_mono hci hs.1 hs.2.2.2.2.2.2.2, ?_⟩
      intro hc
      apply hu
      rw [hc]
      exact Finset.inter_empty _

theorem single_pair_spec {n : ℕ} {adj : ℕ → Finset ℕ} (ha : AdjWF n adj) (hn : 1 ≤ n)
    {vs : List Clique} (hvs : vs = (List.range n).map (canonicalVertex n adj))
    {ci cf : Clique} (hci : CliqueWF n adj ci) (hcf : CliqueWF n adj cf)
    (u0 : Finset ℕ) (v : ℕ) :
    ((transfer_vertex_into_clique vs ci cf u0 v).1 = ci ∧
      (transfer_vertex_into_clique vs ci cf u0 v).2.1 = cf) ∨
    (CliqueWF n adj (transfer_vertex_into_clique vs ci cf u0 v).1 ∧
     CliqueWF n adj (transfer_vertex_into_clique vs ci cf u0 v).2.1 ∧
     (((transfer_vertex_into_clique vs ci cf u0 v).1.members : Multiset ℕ) +
       ((transfer_vertex_into_clique vs ci cf u0 v).2.1.members : Multiset ℕ) =
       (ci.members : Multiset ℕ) + (cf.members : Multiset ℕ)) ∧
     (transfer_vertex_into_clique vs ci cf u0 v).1.is_active = ci.is_active ∧
     ((transfer_vertex_into_clique vs ci cf u0 v).2.1.members_ct = 0 →
       (transfer_vertex_into_clique vs ci cf u0 v).2.1.is_active = false ∧
       (transfer_vertex_into_clique vs ci cf u0 v).2.1.members = []) ∧
     ((transfer_vertex_into_clique vs ci cf u0 v).2.1.members_ct ≠ 0 →
       (transfer_vertex_into_clique vs ci cf u0 v).2.1.is_active = cf.is_active) ∧
     1 ≤ (transfer_vertex_into_clique vs ci cf u0 v).1.members_ct ∧
     ci.members_ct ≤ (transfer_vertex_into_clique vs ci cf u0 v).1.members_ct ∧
     cf.members_bv ≠ ∅) := by
  by_cases h1 : ci.has_neighbors = false
  · left
    unfold transfer_vertex_into_clique
    rw [if_pos h1]
    exact ⟨rfl, rfl⟩
  · by_cases h2 : v ∈ cf.members_bv
    · by_cases h3 : v ∈ ci.neighbors_bv
      · by_cases h4 : ci.is_active = false
        · left
          unfold transfer_vertex_into_clique
          rw [if_neg h1, if_neg (by simpa using h2), if_neg (by simpa using h3), if_pos h4]
          exact ⟨rfl, rfl⟩
        · right
          have hres : transfer_vertex_into_clique vs ci cf u0 v =
              ((transfer_vertices_in_utility_bv_between_cliques vs ci cf
                  (insert v ∅)).1,
               (transfer_vertices_in_utility_bv_between_cliques vs ci cf
                  (insert v ∅)).2,
               insert v ∅) := by
            unfold transfer_vertex_into_clique
            rw [if_neg h1, if_neg (by simpa using h2), if_neg (by simpa using h3),
              if_neg h4]
          have hU1 : (insert v ∅ : Finset ℕ) ⊆ cf.members_bv := by
            intro x hx
            rw [Finset.mem_insert] at hx
            rcases hx with hx | hx
            · exact hx ▸ h2
            · exact absurd hx (Finset.not_mem_empty x)
          have hU2 : (insert v ∅ : Finset ℕ) ⊆ ci.neighbors_bv := by
            intro x hx
            rw [Finset.mem_insert] at hx
            rcases hx with hx | hx
            · exact hx ▸ h3
            · exact absurd hx (Finset.not_mem_empty x)
          have hU0 : (insert v ∅ : Finset ℕ) ≠ ∅ := by
            simp
          have hs := routine_spec ha hn hvs hci hcf hU1 hU2 hU0
          rw [hres]
          refine ⟨hs.1, hs.2.1, hs.2.2.1, hs.2.2.2.1, hs.2.2.2.2.1, hs.2.2.2.2.2.1,
            hs.2.2.2.2.2.2.1, wf_ct_mono hci hs.1 hs.2.2.2.2.2.2.2, ?_⟩
          exact Finset.ne_empty_of_mem h2
      · left
        unfold transfer_vertex_into_clique
        rw [if_neg h1, if_neg (by simpa using h2), if_pos (by simpa using h3)]
        exact ⟨rfl, rfl⟩
    · left
      unfold transfer_vertex_into_clique
      rw [if_neg h1, if_pos (by simpa using h2)]
      exact ⟨rfl, rfl⟩

theorem sum_range_update_two {ct i j : ℕ} (hij : i ≠ j) (hi : i < ct) (hj : j < ct)
    (f f' : ℕ → Multiset ℕ) (hsame : ∀ k, k ≠ i → k ≠ j → f' k = f k)
    (hsum : f' i + f' j = f i + f j) :
    ∑ k ∈ Finset.range ct, f' k = ∑ k ∈ Finset.range ct, f k := by
  have hii : i ∈ Finset.range ct := Finset.mem_range.mpr hi
  have hjj : j ∈ (Finset.range ct).erase i :=
    Finset.mem_erase.mpr ⟨fun hc => hij hc.symm, Finset.mem_range.mpr hj⟩
  rw [← Finset.add_sum_erase _ f' hii, ← Finset.add_sum_erase _ f hii]
  rw [← Finset.add_sum_erase _ f' hjj, ← Finset.add_sum_erase _ f hjj]
  have hrest : ∑ k ∈ ((Finset.range ct).erase i).erase j, f' k =
      ∑ k ∈ ((Finset.range ct).erase i).erase j, f k := by
    apply Finset.sum_congr rfl
    intro k hk
    rw [Finset.mem_erase, Finset.mem_erase] at hk
    exact hsame k hk.2.1 hk.1
  rw [hrest, ← add_assoc, ← add_assoc, hsum]

/-! ## List bookkeeping: swaps, permutations, cover sums -/

theorem coverSum_eq_coverL (g : Graph) : coverSum g = coverL g.cliques_ct g.cliques := rfl

theorem getD_mem {l : List Clique} {k : ℕ} (h : k < l.length) : l.getD k dC ∈ l := by
  rw [List.getD_eq_getElem?_getD, List.getElem?_eq_getElem h]
  exact List.getElem_mem h

theorem mem_iff_getD {l : List Clique} {c : Clique} (h : c ∈ l) :
    ∃ k, k < l.length ∧ l.getD k dC = c := by
  obtain ⟨k, hk, he⟩ := List.mem_iff_getElem.mp h
  refine ⟨k, hk, ?_⟩
  rw [List.getD_eq_getElem?_getD, List.getElem?_eq_getElem hk]
  exact he

theorem cons_set_multiset {α : Type} (d : α) :
    ∀ (l : List α) (i : ℕ) (a : α), i < l.length →
      (l.getD i d) ::ₘ ((l.set i a : List α) : Multiset α) = a ::ₘ (l : Multiset α) := by
  intro l
  induction l with
  | nil => intro i a h; simp at h
  | cons b t ih =>
    intro i a h
    cases i with
    | zero =>
      simp only [List.getD_cons_zero, List.set_cons_zero]
      rw [← Multiset.cons_coe, ← Multiset.cons_coe, Multiset.cons_swap]
    | succ i =>
      simp only [List.getD_cons_succ, List.set_cons_succ]
      rw [← Multiset.cons_coe, ← Multiset.cons_coe, Multiset.cons_swap,
        ih i a (by simpa using h), Multiset.cons_swap]

theorem swapL_length (l : List Clique) (i j : ℕ) : (swapL l i j).length = l.length := by
  simp [swapL]

theorem swapL_getD_left {l : List Clique} {i j : ℕ} (hi : i < l.length) (hij : i ≠ j) :
    (swapL l i j).getD i dC = l.getD j dC := by
  unfold swapL
  rw [getD_set_ne (fun h => hij h.symm), getD_set_self hi]

theorem swapL_getD_right {l : List Clique} {i j : ℕ} (hj : j < l.length) :
    (swapL l i j).getD j dC = l.getD i dC := by
  unfold swapL
  rw [getD_set_self (by simpa using hj)]

theorem swapL_getD_other {l : List Clique} {i j k : ℕ} (hik : i ≠ k) (hjk : j ≠ k) :
    (swapL l i j).getD k dC = l.getD k dC := by
  unfold swapL
  rw [getD_set_ne hjk, getD_set_ne hik]

theorem swapL_self {l : List Clique} {i : ℕ} (h : i < l.length) : swapL l i i = l := by
  unfold swapL
  rw [set_getD_eq_self h, set_getD_eq_self h]

theorem swapL_perm {l : List Clique} {i j : ℕ} (hi : i < l.length) (hj : j < l.length) :
    List.Perm (swapL l i j) l := by
  by_cases hij : i = j
  · subst hij
    rw [swapL_self hi]
  · rw [← Multiset.coe_eq_coe]
    have e1 := cons_set_multiset dC l i (l.getD j dC) hi
    have e2 := cons_set_multiset dC (l.set i (l.getD j dC)) j (l.getD i dC) (by simpa using hj)
    rw [getD_set_ne hij] at e2
    have e3 := e2.trans e1
    unfold swapL
    exact (Multiset.cons_inj_right _).mp e3

theorem sum_range_getD_eq (f : Clique → Multiset ℕ) :
    ∀ l : List Clique,
      ∑ k ∈ Finset.range l.length, f (l.getD k dC) = (l.map f).sum := by
  intro l
  induction l with
  | nil => simp
  | cons a t ih =>
    rw [List.length_cons, Finset.sum_range_succ']
    simp only [List.getD_cons_succ, List.getD_cons_zero]
    rw [ih, List.map_cons, List.sum_cons]
    exact add_comm _ _

theorem coverL_extend {ct m : ℕ} {l : List Clique} (hcm : ct ≤ m)
    (htail : ∀ k, ct ≤ k → k < m → (l.getD k dC).is_active = false) :
    coverL m l = coverL ct l := by
  unfold coverL
  refine (Finset.sum_subset (Finset.range_subset.mpr hcm) ?_).symm
  intro x hx hnx
  rw [Finset.mem_range] at hx
  rw [Finset.mem_range, not_lt] at hnx
  rw [htail x hnx hx]
  simp

theorem coverL_full_perm {l l' : List Clique} (h : List.Perm l' l) :
    coverL l'.length l' = coverL l.length l := by
  unfold coverL
  rw [sum_range_getD_eq (fun c => if c.is_active = true then (c.members : Multiset ℕ) else 0) l',
    sum_range_getD_eq (fun c => if c.is_active = true then (c.members : Multiset ℕ) else 0) l]
  exact (h.map _).sum_eq

theorem coverL_swapL {l : List Clique} {i j ct : ℕ} (hi : i < ct) (hj : j < ct)
    (hct : ct ≤ l.length) :
    coverL ct (swapL l i j) = coverL ct l := by
  by_cases hij : i = j
  · subst hij
    rw [swapL_self (lt_of_lt_of_le hi hct)]
  · exact sum_range_update_two hij hi hj _ _
      (fun k hki hkj => by
        rw [swapL_getD_other (fun h => hki h.symm) (fun h => hkj h.symm)])
      (by
        rw [swapL_getD_left (lt_of_lt_of_le hi hct) hij, swapL_getD_right (lt_of_lt_of_le hj hct)]
        exact add_comm _ _)

/-! ## Compaction loop characterisation -/

theorem compactLoop_spec : ∀ (fuel : ℕ) (cliques : List Clique) (i ct : ℕ),
    ct ≤ i + fuel → ct ≤ cliques.length →
    (∀ k, ct ≤ k → k < cliques.length → (cliques.getD k dC).is_active = false) →
    ((compactLoop fuel cliques i ct).1.length = cliques.length ∧
     List.Perm (compactLoop fuel cliques i ct).1 cliques ∧
     (i ≤ ct → i ≤ (compactLoop fuel cliques i ct).2) ∧
     (compactLoop fuel cliques i ct).2 ≤ ct ∧
     (∀ k, (compactLoop fuel cliques i ct).2 ≤ k → k < cliques.length →
        ((compactLoop fuel cliques i ct).1.getD k dC).is_active = false) ∧
     ((∀ k, k < i → (cliques.getD k dC).is_active = true) →
        ∀ k, k < (compactLoop fuel cliques i ct).2 →
          ((compactLoop fuel cliques i ct).1.getD k dC).is_active = true)) := by
  intro fuel
  induction fuel with
  | zero =>
    intro cliques i ct hfuel hct htail
    have hcti : ct ≤ i := by omega
    refine ⟨rfl, List.Perm.refl _, fun h => h, le_refl _, htail, ?_⟩
    intro hpre k hk
    exact hpre k (lt_of_lt_of_le hk hcti)
  | succ fuel ih =>
    intro cliques i ct hfuel hct htail
    rw [compactLoop]
    by_cases hlt : i < ct
    · rw [if_pos hlt]
      by_cases h1 : (cliques.getD i dC).is_active = true
      · rw [if_pos h1]
        obtain ⟨ca, cb, cc, cd, ce, cf⟩ := ih cliques (i + 1) ct (by omega) hct htail
        refine ⟨ca, cb, fun _ => by have := cc (by omega); omega, cd, ce, ?_⟩
        intro hpre
        refine cf ?_
        intro k hk
        by_cases hki : k = i
        · exact hki ▸ h1
        · exact hpre k (by omega)
      · rw [if_neg h1]
        by_cases h2 : (cliques.getD (ct - 1) dC).is_active = true
        · rw [if_pos h2]
          have hine : i ≠ ct - 1 := by
            intro hc
            rw [hc] at h1
            exact h1 h2
          have hilt : i < ct - 1 := by omega
          have hi' : i < cliques.length := by omega
          have hc1 : ct - 1 < cliques.length := by omega
          have hswlen : (swapL cliques i (ct - 1)).length = cliques.length :=
            swapL_length cliques i (ct - 1)
          have htail' : ∀ k, ct - 1 ≤ k → k < (swapL cliques i (ct - 1)).length →
              ((swapL cliques i (ct - 1)).getD k dC).is_active = false := by
            intro k hk hkl
            rw [hswlen] at hkl
            by_cases hk1 : k = ct - 1
            · rw [hk1, swapL_getD_right hc1]
              simpa using h1
            · rw [swapL_getD_other (by omega) (by omega)]
              exact htail k (by omega) hkl
          obtain ⟨ca, cb, cc, cd, ce, cf⟩ := ih (swapL cliques i (ct - 1)) (i + 1) (ct - 1)
            (by omega) (by omega) htail'
          rw [hswlen] at ca ce
          refine ⟨ca, cb.trans (swapL_perm hi' hc1), fun _ => by have := cc (by omega); omega,
            by omega, ce, ?_⟩
          intro hpre
          refine cf ?_
          intro k hk
          by_cases hki : k = i
          · rw [hki, swapL_getD_left hi' hine]
            exact h2
          · rw [swapL_getD_other (by omega) (by omega)]
            exact hpre k (by omega)
        · rw [if_neg h2]
          have htail' : ∀ k, ct - 1 ≤ k → k < cliques.length →
              (cliques.getD k dC).is_active = false := by
            intro k hk hkl
            by_cases hk1 : k = ct - 1
            · rw [hk1]; simpa using h2
            · exact htail k (by omega) hkl
          obtain ⟨ca, cb, cc, cd, ce, cf⟩ := ih cliques i (ct - 1)
            (by omega) (by omega) htail'
          refine ⟨ca, cb, fun _ => by have := cc (by omega); omega, by omega, ce, cf⟩
    · rw [if_neg hlt]
      have hcti : ct ≤ i := by omega
      refine ⟨rfl, List.Perm.refl _, fun h => h, le_refl _, htail, ?_⟩
      intro hpre k hk
      exact hpre k (lt_of_lt_of_le hk hcti)

/-! ## Raw activity bookkeeping of the merge phase -/

theorem routine_is_active (vs : List Clique) (ci cf : Clique) (U : Finset ℕ) :
    (transfer_vertices_in_utility_bv_between_cliques vs ci cf U).1.is_active = ci.is_active ∧
    ((transfer_vertices_in_utility_bv_between_cliques vs ci cf U).2.is_active = cf.is_active ∨
     (transfer_vertices_in_utility_bv_between_cliques vs ci cf U).2.is_active = false) := by
  constructor
  · simp only [transfer_vertices_in_utility_bv_between_cliques]
    split
    · exact (transferLoop_frame vs U _ _ _).2.2.2.1
    · exact (transferLoop_frame vs U _ _ _).2.2.2.1
  · simp only [transfer_vertices_in_utility_bv_between_cliques]
    split
    · exact Or.inr rfl
    · exact Or.inl (transferLoop_frame vs U _ _ _).2.2.2.2.2.2.2.2.1

theorem compat_is_active (vs : List Clique) (ci cf : Clique) (u : Finset ℕ) :
    (transfer_compatible_vertices vs ci cf u).1.is_active = ci.is_active ∧
    ((transfer_compatible_vertices vs ci cf u).2.1.is_active = cf.is_active ∨
     (transfer_compatible_vertices vs ci cf u).2.1.is_active = false) := by
  unfold transfer_compatible_vertices
  by_cases h1 : ci.has_neighbors = false
  · rw [if_pos h1]
    exact ⟨rfl, Or.inl rfl⟩
  · rw [if_neg h1]
    by_cases h2 : (∅ ∪ ci.neighbors_bv) ∩ cf.members_bv = ∅
    · rw [if_pos h2]
      exact ⟨rfl, Or.inl rfl⟩
    · rw [if_neg h2]
      exact routine_is_active vs ci cf _

theorem greedyInner_raw (vs : List Clique) (ct i : ℕ) :
    ∀ (fuel j : ℕ) (st : List Clique × Finset ℕ), i < j → i < ct → ct ≤ st.1.length →
      ((greedyInner vs ct i fuel j st).1.length = st.1.length ∧
       ((greedyInner vs ct i fuel j st).1.getD i dC).is_active =
         (st.1.getD i dC).is_active ∧
       (∀ k, k ≠ i → (k < j ∨ ct ≤ k) →
         (greedyInner vs ct i fuel j st).1.getD k dC = st.1.getD k dC)) := by
  intro fuel
  induction fuel with
  | zero =>
    intro j st _ _ _
    exact ⟨rfl, rfl, fun k _ _ => rfl⟩
  | succ fuel ihf =>
    intro j st hij hict hctl
    rw [greedyInner]
    by_cases hj : j < ct
    · rw [if_pos hj]
      by_cases hact : (st.1.getD j dC).is_active = false
      · rw [if_pos hact]
        obtain ⟨ca, cb, cc⟩ := ihf (j + 1) st (by omega) hict hctl
        refine ⟨ca, cb, fun k hk hk2 => cc k hk ?_⟩
        rcases hk2 with h | h
        · exact Or.inl (by omega)
        · exact Or.inr h
      · rw [if_neg hact]
        have hil : i < st.1.length := by omega
        have hjl : j < st.1.length := by omega
        set r := transfer_compatible_vertices vs (st.1.getD i dC) (st.1.getD j dC) st.2 with hr
        have hlen' : ((st.1.set i r.1).set j r.2.1).length = st.1.length := by simp
        obtain ⟨ca, cb, cc⟩ := ihf (j + 1) ((st.1.set i r.1).set j r.2.1, r.2.2)
          (by omega) hict (by simpa using hctl)
        have hgi : ((st.1.set i r.1).set j r.2.1).getD i dC = r.1 := by
          rw [getD_set_ne (by omega), getD_set_self hil]
        have hframe : ∀ k, k ≠ i → (k < j ∨ ct ≤ k) →
            ((st.1.set i r.1).set j r.2.1).getD k dC = st.1.getD k dC := by
          intro k hk hk2
          have hkj : k ≠ j := by rcases hk2 with h | h <;> omega
          rw [getD_set_ne (fun h => hkj h.symm), getD_set_ne (fun h => hk h.symm)]
        refine ⟨by rw [ca]; exact hlen', ?_, ?_⟩
        · rw [cb]
          simp only [hgi]
          exact (compat_is_active vs _ _ _).1
        · intro k hk hk2
          have hk3 : k < j + 1 ∨ ct ≤ k := by
            rcases hk2 with h | h
            · exact Or.inl (by omega)
            · exact Or.inr h
          rw [cc k hk hk3, hframe k hk hk2]
    · rw [if_neg hj]
      exact ⟨rfl, rfl, fun k _ _ => rfl⟩

theorem greedyOuter_raw (vs : List Clique) (ct : ℕ) :
    ∀ (fuel i : ℕ) (st : List Clique × Finset ℕ), ct ≤ st.1.length →
      ((greedyOuter vs ct fuel i st).1.length = st.1.length ∧
       (∀ k, (k < i ∨ ct ≤ k) →
         (greedyOuter vs ct fuel i st).1.getD k dC = st.1.getD k dC) ∧
       ((greedyOuter vs ct fuel i st).1.getD 0 dC).is_active =
         (st.1.getD 0 dC).is_active) := by
  intro fuel
  induction fuel with
  | zero =>
    intro i st _
    exact ⟨rfl, fun k _ => rfl, rfl⟩
  | succ fuel ihf =>
    intro i st hctl
    rw [greedyOuter]
    by_cases hi : i < ct - 1
    · rw [if_pos hi]
      by_cases hact : (st.1.getD i dC).is_active = false
      · rw [if_pos hact]
        obtain ⟨ca, cb, cc⟩ := ihf (i + 1) st hctl
        exact ⟨ca, fun k hk => cb k (by omega), cc⟩
      · rw [if_neg hact]
        obtain ⟨ia, ib, ic⟩ := greedyInner_raw vs ct i (ct - (i + 1)) (i + 1) st
          (by omega) (by omega) hctl
        obtain ⟨ca, cb, cc⟩ := ihf (i + 1) (greedyInner vs ct i (ct - (i + 1)) (i + 1) st)
          (by rw [ia]; exact hctl)
        refine ⟨by rw [ca, ia], ?_, ?_⟩
        · intro k hk
          rw [cb k (by omega)]
          rcases hk with hk | hk
          · exact ic k (by omega) (Or.inl (by omega))
          · exact ic k (by omega) (Or.inr hk)
        · rw [cc]
          by_cases hi0 : i = 0
          · rw [← hi0]
            exact ib
          · rw [ic 0 (fun h => hi0 h.symm) (Or.inl (by omega))]
    · rw [if_neg hi]
      exact ⟨rfl, fun k _ => rfl, rfl⟩

theorem length_filter_active :
    ∀ (l : List Clique) (m : ℕ), m ≤ l.length →
    (∀ k, k < m → (l.getD k dC).is_active = true) →
    (∀ k, m ≤ k → k < l.length → (l.getD k dC).is_active = false) →
    (l.filter (fun c => c.is_active)).length = m := by
  intro l
  induction l with
  | nil =>
    intro m hm _ _
    simp at hm
    simp [hm]
  | cons a t ih =>
    intro m hm hpre htail
    cases m with
    | zero =>
      have ha : a.is_active = false := by
        have := htail 0 (by omega) (by simp)
        simpa using this
      rw [List.filter_cons_of_neg (by simp [ha])]
      exact ih 0 (by omega) (fun k hk => absurd hk (Nat.not_lt_zero k))
        (fun k _ hk => by
          have := htail (k + 1) (by omega) (by simpa using hk)
          simpa using this)
    | succ m =>
      have ha : a.is_active = true := by
        have := hpre 0 (by omega)
        simpa using this
      rw [List.filter_cons_of_pos (by simp [ha])]
      rw [List.length_cons, ih m (by simpa using hm)
        (fun k hk => by
          have := hpre (k + 1) (by omega)
          simpa using this)
        (fun k hk hkl => by
          have := htail (k + 1) (by omega) (by simpa using hkl)
          simpa using this)]

/-- Claim C7: after a `vcc_greedy` call the working array is partitioned —
slots `[0, cliques_ct)` all active, slots at or beyond `cliques_ct` all
inactive — and `cliques_ct` equals the number of active cliques in the array.
The hypotheses record the call-site facts noted by the claim itself: the
active count is within the array, slots beyond it are already inactive, and
slot 0 — which the compaction loop never examines — is active whenever the
working prefix is non-empty. -/
theorem claim_C7 (g : Graph) (hct : g.cliques_ct ≤ g.cliques.length)
    (h0 : 0 < g.cliques_ct → (g.cliques.getD 0 dC).is_active = true)
    (htail : ∀ k, g.cliques_ct ≤ k → k < g.cliques.length →
      (g.cliques.getD k dC).is_active = false) :
    (∀ k, k < (vcc_greedy g).cliques_ct →
      ((vcc_greedy g).cliques.getD k dC).is_active = true) ∧
    (∀ k, (vcc_greedy g).cliques_ct ≤ k → k < (vcc_greedy g).cliques.length →
      ((vcc_greedy g).cliques.getD k dC).is_active = false) ∧
    (vcc_greedy g).cliques_ct =
      ((vcc_greedy g).cliques.filter (fun c => c.is_active)).length := by
  obtain ⟨ma, mb, mc⟩ := greedyOuter_raw g.vertices g.cliques_ct (g.cliques_ct - 1) 0
    (g.cliques, g.utility_bv) hct
  set st := greedyOuter g.vertices g.cliques_ct (g.cliques_ct - 1) 0
    (g.cliques, g.utility_bv) with hst
  have htail' : ∀ k, g.cliques_ct ≤ k → k < st.1.length →
      (st.1.getD k dC).is_active = false := by
    intro k hk hkl
    rw [mb k (Or.inr hk)]
    exact htail k hk (by rw [← ma]; exact hkl)
  obtain ⟨ca, cb, cc, cd, ce, cf⟩ := compactLoop_spec (g.cliques_ct - 1) st.1 1 g.cliques_ct
    (by omega) (by rw [ma]; exact hct) htail'
  have hpre : 0 < g.cliques_ct → ∀ k, k < 1 → (st.1.getD k dC).is_active = true := by
    intro hpos k hk
    have hk0 : k = 0 := by omega
    rw [hk0, mc]
    exact h0 hpos
  by_cases hc0 : 0 < g.cliques_ct
  · refine ⟨fun k hk => cf (hpre hc0) k hk, ?_, ?_⟩
    · intro k hk hkl
      exact ce k hk (by rw [← ca]; exact hkl)
    · exact (length_filter_active _ _ (le_trans cd (by rw [ca, ma]; exact hct))
        (cf (hpre hc0)) (fun k hk hkl => ce k hk (by rw [← ca]; exact hkl))).symm
  · have hz : g.cliques_ct = 0 := by omega
    refine ⟨?_, ?_, ?_⟩
    · intro k hk
      exact absurd (lt_of_lt_of_le hk cd) (by omega)
    · intro k hk hkl
      exact ce k (le_trans (by omega) hk) (by rw [← ca]; exact hkl)
    · have hall : ∀ k, 0 ≤ k →
          k < (compactLoop (g.cliques_ct - 1) st.1 1 g.cliques_ct).1.length →
          (((compactLoop (g.cliques_ct - 1) st.1 1 g.cliques_ct).1).getD k dC).is_active
            = false := by
        intro k hk hkl
        exact ce k (by omega) (by rw [← ca]; exact hkl)
      have h2z : (compactLoop (g.cliques_ct - 1) st.1 1 g.cliques_ct).2 = 0 := by omega
      have hgoal : (compactLoop (g.cliques_ct - 1) st.1 1 g.cliques_ct).2 =
          (((compactLoop (g.cliques_ct - 1) st.1 1 g.cliques_ct).1).filter
            (fun c => c.is_active)).length := by
        rw [h2z]
        exact (length_filter_active _ 0 (by omega)
          (fun k hk => absurd hk (Nat.not_lt_zero k)) hall).symm
      exact hgoal

/-- Witness for claim C7: the partition conclusion evaluated on the concrete
three-vertex instance `gPre` (one edge, all slots active before the sweep). -/
theorem claim_C7_witness :
    (∀ k, k < (vcc_greedy gPre).cliques_ct →
      ((vcc_greedy gPre).cliques.getD k dC).is_active = true) ∧
    (∀ k, (vcc_greedy gPre).cliques_ct ≤ k → k < (vcc_greedy gPre).cliques.length →
      ((vcc_greedy gPre).cliques.getD k dC).is_active = false) ∧
    (vcc_greedy gPre).cliques_ct =
      ((vcc_greedy gPre).cliques.filter (fun c => c.is_active)).length :=
  claim_C7 gPre (by decide) (fun _ => by decide)
    (fun k hk hkl => absurd (lt_of_le_of_lt hk hkl) (by decide))

theorem compat_absorb {n : ℕ} {adj : ℕ → Finset ℕ} (ha : AdjWF n adj) (hn : 1 ≤ n)
    {vs : List Clique} (hvs : vs = (List.range n).map (canonicalVertex n adj))
    {ci cf : Clique} (hci : CliqueWF n adj ci) (hcf : CliqueWF n adj cf) (u0 : Finset ℕ)
    (hb : ¬ ci.has_neighbors = false)
    (hu : ¬ (∅ ∪ ci.neighbors_bv) ∩ cf.members_bv = ∅) :
    1 ≤ (transfer_compatible_vertices vs ci cf u0).1.members_ct := by
  have hres : transfer_compatible_vertices vs ci cf u0 =
      ((transfer_vertices_in_utility_bv_between_cliques vs ci cf
          ((∅ ∪ ci.neighbors_bv) ∩ cf.members_bv)).1,
       (transfer_vertices_in_utility_bv_between_cliques vs ci cf
          ((∅ ∪ ci.neighbors_bv) ∩ cf.members_bv)).2,
       (∅ ∪ ci.neighbors_bv) ∩ cf.members_bv) := by
    unfold transfer_compatible_vertices
    rw [if_neg hb, if_neg hu]
  rw [hres]
  exact (routine_spec ha hn hvs hci hcf Finset.inter_subset_right
    (by rw [Finset.empty_union]; exact Finset.inter_subset_left) hu).2.2.2.2.2.2.1

/-! ## Invariant preservation by a single written-back transfer -/

theorem wf_active_of_bv_ne {n : ℕ} {adj : ℕ → Finset ℕ} {c : Clique}
    (hw : CliqueWF n adj c) (hie : c.is_active = false → c.members_ct = 0)
    (hbv : c.members_bv ≠ ∅) : c.is_active = true := by
  by_cases hc : c.is_active = true
  · exact hc
  · exfalso
    apply hbv
    have h0 : c.members_ct = 0 := hie (by simpa using hc)
    have hnil : c.members = [] := by
      have := hw.ct_eq
      rw [h0] at this
      exact (List.length_eq_zero.mp this.symm)
    rw [← hw.bv_eq, hnil]
    rfl

theorem step_compat_LInv {n : ℕ} {adj : ℕ → Finset ℕ} (ha : AdjWF n adj) (hn : 1 ≤ n)
    {vs : List Clique} (hvs : vs = (List.range n).map (canonicalVertex n adj))
    {ct : ℕ} {cliques : List Clique} (h : LInv n adj ct cliques)
    {i j : ℕ} (hij : i ≠ j) (hi : i < ct) (hj : j < ct)
    (hact : (cliques.getD i dC).is_active = true) (u0 : Finset ℕ) :
    (LInv n adj ct ((cliques.set i
        (transfer_compatible_vertices vs (cliques.getD i dC) (cliques.getD j dC) u0).1).set j
        (transfer_compatible_vertices vs (cliques.getD i dC) (cliques.getD j dC) u0).2.1) ∧
     (((cliques.set i
        (transfer_compatible_vertices vs (cliques.getD i dC) (cliques.getD j dC) u0).1).set j
        (transfer_compatible_vertices vs (cliques.getD i dC) (cliques.getD j dC) u0).2.1).getD
          i dC).is_active = true ∧
     (cliques.getD i dC).members_ct ≤
       (((cliques.set i
        (transfer_compatible_vertices vs (cliques.getD i dC) (cliques.getD j dC) u0).1).set j
        (transfer_compatible_vertices vs (cliques.getD i dC) (cliques.getD j dC) u0).2.1).getD
          i dC).members_ct ∧
     (∀ k, k ≠ i → k ≠ j →
       (((cliques.set i
        (transfer_compatible_vertices vs (cliques.getD i dC) (cliques.getD j dC) u0).1).set j
        (transfer_compatible_vertices vs (cliques.getD i dC) (cliques.getD j dC) u0).2.1).getD
          k dC) = cliques.getD k dC) ∧
     ((∀ k, k < ct → k ≠ i → (cliques.getD k dC).is_active = true →
        1 ≤ (cliques.getD k dC).members_ct) →
      ∀ k, k < ct → k ≠ i →
        ((((cliques.set i
        (transfer_compatible_vertices vs (cliques.getD i dC) (cliques.getD j dC) u0).1).set j
        (transfer_compatible_vertices vs (cliques.getD i dC) (cliques.getD j dC) u0).2.1).getD
          k dC).is_active = true) →
        1 ≤ (((cliques.set i
        (transfer_compatible_vertices vs (cliques.getD i dC) (cliques.getD j dC) u0).1).set j
        (transfer_compatible_vertices vs (cliques.getD i dC) (cliques.getD j dC) u0).2.1).getD
          k dC).members_ct)) := by
  have hil : i < cliques.length := by rw [h.clen]; exact lt_of_lt_of_le hi h.ct_le
  have hjl : j < cliques.length := by rw [h.clen]; exact lt_of_lt_of_le hj h.ct_le
  have hciWF : CliqueWF n adj (cliques.getD i dC) := h.wf _ (getD_mem hil)
  have hcfWF : CliqueWF n adj (cliques.getD j dC) := h.wf _ (getD_mem hjl)
  set ci := cliques.getD i dC with hcidef
  set cf := cliques.getD j dC with hcfdef
  set r := transfer_compatible_vertices vs ci cf u0 with hrdef
  have hframe : ∀ k, k ≠ i → k ≠ j →
      ((cliques.set i r.1).set j r.2.1).getD k dC = cliques.getD k dC := by
    intro k hk1 hk2
    rw [getD_set_ne (fun hh => hk2 hh.symm), getD_set_ne (fun hh => hk1 hh.symm)]
  have hgi : ((cliques.set i r.1).set j r.2.1).getD i dC = r.1 := by
    rw [getD_set_ne (fun hh => hij hh.symm), getD_set_self hil]
  have hgj : ((cliques.set i r.1).set j r.2.1).getD j dC = r.2.1 := by
    rw [getD_set_self (by simpa using hjl)]
  rcases compat_pair_spec ha hn hvs hciWF hcfWF u0 with ⟨e1, e2⟩ |
    ⟨w1, w2, wsum, wact, wz, wnz, w1ct, wmono, hbv⟩
  · have hl : (cliques.set i r.1).set j r.2.1 = cliques := by
      rw [← hrdef] at e1 e2
      rw [e1, set_getD_eq_self hil, e2, set_getD_eq_self hjl]
    rw [hl]
    exact ⟨h, hact, le_refl _, fun k _ _ => rfl, fun hN => hN⟩
  · rw [← hrdef] at w1 w2 wsum wact wz wnz w1ct wmono
    have hcfact : cf.is_active = true :=
      wf_active_of_bv_ne hcfWF (h.inactive_empty cf (getD_mem hjl)) hbv
    have hriact : r.1.is_active = true := by rw [wact]; exact hact
    refine ⟨⟨?_, h.ct_le, ?_, ?_, ?_, ?_⟩, ?_, ?_, hframe, ?_⟩
    · simp [h.clen]
    · intro c hc
      rcases List.mem_or_eq_of_mem_set hc with hc2 | hc2
      · rcases List.mem_or_eq_of_mem_set hc2 with hc3 | hc3
        · exact h.wf c hc3
        · exact hc3 ▸ w1
      · exact hc2 ▸ w2
    · intro k hk hkn
      rw [hframe k (by omega) (by omega)]
      exact h.tail_inactive k hk hkn
    · intro c hc hcact
      rcases List.mem_or_eq_of_mem_set hc with hc2 | hc2
      · rcases List.mem_or_eq_of_mem_set hc2 with hc3 | hc3
        · exact h.inactive_empty c hc3 hcact
        · subst hc3
          rw [hriact] at hcact
          exact absurd hcact (by simp)
      · subst hc2
        by_cases hz : r.2.1.members_ct = 0
        · exact hz
        · rw [wnz hz, hcfact] at hcact
          exact absurd hcact (by simp)
    · have hcov : coverL ct ((cliques.set i r.1).set j r.2.1) = coverL ct cliques := by
        unfold coverL
        refine sum_range_update_two hij hi hj _ _ ?_ ?_
        · intro k hk1 hk2
          rw [hframe k hk1 hk2]
        · rw [hgi, hgj, hriact, hact, hcfact, if_pos rfl, if_pos rfl]
          by_cases hz : r.2.1.members_ct = 0
          · obtain ⟨hz1, hz2⟩ := wz hz
            rw [hz1]
            simp only [if_neg (by simp : ¬ false = true)]
            rw [hz2, Multiset.coe_nil] at wsum
            exact wsum
          · rw [wnz hz, hcfact, if_pos rfl]
            exact wsum
      rw [hcov]
      exact h.cons
    · rw [hgi]
      exact hriact
    · rw [hgi]
      exact wmono
    · intro hN k hk hki hkact
      by_cases hkj : k = j
      · subst hkj
        rw [hgj] at hkact ⊢
        by_cases hz : r.2.1.members_ct = 0
        · rw [(wz hz).1] at hkact
          exact absurd hkact (by simp)
        · omega
      · rw [hframe k hki hkj] at hkact ⊢
        exact hN k hk hki hkact

theorem step_single_LInv {n : ℕ} {adj : ℕ → Finset ℕ} (ha : AdjWF n adj) (hn : 1 ≤ n)
    {vs : List Clique} (hvs : vs = (List.range n).map (canonicalVertex n adj))
    {ct : ℕ} {cliques : List Clique} (h : LInv n adj ct cliques)
    {i j : ℕ} (hij : i ≠ j) (hi : i < ct) (hj : j < ct)
    (hact : (cliques.getD i dC).is_active = true) (u0 : Finset ℕ) (v : ℕ) :
    (LInv n adj ct ((cliques.set i
        (transfer_vertex_into_clique vs (cliques.getD i dC) (cliques.getD j dC) u0 v).1).set j
        (transfer_vertex_into_clique vs (cliques.getD i dC) (cliques.getD j dC) u0 v).2.1) ∧
     (((cliques.set i
        (transfer_vertex_into_clique vs (cliques.getD i dC) (cliques.getD j dC) u0 v).1).set j
        (transfer_vertex_into_clique vs (cliques.getD i dC) (cliques.getD j dC) u0 v).2.1).getD
          i dC).is_active = true ∧
     (cliques.getD i dC).members_ct ≤
       (((cliques.set i
        (transfer_vertex_into_clique vs (cliques.getD i dC) (cliques.getD j dC) u0 v).1).set j
        (transfer_vertex_into_clique vs (cliques.getD i dC) (cliques.getD j dC) u0 v).2.1).getD
          i dC).members_ct ∧
     (∀ k, k ≠ i → k ≠ j →
       (((cliques.set i
        (transfer_vertex_into_clique vs (cliques.getD i dC) (cliques.getD j dC) u0 v).1).set j
        (transfer_vertex_into_clique vs (cliques.getD i dC) (cliques.getD j dC) u0 v).2.1).getD
          k dC) = cliques.getD k dC) ∧
     ((∀ k, k < ct → k ≠ i → (cliques.getD k dC).is_active = true →
        1 ≤ (cliques.getD k dC).members_ct) →
      ∀ k, k < ct → k ≠ i →
        ((((cliques.set i
        (transfer_vertex_into_clique vs (cliques.getD i dC) (cliques.getD j dC) u0 v).1).set j
        (transfer_vertex_into_clique vs (cliques.getD i dC) (cliques.getD j dC) u0 v).2.1).getD
          k dC).is_active = true) →
        1 ≤ (((cliques.set i
        (transfer_vertex_into_clique vs (cliques.getD i dC) (cliques.getD j dC) u0 v).1).set j
        (transfer_vertex_into_clique vs (cliques.getD i dC) (cliques.getD j dC) u0 v).2.1).getD
          k dC).members_ct)) := by
  have hil : i < cliques.length := by rw [h.clen]; exact lt_of_lt_of_le hi h.ct_le
  have hjl : j < cliques.length := by rw [h.clen]; exact lt_of_lt_of_le hj h.ct_le
  have hciWF : CliqueWF n adj (cliques.getD i dC) := h.wf _ (getD_mem hil)
  have hcfWF : CliqueWF n adj (cliques.getD j dC) := h.wf _ (getD_mem hjl)
  set ci := cliques.getD i dC with hcidef
  set cf := cliques.getD j dC with hcfdef
  set r := transfer_vertex_into_clique vs ci cf u0 v with hrdef
  have hframe : ∀ k, k ≠ i → k ≠ j →
      ((cliques.set i r.1).set j r.2.1).getD k dC = cliques.getD k dC := by
    intro k hk1 hk2
    rw [getD_set_ne (fun hh => hk2 hh.symm), getD_set_ne (fun hh => hk1 hh.symm)]
  have hgi : ((cliques.set i r.1).set j r.2.1).getD i dC = r.1 := by
    rw [getD_set_ne (fun hh => hij hh.symm), getD_set_self hil]
  have hgj : ((cliques.set i r.1).set j r.2.1).getD j dC = r.2.1 := by
    rw [getD_set_self (by simpa using hjl)]
  rcases single_pair_spec ha hn hvs hciWF hcfWF u0 v with ⟨e1, e2⟩ |
    ⟨w1, w2, wsum, wact, wz, wnz, w1ct, wmono, hbv⟩
  · have hl : (cliques.set i r.1).set j r.2.1 = cliques := by
      rw [← hrdef] at e1 e2
      rw [e1, set_getD_eq_self hil, e2, set_getD_eq_self hjl]
    rw [hl]
    exact ⟨h, hact, le_refl _, fun k _ _ => rfl, fun hN => hN⟩
  · rw [← hrdef] at w1 w2 wsum wact wz wnz w1ct wmono
    have hcfact : cf.is_active = true :=
      wf_active_of_bv_ne hcfWF (h.inactive_empty cf (getD_mem hjl)) hbv
    have hriact : r.1.is_active = true := by rw [wact]; exact hact
    refine ⟨⟨?_, h.ct_le, ?_, ?_, ?_, ?_⟩, ?_, ?_, hframe, ?_⟩
    · simp [h.clen]
    · intro c hc
      rcases List.mem_or_eq_of_mem_set hc with hc2 | hc2
      · rcases List.mem_or_eq_of_mem_set hc2 with hc3 | hc3
        · exact h.wf c hc3
        · exact hc3 ▸ w1
      · exact hc2 ▸ w2
    · intro k hk hkn
      rw [hframe k (by omega) (by omega)]
      exact h.tail_inactive k hk hkn
    · intro c hc hcact
      rcases List.mem_or_eq_of_mem_set hc with hc2 | hc2
      · rcases List.mem_or_eq_of_mem_set hc2 with hc3 | hc3
        · exact h.inactive_empty c hc3 hcact
        · subst hc3
          rw [hriact] at hcact
          exact absurd hcact (by simp)
      · subst hc2
        by_cases hz : r.2.1.members_ct = 0
        · exact hz
        · rw [wnz hz, hcfact] at hcact
          exact absurd hcact (by simp)
    · have hcov : coverL ct ((cliques.set i r.1).set j r.2.1) = coverL ct cliques := by
        unfold coverL
        refine sum_range_update_two hij hi hj _ _ ?_ ?_
        · intro k hk1 hk2
          rw [hframe k hk1 hk2]
        · rw [hgi, hgj, hriact, hact, hcfact, if_pos rfl, if_pos rfl]
          by_cases hz : r.2.1.members_ct = 0
          · obtain ⟨hz1, hz2⟩ := wz hz
            rw [hz1]
            simp only [if_neg (by simp : ¬ false = true)]
            rw [hz2, Multiset.coe_nil] at wsum
            exact wsum
          · rw [wnz hz, hcfact, if_pos rfl]
            exact wsum
      rw [hcov]
      exact h.cons
    · rw [hgi]
      exact hriact
    · rw [hgi]
      exact wmono
    · intro hN k hk hki hkact
      by_cases hkj : k = j
      · subst hkj
        rw [hgj] at hkact ⊢
        by_cases hz : r.2.1.members_ct = 0
        · rw [(wz hz).1] at hkact
          exact absurd hkact (by simp)
        · omega
      · rw [hframe k hki hkj] at hkact ⊢
        exact hN k hk hki hkact

/-! ## The canonical singleton cliques and graph construction -/

theorem canonicalVertex_WF {n : ℕ} {adj : ℕ → Finset ℕ} (ha : AdjWF n adj) {i : ℕ}
    (hi : i < n) : CliqueWF n adj (canonicalVertex n adj i) := by
  have hbv : (canonicalVertex n adj i).members_bv = {i} := rfl
  have hmem : (canonicalVertex n adj i).members = [i] := rfl
  have hnb : (canonicalVertex n adj i).neighbors_bv = adj i := rfl
  refine ⟨rfl, by rw [hmem]; simp, by rw [hmem, hbv]; simp, rfl, ?_, ?_, ?_, ?_⟩
  · rw [hbv]
    intro x hx
    rw [Finset.mem_singleton] at hx
    rw [hx, Finset.mem_range]
    exact hi
  · rw [hbv]
    intro a hai b hbi hab
    rw [Finset.mem_singleton] at hai hbi
    exact absurd (hai.trans hbi.symm) hab
  · rw [hnb, hbv]
    ext x
    rw [mem_frontierSpec]
    constructor
    · intro hx
      refine ⟨Finset.mem_range.mp (ha.bounded i hx), ?_, ?_⟩
      · rw [Finset.mem_singleton]
        intro hc
        rw [hc] at hx
        exact ha.irrefl i hx
      · intro m hm
        rw [Finset.mem_singleton] at hm
        rw [hm]
        exact hx
    · rintro ⟨hx1, hx2, hx3⟩
      exact hx3 i (Finset.mem_singleton_self i)
  · rw [hnb]
    show decide (adj i ≠ ∅) = true ↔ adj i ≠ ∅
    exact decide_eq_true_iff

theorem transcribe_canonical (n : ℕ) (adj : ℕ → Finset ℕ) (i : ℕ) :
    transcribe_clique_onto_clique (canonicalVertex n adj i) = canonicalVertex n adj i := by
  unfold transcribe_clique_onto_clique canonicalVertex
  simp

theorem vertices_getD_canonical {n : ℕ} {adj : ℕ → Finset ℕ} {vs : List Clique}
    (hvs : vs = (List.range n).map (canonicalVertex n adj)) {i : ℕ} (hi : i < n) :
    vs.getD i dC = canonicalVertex n adj i := by
  subst hvs
  rw [List.getD_eq_getElem?_getD, List.getElem?_map, List.getElem?_range hi]
  rfl

theorem range_multiset_sum (n : ℕ) :
    ∑ k ∈ Finset.range n, ({k} : Multiset ℕ) = ((List.range n : List ℕ) : Multiset ℕ) := by
  induction n with
  | zero => simp
  | succ n ih =>
    rw [Finset.sum_range_succ, ih, List.range_succ, ← Multiset.coe_add, Multiset.coe_singleton]

theorem CInv.ct_pos {n : ℕ} {adj : ℕ → Finset ℕ} {g : Graph} (hn : 1 ≤ n)
    (h : CInv n adj g) : 1 ≤ g.cliques_ct := by
  by_contra hc
  have hz : g.cliques_ct = 0 := by omega
  have := h.cons
  rw [coverSum_eq_coverL, hz] at this
  unfold coverL at this
  rw [Finset.range_zero, Finset.sum_empty] at this
  have hr : List.range n = [] := by
    have h2 := this.symm
    rwa [Multiset.coe_eq_zero] at h2
  have : n = 0 := by simpa using congrArg List.length hr
  omega

theorem conform_CInv {n : ℕ} {adj : ℕ → Finset ℕ} (ha : AdjWF n adj) (hn : 1 ≤ n)
    {g : Graph} (hsize : g.size = n)
    (hvert : g.vertices = (List.range n).map (canonicalVertex n adj))
    (hclen : g.cliques.length = n) :
    CInv n adj (conform_cliques_to_vertices g) := by
  have hcl : (conform_cliques_to_vertices g).cliques = (List.range g.size).foldl
      (fun cs i => cs.set i (transcribe_clique_onto_clique (g.vertices.getD i dC)))
      g.cliques := rfl
  have hctq : (conform_cliques_to_vertices g).cliques_ct = g.size := rfl
  have hlen : (conform_cliques_to_vertices g).cliques.length = n := by
    rw [hcl, foldl_set_range_length]
    exact hclen
  have hgetD : ∀ k, k < n →
      (conform_cliques_to_vertices g).cliques.getD k dC = canonicalVertex n adj k := by
    intro k hk
    rw [hcl, foldl_set_range_getD _ _ _ _ (by rw [hclen]; exact hk)]
    rw [if_pos (by rw [hsize]; exact hk)]
    rw [vertices_getD_canonical hvert hk, transcribe_canonical]
  refine ⟨hsize, hvert, hlen, by rw [hctq]; exact le_of_eq hsize, ?_, ?_, ?_, ?_⟩
  · intro c hc
    obtain ⟨k, hk, he⟩ := mem_iff_getD hc
    rw [hlen] at hk
    rw [← he, hgetD k hk]
    exact canonicalVertex_WF ha hk
  · intro k hk hkn
    rw [hctq, hsize] at hk
    omega
  · intro c hc hcact
    obtain ⟨k, hk, he⟩ := mem_iff_getD hc
    rw [hlen] at hk
    rw [← he, hgetD k hk] at hcact
    exact absurd hcact (by simp [canonicalVertex])
  · rw [coverSum_eq_coverL, hctq, hsize]
    unfold coverL
    rw [← range_multiset_sum n]
    refine Finset.sum_congr rfl ?_
    intro k hk
    rw [Finset.mem_range] at hk
    rw [hgetD k hk]
    rw [if_pos (by simp [canonicalVertex])]
    show ((([k] : List ℕ)) : Multiset ℕ) = {k}
    exact Multiset.coe_singleton k

/-! ## Shuffle, reverse and activation preserve the invariant -/

theorem shuffle_go_facts (r : ℕ → ℕ) (ct : ℕ) :
    ∀ (k : ℕ) (l : List Clique), k < ct → ct ≤ l.length →
      ((shuffle_go r k l).length = l.length ∧
       List.Perm (shuffle_go r k l) l ∧
       (∀ m, ct ≤ m → (shuffle_go r k l).getD m dC = l.getD m dC) ∧
       coverL ct (shuffle_go r k l) = coverL ct l ∧
       (∀ Q : Clique → Prop, (∀ m, m < ct → Q (l.getD m dC)) →
          ∀ m, m < ct → Q ((shuffle_go r k l).getD m dC))) := by
  intro k
  induction k with
  | zero =>
    intro l _ _
    exact ⟨rfl, List.Perm.refl _, fun m _ => rfl, rfl, fun Q hQ => hQ⟩
  | succ k ih =>
    intro l hk hct
    rw [shuffle_go]
    set j := r (k + 1) % (k + 2) with hj
    have hjle : j ≤ k + 1 := by
      have := Nat.mod_lt (r (k + 1)) (show 0 < k + 2 by omega)
      omega
    have hi1 : k + 1 < l.length := by omega
    have hjl : j < l.length := by omega
    have hswlen : (swapL l (k + 1) j).length = l.length := swapL_length l (k + 1) j
    obtain ⟨ca, cb, cc, cd, ce⟩ := ih (swapL l (k + 1) j) (by omega) (by omega)
    refine ⟨by rw [ca, hswlen], cb.trans (swapL_perm hi1 hjl), ?_, ?_, ?_⟩
    · intro m hm
      rw [cc m hm, swapL_getD_other (by omega) (by omega)]
    · rw [cd, coverL_swapL hk (by omega) hct]
    · intro Q hQ m hm
      refine ce Q ?_ m hm
      intro m2 hm2
      by_cases hm2j : m2 = j
      · rw [hm2j, swapL_getD_right hjl]
        exact hQ (k + 1) hk
      · by_cases hm2i : m2 = k + 1
        · rw [hm2i, swapL_getD_left hi1 (fun hc => hm2j (hm2i ▸ hc))]
          exact hQ j (by omega)
        · rw [swapL_getD_other (fun hc => hm2i hc.symm) (fun hc => hm2j hc.symm)]
          exact hQ m2 hm2

theorem shuffle_cliques_eq (r : ℕ → ℕ) (g : Graph) :
    (shuffle_active_cliques r g).cliques = shuffle_go r (g.cliques_ct - 1) g.cliques := rfl

theorem shuffle_facts (r : ℕ → ℕ) (g : Graph) (hct : g.cliques_ct ≤ g.cliques.length) :
    ((shuffle_active_cliques r g).cliques.length = g.cliques.length ∧
     List.Perm (shuffle_active_cliques r g).cliques g.cliques ∧
     (∀ m, g.cliques_ct ≤ m →
       (shuffle_active_cliques r g).cliques.getD m dC = g.cliques.getD m dC) ∧
     coverL g.cliques_ct (shuffle_active_cliques r g).cliques =
       coverL g.cliques_ct g.cliques ∧
     (∀ Q : Clique → Prop, (∀ m, m < g.cliques_ct → Q (g.cliques.getD m dC)) →
        ∀ m, m < g.cliques_ct → Q ((shuffle_active_cliques r g).cliques.getD m dC))) := by
  rw [shuffle_cliques_eq]
  by_cases hz : g.cliques_ct = 0
  · rw [hz]
    exact ⟨rfl, List.Perm.refl _, fun m _ => rfl, rfl, fun Q hQ => hQ⟩
  · exact shuffle_go_facts r g.cliques_ct (g.cliques_ct - 1) g.cliques (by omega) hct

theorem reverse_cliques_eq (g : Graph) :
    (reverse_active_cliques g).cliques =
      (g.cliques.take g.cliques_ct).reverse ++ g.cliques.drop g.cliques_ct := rfl

theorem reverse_facts (g : Graph) (hct : g.cliques_ct ≤ g.cliques.length) :
    ((reverse_active_cliques g).cliques.length = g.cliques.length ∧
     List.Perm (reverse_active_cliques g).cliques g.cliques ∧
     (∀ m, g.cliques_ct ≤ m →
       (reverse_active_cliques g).cliques.getD m dC = g.cliques.getD m dC) ∧
     (∀ m, m < g.cliques_ct →
       (reverse_active_cliques g).cliques.getD m dC =
         g.cliques.getD (g.cliques_ct - 1 - m) dC) ∧
     coverL g.cliques_ct (reverse_active_cliques g).cliques =
       coverL g.cliques_ct g.cliques) := by
  rw [reverse_cliques_eq]
  have htl : (g.cliques.take g.cliques_ct).length = g.cliques_ct := by
    rw [List.length_take]
    omega
  have hlen : ((g.cliques.take g.cliques_ct).reverse ++ g.cliques.drop g.cliques_ct).length =
      g.cliques.length := by
    rw [List.length_append, List.length_reverse, htl, List.length_drop]
    omega
  have hgetlt : ∀ m, m < g.cliques_ct →
      ((g.cliques.take g.cliques_ct).reverse ++ g.cliques.drop g.cliques_ct).getD m dC =
        g.cliques.getD (g.cliques_ct - 1 - m) dC := by
    intro m hm
    have hmrev : m < (g.cliques.take g.cliques_ct).reverse.length := by
      rw [List.length_reverse, htl]
      exact hm
    rw [List.getD_eq_getElem?_getD, List.getElem?_append, if_pos hmrev]
    rw [List.getElem?_reverse (by rw [htl]; exact hm)]
    rw [htl]
    rw [List.getElem?_take, if_pos (by omega)]
    rw [← List.getD_eq_getElem?_getD]
  refine ⟨hlen, ?_, ?_, hgetlt, ?_⟩
  · refine ((List.reverse_perm _).append_right _).trans ?_
    rw [List.take_append_drop]
  · intro m hm
    rw [List.getD_eq_getElem?_getD, List.getElem?_append,
      if_neg (by rw [List.length_reverse, htl]; omega)]
    rw [List.length_reverse, htl, List.getElem?_drop]
    rw [show g.cliques_ct + (m - g.cliques_ct) = m by omega]
    rw [← List.getD_eq_getElem?_getD]
  · unfold coverL
    rw [← Finset.sum_range_reflect]
    refine Finset.sum_congr rfl ?_
    intro m hm
    rw [Finset.mem_range] at hm
    rw [hgetlt (g.cliques_ct - 1 - m) (by omega)]
    rw [show g.cliques_ct - 1 - (g.cliques_ct - 1 - m) = m by omega]

theorem shuffle_CInv {n : ℕ} {adj : ℕ → Finset ℕ} {g : Graph} (h : CInv n adj g)
    (r : ℕ → ℕ) : CInv n adj (shuffle_active_cliques r g) := by
  have hct : g.cliques_ct ≤ g.cliques.length := by rw [h.clen]; exact h.ct_le
  obtain ⟨ca, cb, cc, cd, _⟩ := shuffle_facts r g hct
  refine ⟨h.size_eq, h.vert, by rw [ca]; exact h.clen, h.ct_le, ?_, ?_, ?_, ?_⟩
  · intro c hc
    exact h.wf c (cb.mem_iff.mp hc)
  · intro k hk hkn
    rw [cc k hk]
    exact h.tail_inactive k hk hkn
  · intro c hc hcact
    exact h.inactive_empty c (cb.mem_iff.mp hc) hcact
  · rw [coverSum_eq_coverL]
    show coverL g.cliques_ct (shuffle_active_cliques r g).cliques = _
    rw [cd, ← coverSum_eq_coverL]
    exact h.cons

theorem reverse_CInv {n : ℕ} {adj : ℕ → Finset ℕ} {g : Graph} (h : CInv n adj g) :
    CInv n adj (reverse_active_cliques g) := by
  have hct : g.cliques_ct ≤ g.cliques.length := by rw [h.clen]; exact h.ct_le
  obtain ⟨ca, cb, cc, _, cd⟩ := reverse_facts g hct
  refine ⟨h.size_eq, h.vert, by rw [ca]; exact h.clen, h.ct_le, ?_, ?_, ?_, ?_⟩
  · intro c hc
    exact h.wf c (cb.mem_iff.mp hc)
  · intro k hk hkn
    rw [cc k hk]
    exact h.tail_inactive k hk hkn
  · intro c hc hcact
    exact h.inactive_empty c (cb.mem_iff.mp hc) hcact
  · rw [coverSum_eq_coverL]
    show coverL g.cliques_ct (reverse_active_cliques g).cliques = _
    rw [cd, ← coverSum_eq_coverL]
    exact h.cons

theorem activate_spec {n : ℕ} {adj : ℕ → Finset ℕ} {g : Graph} (h : CInv n adj g) :
    CInv n adj (g.activate_inactive_clique).1 ∧
    ((g.size = g.cliques_ct ∧ (g.activate_inactive_clique).1 = g) ∨
     (g.cliques_ct < n ∧
      (g.activate_inactive_clique).1.cliques_ct = g.cliques_ct + 1 ∧
      (∀ k, k ≠ g.cliques_ct →
        (g.activate_inactive_clique).1.cliques.getD k dC = g.cliques.getD k dC) ∧
      ((g.activate_inactive_clique).1.cliques.getD g.cliques_ct dC).is_active = true ∧
      ((g.activate_inactive_clique).1.cliques.getD g.cliques_ct dC).members_ct = 0)) := by
  unfold Graph.activate_inactive_clique
  by_cases he : g.size = g.cliques_ct
  · rw [if_pos he]
    exact ⟨h, Or.inl ⟨he, rfl⟩⟩
  · rw [if_neg he]
    have hctn : g.cliques_ct < n := by
      have := h.ct_le
      have := h.size_eq
      omega
    have hctl : g.cliques_ct < g.cliques.length := by rw [h.clen]; exact hctn
    have hold : (g.cliques.getD g.cliques_ct dC).is_active = false :=
      h.tail_inactive g.cliques_ct (le_refl _) hctn
    have holdWF : CliqueWF n adj (g.cliques.getD g.cliques_ct dC) :=
      h.wf _ (getD_mem hctl)
    have hold0 : (g.cliques.getD g.cliques_ct dC).members_ct = 0 :=
      h.inactive_empty _ (getD_mem hctl) hold
    have holdnil : (g.cliques.getD g.cliques_ct dC).members = [] := by
      have := holdWF.ct_eq
      rw [hold0] at this
      exact List.length_eq_zero.mp this.symm
    have hgd : (g.cliques.set g.cliques_ct
        { g.cliques.getD g.cliques_ct dC with is_active := true }).getD g.cliques_ct dC =
        { g.cliques.getD g.cliques_ct dC with is_active := true } := getD_set_self hctl
    refine ⟨⟨h.size_eq, h.vert, by simpa using h.clen,
      by show g.cliques_ct + 1 ≤ n; omega, ?_, ?_, ?_, ?_⟩,
      Or.inr ⟨hctn, rfl, fun k hk => getD_set_ne (fun hc => hk hc.symm), ?_, ?_⟩⟩
    · intro c hc
      rcases List.mem_or_eq_of_mem_set hc with hc2 | hc2
      · exact h.wf c hc2
      · subst hc2
        obtain ⟨w1, w2, w3, w4, w5, w6, w7, w8⟩ := holdWF
        exact ⟨w1, w2, w3, w4, w5, w6, w7, w8⟩
    · intro k hk hkn
      have hk' : g.cliques_ct + 1 ≤ k := hk
      show ((g.cliques.set g.cliques_ct _).getD k dC).is_active = false
      rw [getD_set_ne (by omega)]
      exact h.tail_inactive k (by omega) hkn
    · intro c hc hcact
      rcases List.mem_or_eq_of_mem_set hc with hc2 | hc2
      · exact h.inactive_empty c hc2 hcact
      · subst hc2
        exact hold0
    · rw [coverSum_eq_coverL]
      show coverL (g.cliques_ct + 1) _ = _
      unfold coverL
      rw [Finset.sum_range_succ]
      have hsame : ∀ k ∈ Finset.range g.cliques_ct,
          (if (((g.cliques.set g.cliques_ct
              { g.cliques.getD g.cliques_ct dC with is_active := true }).getD k dC).is_active
              = true)
           then (((g.cliques.set g.cliques_ct
              { g.cliques.getD g.cliques_ct dC with is_active := true }).getD k dC).members :
              Multiset ℕ)
           else 0) =
          (if ((g.cliques.getD k dC).is_active = true)
           then ((g.cliques.getD k dC).members : Multiset ℕ) else 0) := by
        intro k hk
        rw [Finset.mem_range] at hk
        rw [getD_set_ne (by omega)]
      rw [Finset.sum_congr rfl hsame, hgd]
      have hnil2 : ({ g.cliques.getD g.cliques_ct dC with is_active := true }).members = [] :=
        holdnil
      rw [if_pos rfl, hnil2, Multiset.coe_nil, add_zero]
      have hc2 := h.cons
      rw [coverSum_eq_coverL] at hc2
      unfold coverL at hc2
      exact hc2
    · rw [hgd]
    · rw [hgd]
      exact hold0

theorem fresh_CInv {n : ℕ} {adj : ℕ → Finset ℕ} (ha : AdjWF n adj) (hn : 1 ≤ n)
    (E : ℕ → ℕ → Bool) (r : ℕ → ℕ)
    (hv : (get_random_graph n E r).vertices = (List.range n).map (canonicalVertex n adj)) :
    CInv n adj (get_random_graph n E r) := by
  have hc : CInv n adj (conform_cliques_to_vertices
      { Graph.new n with
        vertices := set_vertex_has_neighbors n (add_edges_cond E n (Graph.new n).vertices) }) :=
    conform_CInv ha hn rfl hv (by simp [Graph.new])
  exact shuffle_CInv hc r

theorem freshK_CInv {n : ℕ} {adj : ℕ → Finset ℕ} (ha : AdjWF n adj) (hn : 1 ≤ n)
    (k : ℕ) (E : ℕ → ℕ → Bool) (r : ℕ → ℕ)
    (hv : (get_random_graph_with_k_cliques n k E r).vertices =
      (List.range n).map (canonicalVertex n adj)) :
    CInv n adj (get_random_graph_with_k_cliques n k E r) := by
  by_cases hk : k = 0
  · have hv' : (get_random_graph n E r).vertices =
        (List.range n).map (canonicalVertex n adj) := by
      have h2 := hv
      unfold get_random_graph_with_k_cliques at h2
      rw [if_pos hk] at h2
      exact h2
    have hg := fresh_CInv ha hn E r hv'
    unfold get_random_graph_with_k_cliques
    rw [if_pos hk]
    exact hg
  · have h2 := hv
    unfold get_random_graph_with_k_cliques at h2
    rw [if_neg hk] at h2
    unfold get_random_graph_with_k_cliques
    rw [if_neg hk]
    exact conform_CInv ha hn rfl h2 (by simp [Graph.new])

/-! ## The merge phase preserves the invariant -/

theorem CInv.toLInv {n : ℕ} {adj : ℕ → Finset ℕ} {g : Graph} (h : CInv n adj g) :
    LInv n adj g.cliques_ct g.cliques :=
  ⟨h.clen, h.ct_le, h.wf, h.tail_inactive, h.inactive_empty,
    by rw [← coverSum_eq_coverL]; exact h.cons⟩

theorem bool_eq_true_of_ne_false {b : Bool} (h : ¬ b = false) : b = true := by
  cases b
  · exact absurd rfl h
  · rfl

theorem greedyInner_LInv {n : ℕ} {adj : ℕ → Finset ℕ} (ha : AdjWF n adj) (hn : 1 ≤ n)
    {vs : List Clique} (hvs : vs = (List.range n).map (canonicalVertex n adj)) (ct i : ℕ) :
    ∀ (fuel j : ℕ) (st : List Clique × Finset ℕ),
      i < j → i < ct → LInv n adj ct st.1 → (st.1.getD i dC).is_active = true →
      (LInv n adj ct (greedyInner vs ct i fuel j st).1 ∧
       ((greedyInner vs ct i fuel j st).1.getD i dC).is_active = true ∧
       (st.1.getD i dC).members_ct ≤
         ((greedyInner vs ct i fuel j st).1.getD i dC).members_ct ∧
       ((∀ k, k < ct → k ≠ i → (st.1.getD k dC).is_active = true →
          1 ≤ (st.1.getD k dC).members_ct) →
        ∀ k, k < ct → k ≠ i →
          ((greedyInner vs ct i fuel j st).1.getD k dC).is_active = true →
          1 ≤ ((greedyInner vs ct i fuel j st).1.getD k dC).members_ct)) := by
  intro fuel
  induction fuel with
  | zero =>
    intro j st _ _ h hact
    exact ⟨h, hact, le_refl _, fun hN => hN⟩
  | succ fuel ihf =>
    intro j st hij hict h hact
    rw [greedyInner]
    by_cases hj : j < ct
    · rw [if_pos hj]
      by_cases hactj : (st.1.getD j dC).is_active = false
      · rw [if_pos hactj]
        exact ihf (j + 1) st (by omega) hict h hact
      · rw [if_neg hactj]
        obtain ⟨l', act', mono', frame', n1'⟩ :=
          step_compat_LInv ha hn hvs h (show i ≠ j by omega) hict hj hact st.2
        obtain ⟨f1, f2, f3, f4⟩ := ihf (j + 1)
          ((st.1.set i (transfer_compatible_vertices vs (st.1.getD i dC)
              (st.1.getD j dC) st.2).1).set j
            (transfer_compatible_vertices vs (st.1.getD i dC)
              (st.1.getD j dC) st.2).2.1,
           (transfer_compatible_vertices vs (st.1.getD i dC)
              (st.1.getD j dC) st.2).2.2)
          (by omega) hict l' act'
        exact ⟨f1, f2, le_trans mono' f3, fun hN => f4 (n1' hN)⟩
    · rw [if_neg hj]
      exact ⟨h, hact, le_refl _, fun hN => hN⟩

theorem greedyOuter_LInv {n : ℕ} {adj : ℕ → Finset ℕ} (ha : AdjWF n adj) (hn : 1 ≤ n)
    {vs : List Clique} (hvs : vs = (List.range n).map (canonicalVertex n adj)) (ct : ℕ) :
    ∀ (fuel i : ℕ) (st : List Clique × Finset ℕ),
      LInv n adj ct st.1 →
      (LInv n adj ct (greedyOuter vs ct fuel i st).1 ∧
       ((∀ k, k < ct → (st.1.getD k dC).is_active = true →
          1 ≤ (st.1.getD k dC).members_ct) →
        ∀ k, k < ct → ((greedyOuter vs ct fuel i st).1.getD k dC).is_active = true →
          1 ≤ ((greedyOuter vs ct fuel i st).1.getD k dC).members_ct)) := by
  intro fuel
  induction fuel with
  | zero =>
    intro i st h
    exact ⟨h, fun hP => hP⟩
  | succ fuel ihf =>
    intro i st h
    rw [greedyOuter]
    by_cases hi : i < ct - 1
    · rw [if_pos hi]
      by_cases hacti : (st.1.getD i dC).is_active = false
      · rw [if_pos hacti]
        exact ihf (i + 1) st h
      · rw [if_neg hacti]
        have hact : (st.1.getD i dC).is_active = true := bool_eq_true_of_ne_false hacti
        obtain ⟨l', act', mono', n1'⟩ := greedyInner_LInv ha hn hvs ct i (ct - (i + 1))
          (i + 1) st (by omega) (by omega) h hact
        obtain ⟨f1, f2⟩ := ihf (i + 1) (greedyInner vs ct i (ct - (i + 1)) (i + 1) st) l'
        refine ⟨f1, ?_⟩
        intro hP
        refine f2 ?_
        intro k hk hkact
        by_cases hki : k = i
        · subst hki
          exact le_trans (hP k hk hact) mono'
        · exact n1' (fun k2 hk2 hk2i hk2act => hP k2 hk2 hk2act) k hk hki hkact
    · rw [if_neg hi]
      exact ⟨h, fun hP => hP⟩

theorem greedy_CInv {n : ℕ} {adj : ℕ → Finset ℕ} (ha : AdjWF n adj) (hn : 1 ≤ n)
    {g : Graph} (h : CInv n adj g) : CInv n adj (vcc_greedy g) := by
  have hctpos : 1 ≤ g.cliques_ct := CInv.ct_pos hn h
  obtain ⟨ml, _⟩ := greedyOuter_LInv ha hn h.vert g.cliques_ct (g.cliques_ct - 1) 0
    (g.cliques, g.utility_bv) h.toLInv
  set M := (greedyOuter g.vertices g.cliques_ct (g.cliques_ct - 1) 0
    (g.cliques, g.utility_bv)).1 with hM
  have hMlen : M.length = n := ml.clen
  have hMtail : ∀ k, g.cliques_ct ≤ k → k < M.length → (M.getD k dC).is_active = false := by
    intro k hk hkl
    exact ml.tail_inactive k hk (by rw [← hMlen]; exact hkl)
  obtain ⟨ca, cb, cc, cd, ce, _⟩ := compactLoop_spec (g.cliques_ct - 1) M 1 g.cliques_ct
    (by omega) (by rw [hMlen]; exact ml.ct_le) hMtail
  set C := (compactLoop (g.cliques_ct - 1) M 1 g.cliques_ct).1 with hC
  set ct' := (compactLoop (g.cliques_ct - 1) M 1 g.cliques_ct).2 with hct'
  have hClen : C.length = n := by rw [ca]; exact hMlen
  have hctle : g.cliques_ct ≤ n := ml.ct_le
  have hcons : coverL ct' C = ((List.range n : List ℕ) : Multiset ℕ) := by
    have e1 : coverL C.length C = coverL ct' C :=
      coverL_extend (by show ct' ≤ C.length; rw [hClen]; omega)
        (fun k hk hkl => ce k hk (by rw [← ca]; exact hkl))
    have e2 : coverL C.length C = coverL M.length M := coverL_full_perm cb
    have e3 : coverL M.length M = coverL g.cliques_ct M :=
      coverL_extend (by show g.cliques_ct ≤ M.length; rw [hMlen]; exact hctle) hMtail
    rw [← e1, e2, e3]
    exact ml.cons
  exact ⟨h.size_eq, h.vert, hClen, le_trans cd hctle, 
    fun c hc => ml.wf c (cb.mem_iff.mp hc),
    fun k hk hkn => ce k hk (by rw [hMlen]; exact hkn),
    fun c hc hcact => ml.inactive_empty c (cb.mem_iff.mp hc) hcact,
    by rw [coverSum_eq_coverL]; exact hcons⟩

/-! ## Graph-level transfer steps and the reachability inductions -/

theorem CInv_graph_compat {n : ℕ} {adj : ℕ → Finset ℕ} (ha : AdjWF n adj) (hn : 1 ≤ n)
    {g : Graph} (h : CInv n adj g) {i j : ℕ} (hij : i ≠ j) (hi : i < g.cliques_ct)
    (hj : j < g.cliques_ct) (hact : (g.cliques.getD i dC).is_active = true) :
    CInv n adj (graph_transfer_compat g i j) := by
  obtain ⟨l', _, _, _, _⟩ := step_compat_LInv ha hn h.vert h.toLInv hij hi hj hact g.utility_bv
  exact ⟨h.size_eq, h.vert, l'.clen, l'.ct_le, l'.wf, l'.tail_inactive, l'.inactive_empty,
    by rw [coverSum_eq_coverL]; exact l'.cons⟩

theorem CInv_graph_single {n : ℕ} {adj : ℕ → Finset ℕ} (ha : AdjWF n adj) (hn : 1 ≤ n)
    {g : Graph} (h : CInv n adj g) {i j : ℕ} (hij : i ≠ j) (hi : i < g.cliques_ct)
    (hj : j < g.cliques_ct) (hact : (g.cliques.getD i dC).is_active = true) (v : ℕ) :
    CInv n adj (graph_transfer_single g i j v) := by
  obtain ⟨l', _, _, _, _⟩ :=
    step_single_LInv ha hn h.vert h.toLInv hij hi hj hact g.utility_bv v
  exact ⟨h.size_eq, h.vert, l'.clen, l'.ct_le, l'.wf, l'.tail_inactive, l'.inactive_empty,
    by rw [coverSum_eq_coverL]; exact l'.cons⟩

theorem creach_CInv {n : ℕ} {adj : ℕ → Finset ℕ} (ha : AdjWF n adj) (hn : 1 ≤ n)
    {g : Graph} (h : CReach n adj g) : CInv n adj g := by
  induction h with
  | fresh E r hv => exact fresh_CInv ha hn E r hv
  | freshK k E r hv => exact freshK_CInv ha hn k E r hv
  | conform g hg ih => exact conform_CInv ha hn ih.size_eq ih.vert ih.clen
  | shuffle g r hg ih => exact shuffle_CInv ih r
  | reverse g hg ih => exact reverse_CInv ih
  | greedy g hg ih => exact greedy_CInv ha hn ih
  | activate g hg ih => exact (activate_spec ih).1
  | compat g i j hij hi hj hact hg ih => exact CInv_graph_compat ha hn ih hij hi hj hact
  | single g i j v hij hi hj hact hg ih => exact CInv_graph_single ha hn ih hij hi hj hact v

theorem CInv.toWfInv {n : ℕ} {adj : ℕ → Finset ℕ} {g : Graph} (h : CInv n adj g) :
    WfInv n adj g := ⟨h.vert, h.clen, h.wf⟩

theorem WfInv_graph_compat {n : ℕ} {adj : ℕ → Finset ℕ} (ha : AdjWF n adj) (hn : 1 ≤ n)
    {g : Graph} (h : WfInv n adj g) {i j : ℕ} (hij : i ≠ j) (hi : i < g.cliques.length)
    (hj : j < g.cliques.length) : WfInv n adj (graph_transfer_compat g i j) := by
  have hciWF := h.wf _ (getD_mem hi)
  have hcfWF := h.wf _ (getD_mem hj)
  refine ⟨h.vert, ?_, ?_⟩
  · show ((g.cliques.set i _).set j _).length = n
    simp [h.clen]
  · intro c hc
    have hc' : c ∈ (g.cliques.set i
        (transfer_compatible_vertices g.vertices (g.cliques.getD i dC) (g.cliques.getD j dC)
          g.utility_bv).1).set j
        (transfer_compatible_vertices g.vertices (g.cliques.getD i dC) (g.cliques.getD j dC)
          g.utility_bv).2.1 := hc
    rcases compat_pair_spec ha hn h.vert hciWF hcfWF g.utility_bv with ⟨e1, e2⟩ |
      ⟨w1, w2, _⟩
    · rw [e1, set_getD_eq_self hi, e2, set_getD_eq_self hj] at hc'
      exact h.wf c hc'
    · rcases List.mem_or_eq_of_mem_set hc' with hc2 | hc2
      · rcases List.mem_or_eq_of_mem_set hc2 with hc3 | hc3
        · exact h.wf c hc3
        · exact hc3 ▸ w1
      · exact hc2 ▸ w2

theorem WfInv_graph_single {n : ℕ} {adj : ℕ → Finset ℕ} (ha : AdjWF n adj) (hn : 1 ≤ n)
    {g : Graph} (h : WfInv n adj g) {i j : ℕ} (hij : i ≠ j) (hi : i < g.cliques.length)
    (hj : j < g.cliques.length) (v : ℕ) : WfInv n adj (graph_transfer_single g i j v) := by
  have hciWF := h.wf _ (getD_mem hi)
  have hcfWF := h.wf _ (getD_mem hj)
  refine ⟨h.vert, ?_, ?_⟩
  · show ((g.cliques.set i _).set j _).length = n
    simp [h.clen]
  · intro c hc
    have hc' : c ∈ (g.cliques.set i
        (transfer_vertex_into_clique g.vertices (g.cliques.getD i dC) (g.cliques.getD j dC)
          g.utility_bv v).1).set j
        (transfer_vertex_into_clique g.vertices (g.cliques.getD i dC) (g.cliques.getD j dC)
          g.utility_bv v).2.1 := hc
    rcases single_pair_spec ha hn h.vert hciWF hcfWF g.utility_bv v with ⟨e1, e2⟩ |
      ⟨w1, w2, _⟩
    · rw [e1, set_getD_eq_self hi, e2, set_getD_eq_self hj] at hc'
      exact h.wf c hc'
    · rcases List.mem_or_eq_of_mem_set hc' with hc2 | hc2
      · rcases List.mem_or_eq_of_mem_set hc2 with hc3 | hc3
        · exact h.wf c hc3
        · exact hc3 ▸ w1
      · exact hc2 ▸ w2

theorem treach_WfInv {n : ℕ} {adj : ℕ → Finset ℕ} (ha : AdjWF n adj) (hn : 1 ≤ n)
    {g : Graph} (h : TReach n adj g) : WfInv n adj g := by
  induction h with
  | fresh E r hv => exact (fresh_CInv ha hn E r hv).toWfInv
  | freshK k E r hv => exact (freshK_CInv ha hn k E r hv).toWfInv
  | compat g i j hij hi hj hg ih => exact WfInv_graph_compat ha hn ih hij hi hj
  | single g i j v hij hi hj hg ih => exact WfInv_graph_single ha hn ih hij hi hj v

theorem adjPair_wf : AdjWF 2 adjPair := by
  refine ⟨?_, ?_, ?_⟩
  · intro i
    exact Finset.filter_subset _ _
  · intro i hi
    simp only [adjPair, Finset.mem_filter] at hi
    obtain ⟨-, h2⟩ := hi
    rcases h2 with ⟨a, b⟩ | ⟨a, b⟩ <;> omega
  · intro i j hij
    simp only [adjPair, Finset.mem_filter, Finset.mem_range] at hij ⊢
    obtain ⟨-, h2⟩ := hij
    rcases h2 with ⟨a, b⟩ | ⟨a, b⟩
    · exact ⟨by omega, Or.inr ⟨by omega, by omega⟩⟩
    · exact ⟨by omega, Or.inl ⟨by omega, by omega⟩⟩

/-- Claim C2: after any sequence of compatible-set and single-vertex transfers
from a freshly constructed graph, every active clique's `neighbors_bv` equals
the brute-force frontier (non-members adjacent to every member) and its member
list is pairwise adjacent.  (Both facts hold for inactive cliques as well.) -/
theorem claim_C2 {n : ℕ} {adj : ℕ → Finset ℕ} (ha : AdjWF n adj) (hn : 1 ≤ n)
    {g : Graph} (h : TReach n adj g) :
    ∀ c ∈ g.cliques, c.is_active = true →
      (c.neighbors_bv = frontierSpec n adj c.members_bv ∧
       ∀ a ∈ c.members, ∀ b ∈ c.members, a ≠ b → b ∈ adj a) := by
  intro c hc _
  have hwf := (treach_WfInv ha hn h).wf c hc
  refine ⟨hwf.frontier, ?_⟩
  intro a hai b hbi hab
  exact hwf.pairwise a (by rw [← hwf.bv_eq]; exact List.mem_toFinset.mpr hai) b
    (by rw [← hwf.bv_eq]; exact List.mem_toFinset.mpr hbi) hab

/-- Witness for claim C2: slot 0 of the freshly constructed two-vertex
instance. -/
theorem claim_C2_witness :
    (gPair.cliques.getD 0 dC).neighbors_bv =
      frontierSpec 2 adjPair (gPair.cliques.getD 0 dC).members_bv ∧
    ∀ a ∈ (gPair.cliques.getD 0 dC).members, ∀ b ∈ (gPair.cliques.getD 0 dC).members,
      a ≠ b → b ∈ adjPair a :=
  claim_C2 adjPair_wf (by decide)
    (TReach.fresh (fun i j => i == 0 && j == 1) (fun _ => 0) (by decide))
    (gPair.cliques.getD 0 dC) (getD_mem (by decide)) (by decide)

/-- Claim C3: in every state reachable by the program's primitive mutations
(construction, conforming, shuffles, reversals, greedy sweeps including
compaction, activations, and both transfer operations), the multiset union of
the active cliques' members over the working prefix `[0, cliques_ct)` is
exactly the vertex set `[0, n)`, each vertex once. -/
theorem claim_C3 {n : ℕ} {adj : ℕ → Finset ℕ} (ha : AdjWF n adj) (hn : 1 ≤ n)
    {g : Graph} (h : CReach n adj g) :
    coverSum g = ((List.range n : List ℕ) : Multiset ℕ) :=
  (creach_CInv ha hn h).cons

/-- Witness for claim C3 at the freshly constructed two-vertex instance. -/
theorem claim_C3_witness : coverSum gPair = ((List.range 2 : List ℕ) : Multiset ℕ) :=
  claim_C3 adjPair_wf (by decide)
    (CReach.fresh (fun i j => i == 0 && j == 1) (fun _ => 0) (by decide))

/-- Claim C5: in every reachable state, each clique's cached `has_neighbors`
flag is true exactly when its `neighbors_bv` is non-empty. -/
theorem claim_C5 {n : ℕ} {adj : ℕ → Finset ℕ} (ha : AdjWF n adj) (hn : 1 ≤ n)
    {g : Graph} (h : CReach n adj g) :
    ∀ c ∈ g.cliques, (c.has_neighbors = true ↔ c.neighbors_bv ≠ ∅) :=
  fun c hc => ((creach_CInv ha hn h).wf c hc).flag

/-- Witness for claim C5: slot 0 of the freshly constructed two-vertex
instance. -/
theorem claim_C5_witness :
    (gPair.cliques.getD 0 dC).has_neighbors = true ↔
      (gPair.cliques.getD 0 dC).neighbors_bv ≠ ∅ :=
  claim_C5 adjPair_wf (by decide)
    (CReach.fresh (fun i j => i == 0 && j == 1) (fun _ => 0) (by decide))
    (gPair.cliques.getD 0 dC) (getD_mem (by decide))

/-! ## The sweep after a forced split reestablishes the strong invariant -/

theorem greedyInner_absorb {n : ℕ} {adj : ℕ → Finset ℕ} (ha : AdjWF n adj) (hn : 1 ≤ n)
    {vs : List Clique} (hvs : vs = (List.range n).map (canonicalVertex n adj)) (ct : ℕ) :
    ∀ (fuel j : ℕ) (st : List Clique × Finset ℕ),
      1 ≤ j → LInv n adj ct st.1 →
      (st.1.getD 0 dC).is_active = true →
      (∀ k, k < ct → k ≠ 0 → (st.1.getD k dC).is_active = true →
        1 ≤ (st.1.getD k dC).members_ct) →
      Finset.range n ⊆ (st.1.getD 0 dC).neighbors_bv →
      ¬ (st.1.getD 0 dC).has_neighbors = false →
      (1 ≤ ((greedyInner vs ct 0 fuel j st).1.getD 0 dC).members_ct ∨
       (greedyInner vs ct 0 fuel j st = st ∧
        ∀ k, j ≤ k → k < j + fuel → k < ct → (st.1.getD k dC).is_active = false)) := by
  intro fuel
  induction fuel with
  | zero =>
    intro j st hj h hact hN hsub hb
    right
    exact ⟨rfl, fun k hk hkf hkc => absurd hkf (by omega)⟩
  | succ fuel ihf =>
    intro j st hj h hact hN hsub hb
    rw [greedyInner]
    by_cases hjct : j < ct
    · rw [if_pos hjct]
      by_cases hactj : (st.1.getD j dC).is_active = false
      · rw [if_pos hactj]
        rcases ihf (j + 1) st (by omega) h hact hN hsub hb with hl | ⟨he, hr⟩
        · exact Or.inl hl
        · right
          refine ⟨he, ?_⟩
          intro k hk hkf hkc
          by_cases hkj : k = j
          · rw [hkj]
            exact hactj
          · exact hr k (by omega) (by omega) hkc
      · rw [if_neg hactj]
        have hactj' : (st.1.getD j dC).is_active = true := bool_eq_true_of_ne_false hactj
        have hjpos : 1 ≤ (st.1.getD j dC).members_ct := hN j hjct (by omega) hactj'
        have hjl : j < st.1.length := by rw [h.clen]; exact lt_of_lt_of_le hjct h.ct_le
        have hjWF := h.wf _ (getD_mem hjl)
        have hbvne : (st.1.getD j dC).members_bv ≠ ∅ := by
          intro hc
          have hmlen : 0 < (st.1.getD j dC).members.length := by
            rw [← hjWF.ct_eq]
            exact hjpos
          obtain ⟨x, hx⟩ := List.exists_mem_of_length_pos hmlen
          have hx2 : x ∈ (st.1.getD j dC).members_bv := by
            rw [← hjWF.bv_eq]
            exact List.mem_toFinset.mpr hx
          rw [hc] at hx2
          exact absurd hx2 (Finset.not_mem_empty x)
        have hu : ¬ (∅ ∪ (st.1.getD 0 dC).neighbors_bv) ∩ (st.1.getD j dC).members_bv = ∅ := by
          intro hc
          obtain ⟨x, hx⟩ := Finset.nonempty_iff_ne_empty.mpr hbvne
          have hx0 : x ∈ (st.1.getD 0 dC).neighbors_bv := hsub (hjWF.bounded hx)
          have hx3 : x ∈ (∅ ∪ (st.1.getD 0 dC).neighbors_bv) ∩
              (st.1.getD j dC).members_bv := by
            rw [Finset.mem_inter, Finset.mem_union]
            exact ⟨Or.inr hx0, hx⟩
          rw [hc] at hx3
          exact absurd hx3 (Finset.not_mem_empty x)
        have h0l : 0 < st.1.length := by rw [h.clen]; omega
        have h0WF := h.wf _ (getD_mem h0l)
        have habs : 1 ≤ (transfer_compatible_vertices vs (st.1.getD 0 dC)
            (st.1.getD j dC) st.2).1.members_ct :=
          compat_absorb ha hn hvs h0WF hjWF st.2 hb hu
        obtain ⟨l', act', mono', frame', n1'⟩ :=
          step_compat_LInv ha hn hvs h (show (0:ℕ) ≠ j by omega) (by omega) hjct hact st.2
        have hg0 : ((st.1.set 0 (transfer_compatible_vertices vs (st.1.getD 0 dC)
            (st.1.getD j dC) st.2).1).set j (transfer_compatible_vertices vs
            (st.1.getD 0 dC) (st.1.getD j dC) st.2).2.1).getD 0 dC =
            (transfer_compatible_vertices vs (st.1.getD 0 dC)
              (st.1.getD j dC) st.2).1 := by
          rw [getD_set_ne (by omega), getD_set_self h0l]
        obtain ⟨f1, f2, f3, f4⟩ := greedyInner_LInv ha hn hvs ct 0 fuel (j + 1)
          ((st.1.set 0 (transfer_compatible_vertices vs (st.1.getD 0 dC)
              (st.1.getD j dC) st.2).1).set j (transfer_compatible_vertices vs
              (st.1.getD 0 dC) (st.1.getD j dC) st.2).2.1,
           (transfer_compatible_vertices vs (st.1.getD 0 dC)
              (st.1.getD j dC) st.2).2.2)
          (by omega) (by omega) l' act'
        left
        refine le_trans ?_ f3
        show 1 ≤ (((st.1.set 0 _).set j _).getD 0 dC).members_ct
        rw [hg0]
        exact habs
    · rw [if_neg hjct]
      right
      exact ⟨rfl, fun k hk hkf hkc => absurd hkc (by omega)⟩

theorem sweep_StrongInv {n : ℕ} {adj : ℕ → Finset ℕ} (ha : AdjWF n adj) (hn : 1 ≤ n)
    {g : Graph} (h : SweepPre n adj g)
    (hside : 1 ≤ (g.cliques.getD 0 dC).members_ct ∨ 2 ≤ g.cliques_ct) :
    StrongInv n adj (vcc_greedy g) := by
  have hl : LInv n adj g.cliques_ct g.cliques := h.ci.toLInv
  have hctpos : 1 ≤ g.cliques_ct := h.ctpos
  have hM : LInv n adj g.cliques_ct
        (greedyOuter g.vertices g.cliques_ct (g.cliques_ct - 1) 0
          (g.cliques, g.utility_bv)).1 ∧
      ((greedyOuter g.vertices g.cliques_ct (g.cliques_ct - 1) 0
          (g.cliques, g.utility_bv)).1.getD 0 dC).is_active = true ∧
      (∀ k, k < g.cliques_ct →
        ((greedyOuter g.vertices g.cliques_ct (g.cliques_ct - 1) 0
          (g.cliques, g.utility_bv)).1.getD k dC).is_active = true →
        1 ≤ ((greedyOuter g.vertices g.cliques_ct (g.cliques_ct - 1) 0
          (g.cliques, g.utility_bv)).1.getD k dC).members_ct) := by
    have hraw := (greedyOuter_raw g.vertices g.cliques_ct (g.cliques_ct - 1) 0
      (g.cliques, g.utility_bv) (by rw [hl.clen]; exact hl.ct_le)).2.2
    rcases hside with h0ne | hct2
    · obtain ⟨ml, mp⟩ := greedyOuter_LInv ha hn h.ci.vert g.cliques_ct (g.cliques_ct - 1) 0
        (g.cliques, g.utility_bv) hl
      refine ⟨ml, by rw [hraw]; exact h.slot0, ?_⟩
      refine mp ?_
      intro k hk hkact
      by_cases hk0 : k = 0
      · rw [hk0]
        exact h0ne
      · exact h.mid_nonempty k (by omega) hk (by exact hkact)
    · by_cases h0ne : 1 ≤ (g.cliques.getD 0 dC).members_ct
      · obtain ⟨ml, mp⟩ := greedyOuter_LInv ha hn h.ci.vert g.cliques_ct (g.cliques_ct - 1) 0
          (g.cliques, g.utility_bv) hl
        refine ⟨ml, by rw [hraw]; exact h.slot0, ?_⟩
        refine mp ?_
        intro k hk hkact
        by_cases hk0 : k = 0
        · rw [hk0]
          exact h0ne
        · exact h.mid_nonempty k (by omega) hk (by exact hkact)
      · -- slot 0 is the freshly activated empty clique; it absorbs during round 0
        have h0z : (g.cliques.getD 0 dC).members_ct = 0 := by omega
        have h0l : 0 < g.cliques.length := by rw [hl.clen]; omega
        have h0WF := hl.wf _ (getD_mem h0l)
        have h0nil : (g.cliques.getD 0 dC).members = [] := h0WF.members_nil h0z
        have h0bv : (g.cliques.getD 0 dC).members_bv = ∅ := by
          rw [← h0WF.bv_eq, h0nil]
          rfl
        have h0nb : (g.cliques.getD 0 dC).neighbors_bv = Finset.range n := by
          rw [h0WF.frontier, h0bv, frontierSpec_empty]
        have h0sub : Finset.range n ⊆ ((g.cliques, g.utility_bv).1.getD 0 dC).neighbors_bv := by
          rw [h0nb]
        have h0hb : ¬ ((g.cliques, g.utility_bv).1.getD 0 dC).has_neighbors = false := by
          intro hc
          have := h0WF.flag
          rw [h0nb] at this
          have h2 : (g.cliques.getD 0 dC).has_neighbors = true := by
            rw [this]
            intro hce
            have : n = 0 := by simpa using congrArg Finset.card hce
            omega
          rw [h2] at hc
          exact absurd hc (by simp)
        have hmid : ∀ k, k < g.cliques_ct → k ≠ 0 →
            ((g.cliques, g.utility_bv).1.getD k dC).is_active = true →
            1 ≤ ((g.cliques, g.utility_bv).1.getD k dC).members_ct := by
          intro k hk hk0 hkact
          exact h.mid_nonempty k (by omega) hk hkact
        have hfs : g.cliques_ct - 1 = (g.cliques_ct - 2) + 1 := by omega
        have hstep : greedyOuter g.vertices g.cliques_ct (g.cliques_ct - 1) 0
            (g.cliques, g.utility_bv) =
            greedyOuter g.vertices g.cliques_ct (g.cliques_ct - 2) (0 + 1)
              (greedyInner g.vertices g.cliques_ct 0 (g.cliques_ct - (0 + 1)) (0 + 1)
                (g.cliques, g.utility_bv)) := by
          conv_lhs => rw [hfs]
          rw [greedyOuter]
          rw [if_pos (by omega : 0 < g.cliques_ct - 1)]
          rw [if_neg (by rw [h.slot0]; simp :
            ¬ ((g.cliques, g.utility_bv).1.getD 0 dC).is_active = false)]
        have habs := greedyInner_absorb ha hn h.ci.vert g.cliques_ct
          (g.cliques_ct - (0 + 1)) (0 + 1) (g.cliques, g.utility_bv) (by omega) hl h.slot0
          hmid h0sub h0hb
        obtain ⟨l1, act1, mono1, n1c⟩ := greedyInner_LInv ha hn h.ci.vert g.cliques_ct 0
          (g.cliques_ct - (0 + 1)) (0 + 1) (g.cliques, g.utility_bv) (by omega) (by omega)
          hl h.slot0
        have h0abs : 1 ≤ ((greedyInner g.vertices g.cliques_ct 0 (g.cliques_ct - (0 + 1))
            (0 + 1) (g.cliques, g.utility_bv)).1.getD 0 dC).members_ct := by
          rcases habs with habs | ⟨he, hr⟩
          · exact habs
          · exfalso
            have hcov : coverL g.cliques_ct g.cliques = 0 := by
              unfold coverL
              refine Finset.sum_eq_zero ?_
              intro k hk
              rw [Finset.mem_range] at hk
              by_cases hk0 : k = 0
              · subst hk0
                rw [if_pos h.slot0, h0nil]
                rfl
              · rw [if_neg (by rw [hr k (by omega) (by omega) hk]; simp)]
            have hc2 := hl.cons
            rw [hcov] at hc2
            have hr2 : List.range n = [] := by
              have h3 := hc2.symm
              rwa [Multiset.coe_eq_zero] at h3
            have : n = 0 := by simpa using congrArg List.length hr2
            omega
        have hP1 : ∀ k, k < g.cliques_ct →
            ((greedyInner g.vertices g.cliques_ct 0 (g.cliques_ct - (0 + 1)) (0 + 1)
              (g.cliques, g.utility_bv)).1.getD k dC).is_active = true →
            1 ≤ ((greedyInner g.vertices g.cliques_ct 0 (g.cliques_ct - (0 + 1)) (0 + 1)
              (g.cliques, g.utility_bv)).1.getD k dC).members_ct := by
          intro k hk hkact
          by_cases hk0 : k = 0
          · subst hk0
            exact h0abs
          · exact n1c hmid k hk hk0 hkact
        obtain ⟨ml, mp⟩ := greedyOuter_LInv ha hn h.ci.vert g.cliques_ct
          (g.cliques_ct - 2) (0 + 1)
          (greedyInner g.vertices g.cliques_ct 0 (g.cliques_ct - (0 + 1)) (0 + 1)
            (g.cliques, g.utility_bv)) l1
        have hrest := (greedyOuter_raw g.vertices g.cliques_ct (g.cliques_ct - 2) (0 + 1)
          (greedyInner g.vertices g.cliques_ct 0 (g.cliques_ct - (0 + 1)) (0 + 1)
            (g.cliques, g.utility_bv))
          (by rw [l1.clen]; exact l1.ct_le)).2.2
        rw [hstep]
        exact ⟨ml, by rw [hrest]; exact act1, mp hP1⟩
  obtain ⟨ml, m0, mP⟩ := hM
  set M := (greedyOuter g.vertices g.cliques_ct (g.cliques_ct - 1) 0
    (g.cliques, g.utility_bv)).1 with hMdef
  have hMlen : M.length = n := ml.clen
  have hMtail : ∀ k, g.cliques_ct ≤ k → k < M.length → (M.getD k dC).is_active = false := by
    intro k hk hkl
    exact ml.tail_inactive k hk (by rw [← hMlen]; exact hkl)
  obtain ⟨ca, cb, cc, cd, ce, cf⟩ := compactLoop_spec (g.cliques_ct - 1) M 1 g.cliques_ct
    (by omega) (by rw [hMlen]; exact ml.ct_le) hMtail
  have hctle : g.cliques_ct ≤ n := ml.ct_le
  have hClen : (compactLoop (g.cliques_ct - 1) M 1 g.cliques_ct).1.length = n := by
    rw [ca]
    exact hMlen
  have hpre : ∀ k, k < 1 → (M.getD k dC).is_active = true := by
    intro k hk
    have hk0 : k = 0 := by omega
    rw [hk0]
    exact m0
  have hcons : coverL (compactLoop (g.cliques_ct - 1) M 1 g.cliques_ct).2
      (compactLoop (g.cliques_ct - 1) M 1 g.cliques_ct).1 =
      ((List.range n : List ℕ) : Multiset ℕ) := by
    have e1 : coverL (compactLoop (g.cliques_ct - 1) M 1 g.cliques_ct).1.length
        (compactLoop (g.cliques_ct - 1) M 1 g.cliques_ct).1 =
        coverL (compactLoop (g.cliques_ct - 1) M 1 g.cliques_ct).2
          (compactLoop (g.cliques_ct - 1) M 1 g.cliques_ct).1 :=
      coverL_extend (by rw [hClen]; omega)
        (fun k hk hkl => ce k hk (by rw [← ca]; exact hkl))
    have e2 : coverL (compactLoop (g.cliques_ct - 1) M 1 g.cliques_ct).1.length
        (compactLoop (g.cliques_ct - 1) M 1 g.cliques_ct).1 = coverL M.length M :=
      coverL_full_perm cb
    have e3 : coverL M.length M = coverL g.cliques_ct M :=
      coverL_extend (by show g.cliques_ct ≤ M.length; rw [hMlen]; exact hctle) hMtail
    rw [← e1, e2, e3]
    exact ml.cons
  refine ⟨⟨h.ci.size_eq, h.ci.vert, hClen, le_trans cd hctle,
    fun c hc => ml.wf c (cb.mem_iff.mp hc),
    fun k hk hkn => ce k hk (by rw [hMlen]; exact hkn),
    fun c hc hcact => ml.inactive_empty c (cb.mem_iff.mp hc) hcact,
    by rw [coverSum_eq_coverL]; exact hcons⟩, cc hctpos, cf hpre, ?_⟩
  intro k hk
  have hk2' : k < (compactLoop (g.cliques_ct - 1) M 1 g.cliques_ct).2 := hk
  have hkC : k < (compactLoop (g.cliques_ct - 1) M 1 g.cliques_ct).1.length := by
    have := cd
    omega
  have hmem : (compactLoop (g.cliques_ct - 1) M 1 g.cliques_ct).1.getD k dC ∈ M :=
    cb.mem_iff.mp (getD_mem hkC)
  obtain ⟨k2, hk2, he2⟩ := mem_iff_getD hmem
  have hact2 : (M.getD k2 dC).is_active = true := by
    rw [he2]
    exact cf hpre k hk2'
  by_cases hk2ct : k2 < g.cliques_ct
  · have := mP k2 hk2ct hact2
    rw [he2] at this
    exact this
  · exfalso
    have := ml.tail_inactive k2 (by omega) (by rw [← hMlen]; exact hk2)
    rw [this] at hact2
    exact absurd hact2 (by simp)

theorem StrongInv.toSweepPre {n : ℕ} {adj : ℕ → Finset ℕ} {g : Graph}
    (h : StrongInv n adj g) : SweepPre n adj g :=
  ⟨h.ci, h.ctpos, h.prefix_active 0 h.ctpos,
    fun k _ hk2 _ => h.prefix_nonempty k hk2⟩

theorem StrongInv_shuffle {n : ℕ} {adj : ℕ → Finset ℕ} {g : Graph}
    (h : StrongInv n adj g) (r : ℕ → ℕ) : StrongInv n adj (shuffle_active_cliques r g) := by
  have hct : g.cliques_ct ≤ g.cliques.length := by rw [h.ci.clen]; exact h.ci.ct_le
  obtain ⟨_, _, _, _, cq⟩ := shuffle_facts r g hct
  exact ⟨shuffle_CInv h.ci r, h.ctpos,
    cq (fun c => c.is_active = true) h.prefix_active,
    cq (fun c => 1 ≤ c.members_ct) h.prefix_nonempty⟩

theorem StrongInv_reverse {n : ℕ} {adj : ℕ → Finset ℕ} {g : Graph}
    (h : StrongInv n adj g) : StrongInv n adj (reverse_active_cliques g) := by
  have hct : g.cliques_ct ≤ g.cliques.length := by rw [h.ci.clen]; exact h.ci.ct_le
  obtain ⟨_, _, _, rd, _⟩ := reverse_facts g hct
  refine ⟨reverse_CInv h.ci, h.ctpos, ?_, ?_⟩
  · intro k hk
    have hk' : k < g.cliques_ct := hk
    rw [rd k hk']
    exact h.prefix_active _ (by omega)
  · intro k hk
    have hk' : k < g.cliques_ct := hk
    rw [rd k hk']
    exact h.prefix_nonempty _ (by omega)

theorem StrongInv_iterated {n : ℕ} {adj : ℕ → Finset ℕ} (ha : AdjWF n adj) (hn : 1 ≤ n)
    {g : Graph} (h : StrongInv n adj g) (coin : Bool) (r : ℕ → ℕ) :
    StrongInv n adj (vcc_iterated_greedy coin r g) := by
  cases coin with
  | false =>
    show StrongInv n adj (vcc_greedy (shuffle_active_cliques r g))
    have hs := StrongInv_shuffle h r
    exact sweep_StrongInv ha hn hs.toSweepPre
      (Or.inl (hs.prefix_nonempty 0 hs.ctpos))
  | true =>
    show StrongInv n adj (vcc_greedy (reverse_active_cliques g))
    have hs := StrongInv_reverse h
    exact sweep_StrongInv ha hn hs.toSweepPre
      (Or.inl (hs.prefix_nonempty 0 hs.ctpos))

theorem forced_split_sweep {n : ℕ} {adj : ℕ → Finset ℕ} (ha : AdjWF n adj) (hn : 1 ≤ n)
    {g : Graph} (h : StrongInv n adj g)
    (hct2 : 2 ≤ (g.activate_inactive_clique).1.cliques_ct) (v : ℕ) :
    StrongInv n adj (vcc_iterated_greedy true (fun _ => 0) (forced_split_step g v)) := by
  obtain ⟨hA, hdisj⟩ := activate_spec h.ci
  have hfacts : ((g.activate_inactive_clique).1.cliques.getD
        ((g.activate_inactive_clique).1.cliques_ct - 1) dC).is_active = true ∧
      (∀ k, k < (g.activate_inactive_clique).1.cliques_ct →
        k ≠ (g.activate_inactive_clique).1.cliques_ct - 1 →
        ((g.activate_inactive_clique).1.cliques.getD k dC).is_active = true →
        1 ≤ ((g.activate_inactive_clique).1.cliques.getD k dC).members_ct) := by
    rcases hdisj with ⟨hsz, heq⟩ | ⟨hlt, hct1, hframe, hnewact, hnew0⟩
    · rw [heq]
      rw [heq] at hct2
      refine ⟨h.prefix_active _ (by omega), ?_⟩
      intro k hk _ _
      exact h.prefix_nonempty k hk
    · rw [hct1]
      rw [hct1] at hct2
      have hsimp : g.cliques_ct + 1 - 1 = g.cliques_ct := by omega
      rw [hsimp]
      refine ⟨hnewact, ?_⟩
      intro k hk hkne hkact
      have hklt : k < g.cliques_ct := by omega
      rw [hframe k (by omega)] at hkact ⊢
      exact h.prefix_nonempty k hklt
  obtain ⟨hmact, hmid⟩ := hfacts
  have hg1ct : 2 ≤ (g.activate_inactive_clique).1.cliques_ct := hct2
  have hm0 : (g.activate_inactive_clique).1.cliques_ct - 1 ≠ 0 := by omega
  obtain ⟨lF, actF, monoF, frameF, n1F⟩ := step_single_LInv ha hn hA.vert hA.toLInv
    hm0 (show (g.activate_inactive_clique).1.cliques_ct - 1 <
        (g.activate_inactive_clique).1.cliques_ct by omega)
    (show 0 < (g.activate_inactive_clique).1.cliques_ct by omega)
    hmact (g.activate_inactive_clique).1.utility_bv v
  have hLeq : (forced_split_step g v).cliques =
      ((g.activate_inactive_clique).1.cliques.set
        ((g.activate_inactive_clique).1.cliques_ct - 1)
        (transfer_vertex_into_clique (g.activate_inactive_clique).1.vertices
          ((g.activate_inactive_clique).1.cliques.getD
            ((g.activate_inactive_clique).1.cliques_ct - 1) dC)
          ((g.activate_inactive_clique).1.cliques.getD 0 dC)
          (g.activate_inactive_clique).1.utility_bv v).1).set 0
        (transfer_vertex_into_clique (g.activate_inactive_clique).1.vertices
          ((g.activate_inactive_clique).1.cliques.getD
            ((g.activate_inactive_clique).1.cliques_ct - 1) dC)
          ((g.activate_inactive_clique).1.cliques.getD 0 dC)
          (g.activate_inactive_clique).1.utility_bv v).2.1 := by
    show ((g.activate_inactive_clique).1.cliques.set 0 _).set
        ((g.activate_inactive_clique).1.cliques_ct - 1) _ = _
    exact List.set_comm _ _ _ (fun hc => hm0 hc.symm)
  have hctfs : (forced_split_step g v).cliques_ct =
      (g.activate_inactive_clique).1.cliques_ct := rfl
  have hCfs : CInv n adj (forced_split_step g v) := by
    refine ⟨hA.size_eq, hA.vert, ?_, ?_, ?_, ?_, ?_, ?_⟩
    · rw [hLeq]
      exact lF.clen
    · rw [hctfs]
      exact lF.ct_le
    · intro c hc
      rw [hLeq] at hc
      exact lF.wf c hc
    · intro k hk hkn
      rw [hctfs] at hk
      rw [hLeq]
      exact lF.tail_inactive k hk hkn
    · intro c hc hcact
      rw [hLeq] at hc
      exact lF.inactive_empty c hc hcact
    · rw [coverSum_eq_coverL, hctfs, hLeq]
      exact lF.cons
  have hctlefs : (forced_split_step g v).cliques_ct ≤ (forced_split_step g v).cliques.length := by
    rw [hCfs.clen, hctfs]
    exact lF.ct_le
  obtain ⟨ra, rb, rc, rd, re⟩ := reverse_facts (forced_split_step g v) hctlefs
  have hsp : SweepPre n adj (reverse_active_cliques (forced_split_step g v)) := by
    refine ⟨reverse_CInv hCfs, ?_, ?_, ?_⟩
    · show 1 ≤ (forced_split_step g v).cliques_ct
      rw [hctfs]
      omega
    · rw [rd 0 (by rw [hctfs]; omega)]
      rw [hctfs, hLeq]
      exact actF
    · intro k hk1 hk2 hkact
      have hk2' : k < (forced_split_step g v).cliques_ct := hk2
      rw [rd k hk2'] at hkact ⊢
      rw [hLeq] at hkact ⊢
      rw [hctfs] at hk2' hkact ⊢
      refine n1F hmid _ (by omega) (by omega) hkact
  have hside : 1 ≤ ((reverse_active_cliques (forced_split_step g v)).cliques.getD 0
        dC).members_ct ∨ 2 ≤ (reverse_active_cliques (forced_split_step g v)).cliques_ct := by
    right
    show 2 ≤ (forced_split_step g v).cliques_ct
    rw [hctfs]
    exact hg1ct
  show StrongInv n adj (vcc_greedy (reverse_active_cliques (forced_split_step g v)))
  exact sweep_StrongInv ha hn hsp hside

/-! ## The iteration loop never panics on graphs with at least two vertices -/

theorem except_bind_ok {ε α β : Type} (a : α) (f : α → Except ε β) :
    (Except.ok a : Except ε α).bind f = f a := rfl

theorem trigger_ok {n : ℕ} {adj : ℕ → Finset ℕ} (ha : AdjWF n adj) (hn2 : 2 ≤ n)
    {st : RunState} (h : StrongInv n adj st.g) (rOracle : ℕ) :
    ∃ st', trigger_block rOracle st = Except.ok st' ∧ StrongInv n adj st'.g := by
  have hn : 1 ≤ n := by omega
  obtain ⟨hA, hdisj⟩ := activate_spec h.ci
  have hct2 : 2 ≤ (st.g.activate_inactive_clique).1.cliques_ct := by
    rcases hdisj with ⟨hsz, heq⟩ | ⟨hlt, hct1, _, _, _⟩
    · rw [heq]
      have h1 := h.ci.size_eq
      omega
    · rw [hct1]
      have := h.ctpos
      omega
  have hslot0 : ¬ ((st.g.activate_inactive_clique).1.cliques.getD 0 dC).members_ct = 0 := by
    rcases hdisj with ⟨hsz, heq⟩ | ⟨hlt, hct1, hframe, _, _⟩
    · rw [heq]
      have := h.prefix_nonempty 0 h.ctpos
      omega
    · rw [hframe 0 (by have := h.ctpos; omega)]
      have := h.prefix_nonempty 0 h.ctpos
      omega
  unfold trigger_block
  rw [if_neg hslot0]
  rw [if_neg (show ¬ (st.g.activate_inactive_clique).1.cliques_ct - 1 = 0 by omega)]
  exact ⟨_, rfl, forced_split_sweep ha hn h hct2 _⟩

theorem run_iteration_ok {n : ℕ} {adj : ℕ → Finset ℕ} (ha : AdjWF n adj) (hn2 : 2 ≤ n)
    (coin : Bool) (shuf : ℕ → ℕ) (rOracle : ℕ) (target i : ℕ) {st : RunState}
    (h : StrongInv n adj st.g) :
    run_iteration coin shuf rOracle target i st = Except.ok none ∨
    (∃ st', run_iteration coin shuf rOracle target i st = Except.ok (some st') ∧
      StrongInv n adj st'.g) := by
  have hn : 1 ≤ n := by omega
  simp only [run_iteration]
  by_cases htrig : st.cur_annealing_iterations + 1 ≥ st.iterations_per_annealing
  · rw [if_pos htrig]
    obtain ⟨st1, he, hs1⟩ := @trigger_ok n adj ha hn2
      { st with cur_annealing_iterations := st.cur_annealing_iterations + 1 }
      h rOracle
    rw [he, except_bind_ok]
    by_cases hc : i % 1000000 = 0 ∨
        (vcc_iterated_greedy coin shuf st1.g).cliques_ct < st1.pri_cliques
    · rw [if_pos hc]
      by_cases ht : (vcc_iterated_greedy coin shuf st1.g).cliques_ct ≤ target
      · rw [if_pos ht]
        exact Or.inl rfl
      · rw [if_neg ht]
        exact Or.inr ⟨_, rfl, StrongInv_iterated ha hn hs1 coin shuf⟩
    · rw [if_neg hc]
      exact Or.inr ⟨_, rfl, StrongInv_iterated ha hn hs1 coin shuf⟩
  · rw [if_neg htrig]
    rw [except_bind_ok]
    by_cases hc : i % 1000000 = 0 ∨
        (vcc_iterated_greedy coin shuf st.g).cliques_ct < st.pri_cliques
    · rw [if_pos hc]
      by_cases ht : (vcc_iterated_greedy coin shuf st.g).cliques_ct ≤ target
      · rw [if_pos ht]
        exact Or.inl rfl
      · rw [if_neg ht]
        exact Or.inr ⟨_, rfl, StrongInv_iterated ha hn h coin shuf⟩
    · rw [if_neg hc]
      exact Or.inr ⟨_, rfl, StrongInv_iterated ha hn h coin shuf⟩

theorem run_loop_ok {n : ℕ} {adj : ℕ → Finset ℕ} (ha : AdjWF n adj) (hn2 : 2 ≤ n)
    (coins : ℕ → Bool) (shufs : ℕ → ℕ → ℕ) (rs : ℕ → ℕ) (target num : ℕ) :
    ∀ (fuel i : ℕ) (st : RunState), StrongInv n adj st.g →
      ∃ b, run_loop coins shufs rs target num fuel i st = Except.ok b := by
  intro fuel
  induction fuel with
  | zero =>
    intro i st _
    exact ⟨false, rfl⟩
  | succ fuel ih =>
    intro i st h
    rw [run_loop]
    by_cases hi : i ≥ num + 1
    · rw [if_pos hi]
      exact ⟨false, rfl⟩
    · rw [if_neg hi]
      rcases run_iteration_ok ha hn2 (coins i) (shufs i) (rs i) target i h with
        he | ⟨st', he, hs⟩
      · rw [he]
        exact ⟨true, rfl⟩
      · rw [he]
        exact ih (i + 1) st' hs

theorem gPair_strong : StrongInv 2 adjPair gPair :=
  ⟨fresh_CInv adjPair_wf (by decide) (fun i j => i == 0 && j == 1) (fun _ => 0) (by decide),
   by decide, by decide, by decide⟩

/-- Claim C10 (corrected).  The original claim fails: for the one-vertex
instance `gOne` (as `main` builds it) with target 1, the forced-split trigger
reached after `iterations_per_annealing` stagnant iterations finds
`cliques_ct = 1`, `split_at_mut(cliques_ct - 1)` returns an empty left slice,
and the `[0]` index panics — see `claim_C10_counterexample`.  The amended
statement: on every graph with at least two vertices whose state satisfies the
run-loop invariant (in particular every freshly constructed graph), the whole
run — every trigger included — executes without either panic, for every
target, iteration budget and random stream. -/
theorem claim_C10 {n : ℕ} {adj : ℕ → Finset ℕ} (ha : AdjWF n adj) (hn2 : 2 ≤ n)
    {g : Graph} (h : StrongInv n adj g) (coins : ℕ → Bool) (shufs : ℕ → ℕ → ℕ)
    (rs : ℕ → ℕ) (num_iterations target : ℕ) :
    ∃ b, vcc_run_iterations_to_target coins shufs rs g num_iterations target =
      Except.ok b := by
  unfold vcc_run_iterations_to_target
  exact run_loop_ok ha hn2 coins shufs rs target num_iterations num_iterations 1 _ h

/-- Witness for claim C10: a short run on the two-vertex instance. -/
theorem claim_C10_witness :
    ∃ b, vcc_run_iterations_to_target (fun _ => true) (fun _ _ => 0) (fun _ => 0) gPair 3 1 =
      Except.ok b :=
  claim_C10 adjPair_wf (by decide) gPair_strong (fun _ => true) (fun _ _ => 0) (fun _ => 0) 3 1

/-! ## The one-vertex counterexample to the original claim C10 -/

theorem iterated_gOne (coin : Bool) (r : ℕ → ℕ) :
    vcc_iterated_greedy coin r gOne = gOne := by
  cases coin
  · rfl
  · rfl

theorem run_iteration_gOne (coin : Bool) (shuf : ℕ → ℕ) (r0 target i N c a p : ℕ)
    (h1 : ¬ c + 1 ≥ N)
    (h2 : ¬ (i % 1000000 = 0 ∨ gOne.cliques_ct < p)) :
    run_iteration coin shuf r0 target i
      { g := gOne, iterations_per_annealing := N, cur_annealing_iterations := c,
        cur_annealing_annealings := a, pri_cliques := p } =
      Except.ok (some
        { g := gOne, iterations_per_annealing := N, cur_annealing_iterations := c + 1,
          cur_annealing_annealings := a, pri_cliques := p }) := by
  simp only [run_iteration]
  rw [if_neg h1]
  rw [except_bind_ok]
  simp only [iterated_gOne]
  rw [if_neg h2]

theorem run_iteration_gOne_err (coin : Bool) (shuf : ℕ → ℕ) (r0 target i N c a : ℕ)
    (h1 : c + 1 ≥ N) :
    run_iteration coin shuf r0 target i
      { g := gOne, iterations_per_annealing := N, cur_annealing_iterations := c,
        cur_annealing_annealings := a, pri_cliques := 1 } =
      Except.error SplitPanic.splitIndexOutOfBounds := by
  simp only [run_iteration]
  rw [if_pos h1]
  have htr : trigger_block r0
      { g := gOne, iterations_per_annealing := N, cur_annealing_iterations := c + 1,
        cur_annealing_annealings := a, pri_cliques := 1 } =
      Except.error SplitPanic.splitIndexOutOfBounds := by
    unfold trigger_block
    rw [if_neg (show ¬ (((gOne : Graph).activate_inactive_clique).1.cliques.getD 0
        dC).members_ct = 0 from by decide)]
    rw [if_pos (show ((gOne : Graph).activate_inactive_clique).1.cliques_ct - 1 = 0 from
      by decide)]
  rw [htr]
  rfl

theorem run_loop_err (coins : ℕ → Bool) (shufs : ℕ → ℕ → ℕ) (rs : ℕ → ℕ) :
    ∀ (k i a : ℕ), 1 ≤ i → i + k = 1000000 → ∀ fuel, k + 1 ≤ fuel →
      run_loop coins shufs rs 1 1000000 fuel i
        { g := gOne, iterations_per_annealing := 1000000,
          cur_annealing_iterations := i - 1, cur_annealing_annealings := a,
          pri_cliques := 1 } =
        Except.error SplitPanic.splitIndexOutOfBounds := by
  intro k
  induction k with
  | zero =>
    intro i a h1 hik fuel hf
    have hi : i = 1000000 := by omega
    subst hi
    obtain ⟨fuel', rfl⟩ : ∃ f', fuel = f' + 1 := ⟨fuel - 1, by omega⟩
    rw [run_loop]
    rw [if_neg (by omega : ¬ (1000000 : ℕ) ≥ 1000000 + 1)]
    rw [run_iteration_gOne_err (coins 1000000) (shufs 1000000) (rs 1000000) 1 1000000
      1000000 (1000000 - 1) a (by omega)]
  | succ k ihk =>
    intro i a h1 hik fuel hf
    obtain ⟨fuel', rfl⟩ : ∃ f', fuel = f' + 1 := ⟨fuel - 1, by omega⟩
    rw [run_loop]
    rw [if_neg (by omega : ¬ i ≥ 1000000 + 1)]
    rw [run_iteration_gOne (coins i) (shufs i) (rs i) 1 i 1000000 (i - 1) a 1
      (by omega)
      (show ¬ (i % 1000000 = 0 ∨ gOne.cliques_ct < 1) from by
        intro hc
        rcases hc with hc | hc
        · omega
        · rw [show gOne.cliques_ct = 1 from rfl] at hc
          omega)]
    rw [show i - 1 + 1 = i by omega]
    exact ihk (i + 1) a (by omega) (by omega) fuel' (by omega)

/-- Counterexample to claim C10 as stated: on the one-vertex graph built
exactly as `main` builds it (`get_random_graph_with_k_cliques 1 1 …`), with
`target = 1` and the default `num_iterations`, the run reaches the forced-split
trigger after `iterations_per_annealing = 1,000,000` stagnant iterations with
`cliques_ct = 1`; `split_at_mut(cliques_ct - 1)` then yields an empty left
slice and the `[0]` index panics (here: the explicit
`SplitPanic.splitIndexOutOfBounds` error). -/
theorem claim_C10_counterexample :
    vcc_run_iterations_to_target (fun _ => true) (fun _ _ => 0) (fun _ => 0) gOne 1000000 1 =
      Except.error SplitPanic.splitIndexOutOfBounds := by
  unfold vcc_run_iterations_to_target
  exact run_loop_err (fun _ => true) (fun _ _ => 0) (fun _ => 0) 999999 1 0 (by omega)
    (by omega) 1000000 (by omega)
